import Mathlib

/-!
# Verification of the cursor-search-mcp wire codec, path cipher and checksum

Shallow embedding of the byte-level core of `cursor_search_mcp`
(`proto.py`, `encryption.py`, `auth.py`) and proofs about it.

Modelling conventions:
* Python `bytes` values are `List Nat`, each element intended to be `< 256`
  (hypotheses state this where it matters).
* Python `str` values are `List Nat` of Unicode code points (Python strings
  are sequences of code points; this avoids committing to Lean's `Char`
  validity invariants where Python has none).
* Python exceptions are `Option`/`none`; a function that cannot raise keeps
  a plain return type.
* External library primitives used by the source (gzip, AES-CTR keystream,
  HMAC) are parameters of the embedded functions, with the properties the
  source relies on stated as explicit hypotheses of the theorems.
-/

namespace CursorSearchMcp

/-! ## Bit-level bridge lemmas

The Python source manipulates non-negative integers with `&`, `|`, `>>`,
`<<`.  These lemmas convert the Lean transcriptions (`&&&`, `|||`, `>>>`,
`<<<`) to plain arithmetic, which `omega` can handle. -/

theorem and127_eq_mod (n : Nat) : n &&& 127 = n % 128 := by
  have h := Nat.and_pow_two_sub_one_eq_mod n 7
  norm_num at h
  exact h

theorem and7_eq_mod (n : Nat) : n &&& 7 = n % 8 := by
  have h := Nat.and_pow_two_sub_one_eq_mod n 3
  norm_num at h
  exact h

theorem and63_eq_mod (n : Nat) : n &&& 63 = n % 64 := by
  have h := Nat.and_pow_two_sub_one_eq_mod n 6
  norm_num at h
  exact h

theorem shiftRight3_eq_div (n : Nat) : n >>> 3 = n / 8 := by
  have h := Nat.shiftRight_eq_div_pow n 3
  norm_num at h
  exact h

theorem shiftRight7_eq_div (n : Nat) : n >>> 7 = n / 128 := by
  have h := Nat.shiftRight_eq_div_pow n 7
  norm_num at h
  exact h

/-- Disjoint `|||` is `+`: the low bits fit below the shifted part. -/
theorem lor_shiftLeft_eq_add {a : Nat} (b : Nat) {k : Nat} (h : a < 2 ^ k) :
    a ||| (b <<< k) = a + b * 2 ^ k := by
  apply Nat.eq_of_testBit_eq
  intro j
  rw [Nat.testBit_or, Nat.testBit_shiftLeft]
  have hrhs : a + b * 2 ^ k = 2 ^ k * b + a := by ring
  rw [hrhs, Nat.testBit_mul_pow_two_add b h j]
  by_cases hj : j < k
  · simp [hj, Nat.not_le_of_lt hj]
  · have ha : a.testBit j = false :=
      Nat.testBit_lt_two_pow
        (lt_of_lt_of_le h (Nat.pow_le_pow_right (by norm_num) (Nat.le_of_not_lt hj)))
    simp [hj, ha, Nat.le_of_not_lt hj]

theorem lor_shiftLeft3_eq_add (f w : Nat) (h : w < 8) :
    (f <<< 3) ||| w = w + f * 8 := by
  have h8 : w ||| (f <<< 3) = w + f * 2 ^ 3 := lor_shiftLeft_eq_add f (by norm_num [h])
  rw [Nat.lor_comm] at h8
  norm_num at h8
  exact h8

theorem lor_shiftLeft7_eq_add (a b : Nat) (h : a < 128) :
    a ||| (b <<< 7) = a + b * 128 := by
  have h8 : a ||| (b <<< 7) = a + b * 2 ^ 7 := lor_shiftLeft_eq_add b (by norm_num [h])
  norm_num at h8
  exact h8

/-- Tag decomposition: field number of `(f <<< 3) ||| w`. -/
theorem tag_field_number (f w : Nat) (h : w < 8) : ((f <<< 3) ||| w) >>> 3 = f := by
  rw [lor_shiftLeft3_eq_add f w h, shiftRight3_eq_div]
  omega

/-- Tag decomposition: wire type of `(f <<< 3) ||| w`. -/
theorem tag_wire_type (f w : Nat) (h : w < 8) : ((f <<< 3) ||| w) &&& 7 = w := by
  rw [lor_shiftLeft3_eq_add f w h, and7_eq_mod]
  omega

theorem lor128_eq_add {b : Nat} (h : b < 128) : 128 ||| b = 128 + b := by
  have hs : (1 : Nat) <<< 7 = 128 := by decide
  have h7 : b < 2 ^ 7 := by norm_num; omega
  have h8 : b ||| (1 <<< 7) = b + 1 * 2 ^ 7 := lor_shiftLeft_eq_add 1 h7
  rw [hs, Nat.lor_comm] at h8
  norm_num at h8
  omega

theorem lor128_and127 {b : Nat} (h : b < 128) : (128 ||| b) &&& 127 = b := by
  rw [lor128_eq_add h, and127_eq_mod]
  omega

theorem lor128_and128 (b : Nat) : (128 ||| b) &&& 128 ≠ 0 := by
  intro hc
  have h7 : ((128 ||| b) &&& 128).testBit 7 = false := by
    rw [hc]
    simp
  rw [Nat.testBit_and, Nat.testBit_or] at h7
  have h128 : (128 : Nat).testBit 7 = true := by decide
  rw [h128] at h7
  simp at h7

theorem lt128_and128 {b : Nat} (h : b < 128) : b &&& 128 = 0 := by
  apply Nat.eq_of_testBit_eq
  intro j
  rw [Nat.testBit_and]
  by_cases hj : j = 7
  · subst hj
    have : b.testBit 7 = false := Nat.testBit_lt_two_pow (by norm_num [h])
    simp [this]
  · have : (128 : Nat).testBit j = false := by
      have : (128 : Nat) = 2 ^ 7 := by norm_num
      rw [this, Nat.testBit_two_pow]
      simp [Ne.symm hj]
    simp [this]

/-! ## Varint codec (`encode_varint` / `decode_varint`, proto.py lines 8–16
and 181–191) -/

/-- Loop of `encode_varint`: `bits` is the pending low 7 bits, `value` the
remaining high bits.  Mirrors the `while value:` loop. -/
def encodeVarintGo (bits value : Nat) : List Nat :=
  if value = 0 then [bits]
  else (0x80 ||| bits) :: encodeVarintGo (value &&& 0x7F) (value >>> 7)
termination_by value
decreasing_by
  rename_i hv
  rw [shiftRight7_eq_div]
  omega

/-- `encode_varint` from proto.py. -/
def encode_varint (value : Nat) : List Nat :=
  encodeVarintGo (value &&& 0x7F) (value >>> 7)

/-- Loop of `decode_varint`; reads `data[pos]` and accumulates
`result |= (byte & 0x7F) << shift`.  A read past the end of the buffer is
Python's `IndexError`, i.e. `none`. -/
def decodeVarintGo (data : List Nat) (pos shift acc : Nat) : Option (Nat × Nat) :=
  match h : data.get? pos with
  | none => none
  | some b =>
    let acc' := acc ||| ((b &&& 0x7F) <<< shift)
    if b &&& 0x80 = 0 then some (acc', pos + 1)
    else decodeVarintGo data (pos + 1) (shift + 7) acc'
termination_by data.length - pos
decreasing_by
  have hp : pos < data.length := by
    by_contra hc
    have hn : data.get? pos = none := List.get?_eq_none.mpr (Nat.le_of_not_lt hc)
    rw [hn] at h
    exact Option.noConfusion h
  omega

/-- `decode_varint` from proto.py. -/
def decode_varint (data : List Nat) (pos : Nat) : Option (Nat × Nat) :=
  decodeVarintGo data pos 0 0

theorem encodeVarintGo_ne_nil (bits value : Nat) : encodeVarintGo bits value ≠ [] := by
  rw [encodeVarintGo]
  by_cases h : value = 0 <;> simp [h]

theorem encode_varint_ne_nil (v : Nat) : encode_varint v ≠ [] :=
  encodeVarintGo_ne_nil _ _

theorem encode_varint_length_pos (v : Nat) : 0 < (encode_varint v).length :=
  List.length_pos.mpr (encode_varint_ne_nil v)

/-- Progress and in-bounds: a successful varint decode strictly advances the
position and never reads past the end of the buffer. -/
theorem decodeVarintGo_bounds (data : List Nat) (pos shift acc : Nat) :
    ∀ v p, decodeVarintGo data pos shift acc = some (v, p) →
      pos < p ∧ p ≤ data.length := by
  induction pos, shift, acc using decodeVarintGo.induct data with
  | case1 pos shift acc hnone =>
    intro v p h
    rw [decodeVarintGo, hnone] at h
    exact Option.noConfusion h
  | case2 pos shift acc b hsome hstop =>
    intro v p h
    rw [decodeVarintGo, hsome] at h
    simp only [hstop, if_pos] at h
    have hp : pos < data.length := by
      by_contra hc
      have hn : data.get? pos = none := List.get?_eq_none.mpr (Nat.le_of_not_lt hc)
      rw [hn] at hsome
      exact Option.noConfusion hsome
    simp only [Option.some.injEq, Prod.mk.injEq] at h
    omega
  | case3 pos shift acc b hsome acc' hcont ih =>
    intro v p h
    rw [decodeVarintGo, hsome] at h
    simp only [hcont, if_neg] at h
    have := ih v p h
    omega

theorem decode_varint_bounds {data : List Nat} {pos v p : Nat}
    (h : decode_varint data pos = some (v, p)) : pos < p ∧ p ≤ data.length :=
  decodeVarintGo_bounds data pos 0 0 v p h

/-- The decode loop only looks at the buffer from `pos` on: shifting the
buffer by a prefix shifts all positions. -/
theorem decodeVarintGo_append (pre rest : List Nat) (pos shift acc : Nat) :
    decodeVarintGo (pre ++ rest) (pre.length + pos) shift acc =
      Option.map (fun r => (r.1, pre.length + r.2)) (decodeVarintGo rest pos shift acc) := by
  induction pos, shift, acc using decodeVarintGo.induct rest with
  | case1 pos shift acc hnone =>
    have hn : (pre ++ rest).get? (pre.length + pos) = none := by
      rw [List.get?_append_right (by omega)]
      simpa using hnone
    rw [decodeVarintGo, hn, decodeVarintGo, hnone]
    rfl
  | case2 pos shift acc b hsome hstop =>
    have hs : (pre ++ rest).get? (pre.length + pos) = some b := by
      rw [List.get?_append_right (by omega)]
      simpa using hsome
    rw [decodeVarintGo, hs, decodeVarintGo, hsome]
    simp only [hstop, if_pos]
    simp [Option.map]
    omega
  | case3 pos shift acc b hsome acc' hcont ih =>
    have hs : (pre ++ rest).get? (pre.length + pos) = some b := by
      rw [List.get?_append_right (by omega)]
      simpa using hsome
    rw [decodeVarintGo, hs, decodeVarintGo, hsome]
    simp only [hcont, if_neg]
    have hadd : pre.length + pos + 1 = pre.length + (pos + 1) := by omega
    rw [hadd]
    exact ih

/-- Core round-trip: decoding an encoded varint (with anything appended)
yields back the encoded value and stops right after it. -/
theorem decodeVarintGo_encodeVarintGo (value : Nat) :
    ∀ bits shift acc rest, bits < 128 → acc < 2 ^ shift →
    decodeVarintGo (encodeVarintGo bits value ++ rest) 0 shift acc =
      some (acc + bits * 2 ^ shift + value * 2 ^ (shift + 7),
            (encodeVarintGo bits value).length) := by
  induction value using Nat.strong_induction_on with
  | _ value ih =>
    intro bits shift acc rest hb hacc
    by_cases hv : value = 0
    · subst hv
      rw [encodeVarintGo]
      simp only [if_pos rfl]
      rw [decodeVarintGo]
      simp only [List.cons_append, List.get?]
      rw [and127_eq_mod, Nat.mod_eq_of_lt hb, lt128_and128 hb]
      simp only [if_pos rfl]
      rw [lor_shiftLeft_eq_add bits hacc]
      simp
    · rw [encodeVarintGo]
      simp only [if_neg hv]
      rw [decodeVarintGo]
      simp only [List.cons_append, List.get?]
      rw [lor128_and127 hb]
      have hne := lor128_and128 bits
      simp only [if_neg hne]
      have hdec : value >>> 7 < value := by
        rw [shiftRight7_eq_div]
        omega
      have hb' : value &&& 127 < 128 := by
        rw [and127_eq_mod]
        omega
      have hacc' : acc ||| bits <<< shift < 2 ^ (shift + 7) := by
        rw [lor_shiftLeft_eq_add bits hacc, pow_add]
        have h127 : bits * 2 ^ shift ≤ 127 * 2 ^ shift := by
          apply Nat.mul_le_mul_right
          omega
        have hpos : 0 < 2 ^ shift := Nat.pos_pow_of_pos shift (by norm_num)
        nlinarith
      have hpre : decodeVarintGo
          ([128 ||| bits] ++ (encodeVarintGo (value &&& 127) (value >>> 7) ++ rest))
          ((1 : Nat) + 0) (shift + 7) (acc ||| bits <<< shift) =
          Option.map (fun r => (r.1, 1 + r.2))
            (decodeVarintGo (encodeVarintGo (value &&& 127) (value >>> 7) ++ rest)
              0 (shift + 7) (acc ||| bits <<< shift)) := by
        have := decodeVarintGo_append [128 ||| bits]
          (encodeVarintGo (value &&& 127) (value >>> 7) ++ rest)
          0 (shift + 7) (acc ||| bits <<< shift)
        simpa using this
      have hrec := ih (value >>> 7) hdec (value &&& 127) (shift + 7)
        (acc ||| bits <<< shift) rest hb' hacc'
      have h01 : (0 : Nat) + 1 = 1 + 0 := by omega
      rw [show ((128 ||| bits) :: (encodeVarintGo (value &&& 127) (value >>> 7) ++ rest) : List Nat) =
        [128 ||| bits] ++ (encodeVarintGo (value &&& 127) (value >>> 7) ++ rest) from rfl, h01, hpre, hrec]
      simp only [Option.map]
      rw [lor_shiftLeft_eq_add bits hacc, and127_eq_mod, shiftRight7_eq_div]
      have hE : (2 : Nat) ^ (shift + 7 + 7) = 2 ^ (shift + 7) * 128 := by
        rw [pow_add]
        norm_num
      rw [hE]
      have key : value % 128 * 2 ^ (shift + 7) + value / 128 * (2 ^ (shift + 7) * 128) =
          value * 2 ^ (shift + 7) := by
        have hdm : value % 128 + value / 128 * 128 = value := by omega
        calc value % 128 * 2 ^ (shift + 7) + value / 128 * (2 ^ (shift + 7) * 128)
            = (value % 128 + value / 128 * 128) * 2 ^ (shift + 7) := by ring
          _ = value * 2 ^ (shift + 7) := by rw [hdm]
      simp only [List.length_cons, Option.some.injEq, Prod.mk.injEq]
      constructor
      · linarith [key]
      · omega

/-- Round-trip at position 0 with arbitrary following bytes. -/
theorem decode_varint_encode (n : Nat) (rest : List Nat) :
    decode_varint (encode_varint n ++ rest) 0 = some (n, (encode_varint n).length) := by
  rw [decode_varint, encode_varint]
  have hb : n &&& 127 < 128 := by
    rw [and127_eq_mod]
    omega
  have h := decodeVarintGo_encodeVarintGo (n >>> 7) (n &&& 127) 0 0 rest hb (by norm_num)
  rw [h, and127_eq_mod, shiftRight7_eq_div]
  simp only [Option.some.injEq, Prod.mk.injEq]
  constructor
  · norm_num
    omega
  · trivial

/-- Round-trip at an arbitrary position inside a larger buffer. -/
theorem decode_varint_at (pre : List Nat) (n : Nat) (rest : List Nat) :
    decode_varint (pre ++ (encode_varint n ++ rest)) pre.length =
      some (n, pre.length + (encode_varint n).length) := by
  have h := decodeVarintGo_append pre (encode_varint n ++ rest) 0 0 0
  simp only [Nat.add_zero] at h
  rw [decode_varint, h]
  have h2 := decode_varint_encode n rest
  rw [decode_varint] at h2
  rw [h2]
  rfl

/-! ## `skip_field` (proto.py lines 360–372) -/

/-- The `while data[pos] & 0x80: pos += 1` loop of `skip_field`'s wire-type-0
branch, followed by the final `pos += 1`. -/
def skipVarintGo (data : List Nat) (pos : Nat) : Option Nat :=
  match h : data.get? pos with
  | none => none
  | some b => if b &&& 0x80 = 0 then some (pos + 1) else skipVarintGo data (pos + 1)
termination_by data.length - pos
decreasing_by
  have hp : pos < data.length := by
    by_contra hc
    have hn : data.get? pos = none := List.get?_eq_none.mpr (Nat.le_of_not_lt hc)
    rw [hn] at h
    exact Option.noConfusion h
  omega

/-- `skip_field` from proto.py.  Wire types other than 0, 1, 2, 5 fall
through and return `pos` unchanged. -/
def skip_field (data : List Nat) (pos : Nat) (wire_type : Nat) : Option Nat :=
  if wire_type = 0 then skipVarintGo data pos
  else if wire_type = 1 then some (pos + 8)
  else if wire_type = 2 then
    match decode_varint data pos with
    | none => none
    | some lp => some (lp.2 + lp.1)
  else if wire_type = 5 then some (pos + 4)
  else some pos

theorem skipVarintGo_gt (data : List Nat) (pos : Nat) :
    ∀ p, skipVarintGo data pos = some p → pos < p := by
  induction pos using skipVarintGo.induct data with
  | case1 pos hnone =>
    intro p h
    rw [skipVarintGo, hnone] at h
    exact Option.noConfusion h
  | case2 pos b hsome hstop =>
    intro p h
    rw [skipVarintGo, hsome] at h
    simp only [hstop, if_pos] at h
    simp only [Option.some.injEq] at h
    omega
  | case3 pos b hsome hcont ih =>
    intro p h
    rw [skipVarintGo, hsome] at h
    simp only [hcont, if_neg] at h
    have := ih p h
    omega

theorem skip_field_ge {data : List Nat} {pos wt p : Nat}
    (h : skip_field data pos wt = some p) : pos ≤ p := by
  rw [skip_field] at h
  by_cases h0 : wt = 0
  · simp only [h0, if_pos] at h
    exact Nat.le_of_lt (skipVarintGo_gt data pos p h)
  · simp only [h0, if_neg, if_false] at h
    by_cases h1 : wt = 1
    · simp only [h1, if_pos] at h
      simp only [Option.some.injEq] at h
      omega
    · simp only [h1, if_false] at h
      by_cases h2 : wt = 2
      · simp only [h2, if_pos] at h
        cases hd : decode_varint data pos with
        | none =>
          rw [hd] at h
          exact Option.noConfusion h
        | some lp =>
          rw [hd] at h
          simp only [Option.some.injEq] at h
          have := decode_varint_bounds hd
          omega
      · simp only [h2, if_false] at h
        by_cases h5 : wt = 5
        · simp only [h5, if_pos] at h
          simp only [Option.some.injEq] at h
          omega
        · simp only [h5, if_false] at h
          simp only [Option.some.injEq] at h
          omega

/-! ## UTF-8 model

Python's `str.encode("utf-8")` / `bytes.decode("utf-8")` are the standard
strict UTF-8 codec; strings are sequences of code points (`List Nat` here).
`utf8Dec` rejects overlong forms, surrogates, out-of-range values and
truncated sequences, as CPython's strict decoder does. -/

def utf8EncChar (c : Nat) : List Nat :=
  if c < 0x80 then [c]
  else if c < 0x800 then [0xC0 + c / 64, 0x80 + c % 64]
  else if c < 0x10000 then [0xE0 + c / 4096, 0x80 + c / 64 % 64, 0x80 + c % 64]
  else [0xF0 + c / 262144, 0x80 + c / 4096 % 64, 0x80 + c / 64 % 64, 0x80 + c % 64]

def utf8Enc (s : List Nat) : List Nat := (s.map utf8EncChar).join

def utf8DecPair (b b1 : Nat) : Option Nat :=
  if 0x80 ≤ b1 ∧ b1 < 0xC0 then some ((b - 0xC0) * 64 + (b1 - 0x80)) else none

def utf8DecTriple (b b1 b2 : Nat) : Option Nat :=
  if (0x80 ≤ b1 ∧ b1 < 0xC0) ∧ (0x80 ≤ b2 ∧ b2 < 0xC0) then
    if 0x800 ≤ (b - 0xE0) * 4096 + (b1 - 0x80) * 64 + (b2 - 0x80) ∧
        ¬(0xD800 ≤ (b - 0xE0) * 4096 + (b1 - 0x80) * 64 + (b2 - 0x80) ∧
          (b - 0xE0) * 4096 + (b1 - 0x80) * 64 + (b2 - 0x80) < 0xE000) then
      some ((b - 0xE0) * 4096 + (b1 - 0x80) * 64 + (b2 - 0x80))
    else none
  else none

def utf8DecQuad (b b1 b2 b3 : Nat) : Option Nat :=
  if (0x80 ≤ b1 ∧ b1 < 0xC0) ∧ (0x80 ≤ b2 ∧ b2 < 0xC0) ∧ (0x80 ≤ b3 ∧ b3 < 0xC0) then
    if 0x10000 ≤ (b - 0xF0) * 262144 + (b1 - 0x80) * 4096 + (b2 - 0x80) * 64 + (b3 - 0x80) ∧
        (b - 0xF0) * 262144 + (b1 - 0x80) * 4096 + (b2 - 0x80) * 64 + (b3 - 0x80) < 0x110000 then
      some ((b - 0xF0) * 262144 + (b1 - 0x80) * 4096 + (b2 - 0x80) * 64 + (b3 - 0x80))
    else none
  else none

/-- Decode the first UTF-8 scalar from byte `b` followed by `bs`; returns the
code point and the unconsumed bytes.  Rejects stray continuation bytes,
overlong forms, surrogates and values above `0x10FFFF`. -/
def utf8DecOne (b : Nat) (bs : List Nat) : Option (Nat × List Nat) :=
  if b < 0x80 then some (b, bs)
  else if b < 0xC2 then none
  else if b < 0xE0 then
    match bs with
    | b1 :: bs' => Option.map (fun v => (v, bs')) (utf8DecPair b b1)
    | [] => none
  else if b < 0xF0 then
    match bs with
    | b1 :: b2 :: bs' => Option.map (fun v => (v, bs')) (utf8DecTriple b b1 b2)
    | _ => none
  else if b < 0xF5 then
    match bs with
    | b1 :: b2 :: b3 :: bs' => Option.map (fun v => (v, bs')) (utf8DecQuad b b1 b2 b3)
    | _ => none
  else none

theorem utf8DecOne_length_le (b : Nat) (bs : List Nat) (vr : Nat × List Nat)
    (h : utf8DecOne b bs = some vr) : vr.2.length ≤ bs.length := by
  rw [utf8DecOne.eq_def] at h
  by_cases h1 : b < 0x80
  · rw [if_pos h1] at h
    simp only [Option.some.injEq] at h
    rw [← h]
  · rw [if_neg h1] at h
    by_cases h2 : b < 0xC2
    · rw [if_pos h2] at h
      exact Option.noConfusion h
    · rw [if_neg h2] at h
      by_cases h3 : b < 0xE0
      · rw [if_pos h3] at h
        cases bs with
        | nil => exact Option.noConfusion h
        | cons b1 bs' =>
          dsimp only at h
          cases hp : utf8DecPair b b1 with
          | none =>
            rw [hp] at h
            exact Option.noConfusion h
          | some v =>
            rw [hp] at h
            simp only [Option.map_some', Option.some.injEq] at h
            rw [← h]
            simp
      · rw [if_neg h3] at h
        by_cases h4 : b < 0xF0
        · rw [if_pos h4] at h
          match bs with
          | [] => exact Option.noConfusion h
          | [b1] => exact Option.noConfusion h
          | b1 :: b2 :: bs' =>
            dsimp only at h
            cases hp : utf8DecTriple b b1 b2 with
            | none =>
              rw [hp] at h
              exact Option.noConfusion h
            | some v =>
              rw [hp] at h
              simp only [Option.map_some', Option.some.injEq] at h
              rw [← h]
              simp
              omega
        · rw [if_neg h4] at h
          by_cases h5 : b < 0xF5
          · rw [if_pos h5] at h
            match bs with
            | [] => exact Option.noConfusion h
            | [b1] => exact Option.noConfusion h
            | [b1, b2] => exact Option.noConfusion h
            | b1 :: b2 :: b3 :: bs' =>
              dsimp only at h
              cases hp : utf8DecQuad b b1 b2 b3 with
              | none =>
                rw [hp] at h
                exact Option.noConfusion h
              | some v =>
                rw [hp] at h
                simp only [Option.map_some', Option.some.injEq] at h
                rw [← h]
                simp
                omega
          · rw [if_neg h5] at h
            exact Option.noConfusion h

/-- Strict UTF-8 decoding of a whole buffer (Python `bytes.decode("utf-8")`). -/
def utf8Dec (l : List Nat) : Option (List Nat) :=
  match l with
  | [] => some []
  | b :: bs =>
    match h : utf8DecOne b bs with
    | none => none
    | some vr =>
      match utf8Dec vr.2 with
      | none => none
      | some s => some (vr.1 :: s)
termination_by l.length
decreasing_by
  have := utf8DecOne_length_le b bs vr h
  simp only [List.length_cons]
  omega

/-- A Unicode scalar value: what a well-formed Python `str` element that can
be UTF-8 encoded must be (no surrogates, below `0x110000`). -/
def ValidCp (c : Nat) : Prop := c < 0x110000 ∧ ¬(0xD800 ≤ c ∧ c < 0xE000)

instance (c : Nat) : Decidable (ValidCp c) := by
  unfold ValidCp
  infer_instance

def ValidStr (s : List Nat) : Prop := ∀ c ∈ s, ValidCp c

instance (s : List Nat) : Decidable (ValidStr s) := by
  unfold ValidStr
  infer_instance

theorem utf8Dec_encChar (c : Nat) (h : ValidCp c) (rest : List Nat) :
    utf8Dec (utf8EncChar c ++ rest) = Option.map (fun s => c :: s) (utf8Dec rest) := by
  obtain ⟨hlt, hsur⟩ := h
  by_cases h1 : c < 0x80
  · rw [utf8EncChar, if_pos h1, List.singleton_append, utf8Dec]
    have hone : utf8DecOne c rest = some (c, rest) := by
      rw [utf8DecOne.eq_def, if_pos h1]
    rw [hone]
    dsimp only
    cases hr : utf8Dec rest <;> rfl
  · by_cases h2 : c < 0x800
    · rw [utf8EncChar, if_neg h1, if_pos h2, List.cons_append, List.singleton_append,
        utf8Dec]
      have hone : utf8DecOne (0xC0 + c / 64) ((0x80 + c % 64) :: rest) = some (c, rest) := by
        rw [utf8DecOne.eq_def]
        rw [if_neg (by omega), if_neg (by omega), if_pos (by omega)]
        dsimp only
        rw [utf8DecPair, if_pos (by omega)]
        have hval : (0xC0 + c / 64 - 0xC0) * 64 + (0x80 + c % 64 - 0x80) = c := by omega
        rw [hval]
        rfl
      rw [hone]
      dsimp only
      cases hr : utf8Dec rest <;> rfl
    · by_cases h3 : c < 0x10000
      · rw [utf8EncChar, if_neg h1, if_neg h2, if_pos h3, List.cons_append,
          List.cons_append, List.singleton_append, utf8Dec]
        have hone : utf8DecOne (0xE0 + c / 4096)
            ((0x80 + c / 64 % 64) :: (0x80 + c % 64) :: rest) = some (c, rest) := by
          rw [utf8DecOne.eq_def]
          rw [if_neg (by omega), if_neg (by omega), if_neg (by omega), if_pos (by omega)]
          dsimp only
          rw [utf8DecTriple, if_pos (by omega), if_pos (by omega)]
          have hval : (0xE0 + c / 4096 - 0xE0) * 4096 + (0x80 + c / 64 % 64 - 0x80) * 64 +
              (0x80 + c % 64 - 0x80) = c := by omega
          rw [hval]
          rfl
        rw [hone]
        dsimp only
        cases hr : utf8Dec rest <;> rfl
      · rw [utf8EncChar, if_neg h1, if_neg h2, if_neg h3, List.cons_append,
          List.cons_append, List.cons_append, List.singleton_append, utf8Dec]
        have hone : utf8DecOne (0xF0 + c / 262144)
            ((0x80 + c / 4096 % 64) :: (0x80 + c / 64 % 64) :: (0x80 + c % 64) :: rest) =
            some (c, rest) := by
          rw [utf8DecOne.eq_def]
          rw [if_neg (by omega), if_neg (by omega), if_neg (by omega), if_neg (by omega),
            if_pos (by omega)]
          dsimp only
          rw [utf8DecQuad, if_pos (by omega), if_pos (by omega)]
          have hval : (0xF0 + c / 262144 - 0xF0) * 262144 +
              (0x80 + c / 4096 % 64 - 0x80) * 4096 +
              (0x80 + c / 64 % 64 - 0x80) * 64 + (0x80 + c % 64 - 0x80) = c := by omega
          rw [hval]
          rfl
        rw [hone]
        dsimp only
        cases hr : utf8Dec rest <;> rfl

theorem utf8Enc_cons (c : Nat) (s : List Nat) :
    utf8Enc (c :: s) = utf8EncChar c ++ utf8Enc s := by
  simp [utf8Enc]

theorem utf8Enc_append (s t : List Nat) :
    utf8Enc (s ++ t) = utf8Enc s ++ utf8Enc t := by
  simp [utf8Enc]

theorem utf8Dec_enc_append (s : List Nat) (h : ValidStr s) (rest : List Nat) :
    utf8Dec (utf8Enc s ++ rest) = Option.map (fun t => s ++ t) (utf8Dec rest) := by
  induction s with
  | nil =>
    cases hr : utf8Dec rest <;> simp [utf8Enc, hr]
  | cons c s ih =>
    have hc : ValidCp c := h c (by simp)
    have hs : ValidStr s := fun x hx => h x (by simp [hx])
    rw [utf8Enc_cons, List.append_assoc, utf8Dec_encChar c hc, ih hs]
    cases hr : utf8Dec rest <;> simp [hr]

/-- Strict UTF-8 round-trip on valid code-point strings. -/
theorem utf8Dec_enc (s : List Nat) (h : ValidStr s) : utf8Dec (utf8Enc s) = some s := by
  have h2 := utf8Dec_enc_append s h []
  rw [List.append_nil] at h2
  rw [h2]
  have h0 : utf8Dec [] = some [] := by rw [utf8Dec]
  rw [h0]
  simp

theorem utf8EncChar_lt256 (c : Nat) (h : ValidCp c) : ∀ b ∈ utf8EncChar c, b < 256 := by
  obtain ⟨hlt, _⟩ := h
  intro b hb
  rw [utf8EncChar] at hb
  by_cases h1 : c < 0x80
  · rw [if_pos h1] at hb
    simp at hb
    omega
  · rw [if_neg h1] at hb
    by_cases h2 : c < 0x800
    · rw [if_pos h2] at hb
      simp at hb
      rcases hb with hb | hb <;> omega
    · rw [if_neg h2] at hb
      by_cases h3 : c < 0x10000
      · rw [if_pos h3] at hb
        simp at hb
        rcases hb with hb | hb | hb <;> omega
      · rw [if_neg h3] at hb
        simp at hb
        rcases hb with hb | hb | hb | hb <;> omega

theorem utf8Enc_lt256 (s : List Nat) (h : ValidStr s) : ∀ b ∈ utf8Enc s, b < 256 := by
  intro b hb
  rw [utf8Enc] at hb
  simp only [List.mem_join, List.mem_map] at hb
  obtain ⟨l, ⟨c, hc, hl⟩, hbl⟩ := hb
  exact utf8EncChar_lt256 c (h c hc) b (hl ▸ hbl)

theorem utf8Enc_ne_nil {s : List Nat} (h : s ≠ []) : utf8Enc s ≠ [] := by
  cases s with
  | nil => exact absurd rfl h
  | cons c s =>
    rw [utf8Enc_cons]
    intro hc
    have h1 : utf8EncChar c = [] := by
      cases he : utf8EncChar c with
      | nil => rfl
      | cons x xs =>
        rw [he] at hc
        exact List.noConfusion hc
    rw [utf8EncChar] at h1
    by_cases hx : c < 0x80
    · rw [if_pos hx] at h1
      exact List.noConfusion h1
    · rw [if_neg hx] at h1
      by_cases hy : c < 0x800
      · rw [if_pos hy] at h1
        exact List.noConfusion h1
      · rw [if_neg hy] at h1
        by_cases hz : c < 0x10000
        · rw [if_pos hz] at h1
          exact List.noConfusion h1
        · rw [if_neg hz] at h1
          exact List.noConfusion h1

/-! ## Wire field encoders (proto.py lines 19–54)

Python `str` arguments are code-point lists; `bytes` arguments byte lists.
A double value is represented by the 8 little-endian bytes of its IEEE-754
image (what `struct.pack("<d", value)` emits); `none` is Python `None`. -/

def encode_string (field_number : Nat) (value : List Nat) : List Nat :=
  if value = [] then []
  else
    encode_varint ((field_number <<< 3) ||| 2) ++
      encode_varint (utf8Enc value).length ++ utf8Enc value

def encode_int32 (field_number : Nat) (value : Nat) : List Nat :=
  if value = 0 then []
  else encode_varint ((field_number <<< 3) ||| 0) ++ encode_varint value

def encode_double (field_number : Nat) (value : Option (List Nat)) : List Nat :=
  match value with
  | none => []
  | some bytes => encode_varint ((field_number <<< 3) ||| 1) ++ bytes

def encode_bool (field_number : Nat) (value : Bool) : List Nat :=
  if value = false then []
  else encode_varint ((field_number <<< 3) ||| 0) ++ [1]

def encode_message (field_number : Nat) (data : List Nat) : List Nat :=
  if data = [] then []
  else encode_varint ((field_number <<< 3) ||| 2) ++ encode_varint data.length ++ data

/-- The code points of the literal string `"origin"`. -/
def originStr : List Nat := [111, 114, 105, 103, 105, 110]

/-- `encode_repository_info` (proto.py lines 57–96); parameters in source
order, truthiness of optional strings modelled as in Python. -/
def encode_repository_info (repo_name repo_owner relative_workspace_path : List Nat)
    (remote_url : Option (List Nat)) (is_tracked is_local : Bool)
    (num_files : Option Nat) (orthogonal_transform_seed : Option (List Nat))
    (preferred_embedding_model : Option Nat) (workspace_uri : Option (List Nat))
    (preferred_db_provider : Option Nat) : List Nat :=
  encode_string 1 relative_workspace_path ++
  (match remote_url with
   | some u => if u = [] then [] else encode_string 2 u ++ encode_string 3 originStr
   | none => []) ++
  encode_string 4 repo_name ++
  encode_string 5 repo_owner ++
  encode_bool 6 is_tracked ++
  encode_bool 7 is_local ++
  (match num_files with
   | some n => encode_int32 8 n
   | none => []) ++
  encode_double 9 orthogonal_transform_seed ++
  (match preferred_embedding_model with
   | some n => encode_int32 10 n
   | none => []) ++
  (match workspace_uri with
   | some u => if u = [] then [] else encode_string 11 u
   | none => []) ++
  (match preferred_db_provider with
   | some n => encode_int32 12 n
   | none => [])

/-- `encode_search_repository_request` (proto.py lines 99–138); the
`relative_workspace_path` the source always passes is its default `"."`
(code point 46). -/
def encode_search_repository_request (query repo_name repo_owner : List Nat)
    (top_k : Nat) (rerank : Bool) (glob_filter : Option (List Nat))
    (remote_url : Option (List Nat)) (is_tracked is_local : Bool)
    (num_files : Option Nat) (orthogonal_transform_seed : Option (List Nat))
    (preferred_embedding_model : Option Nat) (workspace_uri : Option (List Nat))
    (preferred_db_provider : Option Nat) : List Nat :=
  encode_string 1 query ++
  encode_message 2 (encode_repository_info repo_name repo_owner [46] remote_url
    is_tracked is_local num_files orthogonal_transform_seed
    preferred_embedding_model workspace_uri preferred_db_provider) ++
  encode_int32 3 top_k ++
  encode_bool 5 rerank ++
  (match glob_filter with
   | some g => if g = [] then [] else encode_string 7 g
   | none => [])

/-! ## Wire decoding helpers (proto.py lines 194–197 and the fixed-width
reads in `parse_code_result`) -/

/-- `decode_string` from proto.py: a varint length followed by that many
UTF-8 bytes; the Python slice `data[pos:pos+length]` truncates at the end of
the buffer. -/
def decode_string (data : List Nat) (pos : Nat) : Option (List Nat × Nat) :=
  match decode_varint data pos with
  | none => none
  | some lp =>
    match utf8Dec ((data.drop lp.2).take lp.1) with
    | none => none
    | some s => some (s, lp.2 + lp.1)

/-- Read exactly `n` bytes at `pos`: what `struct.unpack` on the slice
`data[pos:pos+n]` requires (raises if fewer than `n` bytes remain). -/
def readBytes (data : List Nat) (pos n : Nat) : Option (List Nat) :=
  if pos + n ≤ data.length then some ((data.drop pos).take n) else none

/-! ## Parsed message values

These mirror the Python dicts built by the `parse_*` functions.  A missing
nested dict (`{}`) is `none`; a parsed score keeps the raw wire bytes and
their width (Python stores the corresponding IEEE-754 float; the initial
`0.0` is the zero double image, 8 zero bytes). -/

structure PPosition where
  line : Nat
  column : Nat
deriving DecidableEq

structure PRange where
  startPosition : Option PPosition
  endPosition : Option PPosition
deriving DecidableEq

structure PCodeBlock where
  relativeWorkspacePath : List Nat
  contents : List Nat
  range : PRange
  fileContents : List Nat
  overrideContents : List Nat
  originalContents : List Nat
deriving DecidableEq

inductive PScore where
  | f64 : List Nat → PScore
  | f32 : List Nat → PScore
deriving DecidableEq

structure PCodeResult where
  codeBlock : Option PCodeBlock
  score : PScore
deriving DecidableEq

def initPosition : PPosition := ⟨0, 0⟩

def initRange : PRange := ⟨none, none⟩

def initCodeBlock : PCodeBlock := ⟨[], [], initRange, [], [], []⟩

def initScore : PScore := PScore.f64 [0, 0, 0, 0, 0, 0, 0, 0]

def initCodeResult : PCodeResult := ⟨none, initScore⟩

theorem decode_string_lt {data : List Nat} {pos : Nat} {s : List Nat} {p2 : Nat}
    (h : decode_string data pos = some (s, p2)) : pos < p2 := by
  rw [decode_string] at h
  cases hd : decode_varint data pos with
  | none =>
    rw [hd] at h
    exact Option.noConfusion h
  | some lp =>
    rw [hd] at h
    dsimp only at h
    cases hu : utf8Dec ((data.drop lp.2).take lp.1) with
    | none =>
      rw [hu] at h
      exact Option.noConfusion h
    | some s' =>
      rw [hu] at h
      simp only [Option.some.injEq, Prod.mk.injEq] at h
      have hb : pos < lp.2 ∧ lp.2 ≤ data.length := by
        cases lp
        exact decode_varint_bounds hd
      omega

/-! ## Message parsers (proto.py lines 232–418)

Each Python `while pos < end:` loop is a `...Go` function carrying the
result record; the wrappers apply the initial dicts.  `none` is an
uncaught Python exception. -/

/-- Loop of `parse_position` (proto.py lines 342–357). -/
def parsePositionGo (data : List Nat) (en pos : Nat) (acc : PPosition) : Option PPosition :=
  if pos < en then
    match h : decode_varint data pos with
    | none => none
    | some (tag, pos1) =>
      if tag >>> 3 = 1 ∧ tag &&& 7 = 0 then
        match h2 : decode_varint data pos1 with
        | none => none
        | some (v, pos2) => parsePositionGo data en pos2 { acc with line := v }
      else if tag >>> 3 = 2 ∧ tag &&& 7 = 0 then
        match h2 : decode_varint data pos1 with
        | none => none
        | some (v, pos2) => parsePositionGo data en pos2 { acc with column := v }
      else
        match h2 : skip_field data pos1 (tag &&& 7) with
        | none => none
        | some p2 => parsePositionGo data en p2 acc
  else some acc
termination_by en - pos
decreasing_by
  · have ha := decode_varint_bounds h
    have hb := decode_varint_bounds h2
    omega
  · have ha := decode_varint_bounds h
    have hb := decode_varint_bounds h2
    omega
  · have ha := decode_varint_bounds h
    have hb := skip_field_ge h2
    omega

def parse_position (data : List Nat) (pos en : Nat) : Option PPosition :=
  parsePositionGo data en pos initPosition

/-- Loop of `parse_range` (proto.py lines 318–339). -/
def parseRangeGo (data : List Nat) (en pos : Nat) (acc : PRange) : Option PRange :=
  if pos < en then
    match h : decode_varint data pos with
    | none => none
    | some (tag, pos1) =>
      if tag >>> 3 = 1 ∧ tag &&& 7 = 2 then
        match h2 : decode_varint data pos1 with
        | none => none
        | some (length, pos2) =>
          match parse_position data pos2 (pos2 + length) with
          | none => none
          | some p => parseRangeGo data en (pos2 + length) { acc with startPosition := some p }
      else if tag >>> 3 = 2 ∧ tag &&& 7 = 2 then
        match h2 : decode_varint data pos1 with
        | none => none
        | some (length, pos2) =>
          match parse_position data pos2 (pos2 + length) with
          | none => none
          | some p => parseRangeGo data en (pos2 + length) { acc with endPosition := some p }
      else
        match h2 : skip_field data pos1 (tag &&& 7) with
        | none => none
        | some p2 => parseRangeGo data en p2 acc
  else some acc
termination_by en - pos
decreasing_by
  · have ha := decode_varint_bounds h
    have hb := decode_varint_bounds h2
    omega
  · have ha := decode_varint_bounds h
    have hb := decode_varint_bounds h2
    omega
  · have ha := decode_varint_bounds h
    have hb := skip_field_ge h2
    omega

def parse_range (data : List Nat) (pos en : Nat) : Option PRange :=
  parseRangeGo data en pos initRange

/-- The contents-precedence fallback applied after the `parse_code_block`
loop (proto.py lines 307–313). -/
def applyContentsFallback (r : PCodeBlock) : PCodeBlock :=
  if r.contents = [] then
    if r.overrideContents ≠ [] then { r with contents := r.overrideContents }
    else if r.fileContents ≠ [] then { r with contents := r.fileContents }
    else if r.originalContents ≠ [] then { r with contents := r.originalContents }
    else r
  else r

/-- Loop of `parse_code_block` (proto.py lines 274–305). -/
def parseCodeBlockGo (data : List Nat) (en pos : Nat) (acc : PCodeBlock) : Option PCodeBlock :=
  if pos < en then
    match h : decode_varint data pos with
    | none => none
    | some (tag, pos1) =>
      if tag >>> 3 = 1 ∧ tag &&& 7 = 2 then
        match h2 : decode_string data pos1 with
        | none => none
        | some (s, pos2) => parseCodeBlockGo data en pos2 { acc with relativeWorkspacePath := s }
      else if tag >>> 3 = 2 ∧ tag &&& 7 = 2 then
        match h2 : decode_string data pos1 with
        | none => none
        | some (s, pos2) => parseCodeBlockGo data en pos2 { acc with fileContents := s }
      else if tag >>> 3 = 3 ∧ tag &&& 7 = 2 then
        match h2 : decode_varint data pos1 with
        | none => none
        | some (length, pos2) =>
          match parse_range data pos2 (pos2 + length) with
          | none => none
          | some r => parseCodeBlockGo data en (pos2 + length) { acc with range := r }
      else if tag >>> 3 = 4 ∧ tag &&& 7 = 2 then
        match h2 : decode_string data pos1 with
        | none => none
        | some (s, pos2) => parseCodeBlockGo data en pos2 { acc with contents := s }
      else if tag >>> 3 = 6 ∧ tag &&& 7 = 2 then
        match h2 : decode_string data pos1 with
        | none => none
        | some (s, pos2) => parseCodeBlockGo data en pos2 { acc with overrideContents := s }
      else if tag >>> 3 = 7 ∧ tag &&& 7 = 2 then
        match h2 : decode_string data pos1 with
        | none => none
        | some (s, pos2) => parseCodeBlockGo data en pos2 { acc with originalContents := s }
      else
        match h2 : skip_field data pos1 (tag &&& 7) with
        | none => none
        | some p2 => parseCodeBlockGo data en p2 acc
  else some acc
termination_by en - pos
decreasing_by
  · have ha := decode_varint_bounds h
    have hb := decode_string_lt h2
    omega
  · have ha := decode_varint_bounds h
    have hb := decode_string_lt h2
    omega
  · have ha := decode_varint_bounds h
    have hb := decode_varint_bounds h2
    omega
  · have ha := decode_varint_bounds h
    have hb := decode_string_lt h2
    omega
  · have ha := decode_varint_bounds h
    have hb := decode_string_lt h2
    omega
  · have ha := decode_varint_bounds h
    have hb := decode_string_lt h2
    omega
  · have ha := decode_varint_bounds h
    have hb := skip_field_ge h2
    omega

def parse_code_block (data : List Nat) (pos en : Nat) : Option PCodeBlock :=
  match parseCodeBlockGo data en pos initCodeBlock with
  | none => none
  | some r => some (applyContentsFallback r)

/-- Loop of `parse_code_result` (proto.py lines 249–271).  The score reads
are `struct.unpack` on `data[pos:pos+8]` / `data[pos:pos+4]`, which fail on
short slices. -/
def parseCodeResultGo (data : List Nat) (en pos : Nat) (acc : PCodeResult) : Option PCodeResult :=
  if pos < en then
    match h : decode_varint data pos with
    | none => none
    | some (tag, pos1) =>
      if tag >>> 3 = 1 ∧ tag &&& 7 = 2 then
        match h2 : decode_varint data pos1 with
        | none => none
        | some (length, pos2) =>
          match parse_code_block data pos2 (pos2 + length) with
          | none => none
          | some cb => parseCodeResultGo data en (pos2 + length) { acc with codeBlock := some cb }
      else if tag >>> 3 = 2 ∧ tag &&& 7 = 1 then
        match readBytes data pos1 8 with
        | none => none
        | some bytes => parseCodeResultGo data en (pos1 + 8) { acc with score := PScore.f64 bytes }
      else if tag >>> 3 = 2 ∧ tag &&& 7 = 5 then
        match readBytes data pos1 4 with
        | none => none
        | some bytes => parseCodeResultGo data en (pos1 + 4) { acc with score := PScore.f32 bytes }
      else
        match h2 : skip_field data pos1 (tag &&& 7) with
        | none => none
        | some p2 => parseCodeResultGo data en p2 acc
  else some acc
termination_by en - pos
decreasing_by
  · have ha := decode_varint_bounds h
    have hb := decode_varint_bounds h2
    omega
  · have ha := decode_varint_bounds h
    omega
  · have ha := decode_varint_bounds h
    omega
  · have ha := decode_varint_bounds h
    have hb := skip_field_ge h2
    omega

def parse_code_result (data : List Nat) (pos en : Nat) : Option PCodeResult :=
  parseCodeResultGo data en pos initCodeResult

/-- Loop of `parse_code_result_with_classification` (proto.py lines
232–246).  `some none` is Python returning `None`; outer `none` is an
exception. -/
def parseCRWCGo (data : List Nat) (en pos : Nat) : Option (Option PCodeResult) :=
  if pos < en then
    match h : decode_varint data pos with
    | none => none
    | some (tag, pos1) =>
      if tag >>> 3 = 1 ∧ tag &&& 7 = 2 then
        match h2 : decode_varint data pos1 with
        | none => none
        | some (length, pos2) =>
          match parse_code_result data pos2 (pos2 + length) with
          | none => none
          | some r => some (some r)
      else
        match h2 : skip_field data pos1 (tag &&& 7) with
        | none => none
        | some p2 => parseCRWCGo data en p2
  else some none
termination_by en - pos
decreasing_by
  · have ha := decode_varint_bounds h
    have hb := skip_field_ge h2
    omega

def parse_code_result_with_classification (data : List Nat) (pos en : Nat) :
    Option (Option PCodeResult) :=
  parseCRWCGo data en pos

/-- The acceptance test `result and result["codeBlock"].get("relativeWorkspacePath")`
from `parse_search_response`: truthiness of the path string. -/
def hasNonemptyPath (r : PCodeResult) : Bool :=
  match r.codeBlock with
  | some cb => !cb.relativeWorkspacePath.isEmpty
  | none => false

mutual

/-- `parse_search_response` (proto.py lines 375–418). -/
def parse_search_response (data : List Nat) : Option (List PCodeResult) :=
  parseSearchGo data 0 []
termination_by (data.length, data.length + 2)
decreasing_by
  simp_wf
  omega

/-- The `while pos < end:` loop of `parse_search_response`, with `end`
fixed to `len(data)` as in the source. -/
def parseSearchGo (data : List Nat) (pos : Nat) (acc : List PCodeResult) :
    Option (List PCodeResult) :=
  if pos < data.length then
    match h : decode_varint data pos with
    | none => none
    | some (tag, pos1) =>
      if tag >>> 3 = 1 ∧ tag &&& 7 = 2 then
        match h2 : decode_varint data pos1 with
        | none => none
        | some (length, pos2) =>
          match parse_code_result ((data.drop pos2).take length) 0
              ((data.drop pos2).take length).length with
          | some r =>
            if hasNonemptyPath r then
              parseSearchGo data (pos2 + length) (acc ++ [r])
            else
              match parse_search_response ((data.drop pos2).take length) with
              | none => none
              | some inner => parseSearchGo data (pos2 + length) (acc ++ inner)
          | none =>
            match parse_search_response ((data.drop pos2).take length) with
            | none => none
            | some inner => parseSearchGo data (pos2 + length) (acc ++ inner)
      else if tag >>> 3 = 3 ∧ tag &&& 7 = 2 then
        match h2 : decode_varint data pos1 with
        | none => none
        | some (length, pos2) =>
          match parse_code_result_with_classification data pos2 (pos2 + length) with
          | some (some r) =>
            if hasNonemptyPath r then
              parseSearchGo data (pos2 + length) (acc ++ [r])
            else
              parseSearchGo data (pos2 + length) acc
          | _ => parseSearchGo data (pos2 + length) acc
      else
        match h3 : skip_field data pos1 (tag &&& 7) with
        | none => none
        | some p2 => parseSearchGo data p2 acc
  else some acc
termination_by (data.length, data.length + 1 - pos)
decreasing_by
  all_goals simp_wf
  all_goals (try have ha := decode_varint_bounds h)
  all_goals (try have hb := decode_varint_bounds h2)
  all_goals (try have hc := skip_field_ge h3)
  all_goals omega

end

/-! ## Composition lemmas: parsing well-formed encoded fields -/

theorem encode_varint_small {n : Nat} (h : n < 128) : encode_varint n = [n] := by
  rw [encode_varint, and127_eq_mod, shiftRight7_eq_div, Nat.mod_eq_of_lt h,
    Nat.div_eq_of_lt h, encodeVarintGo]
  simp

theorem take_drop_middle (pre mid rest : List Nat) :
    ((pre ++ (mid ++ rest)).drop pre.length).take mid.length = mid := by
  rw [List.drop_left, List.take_left]

/-- Processing the encoded `line` field (number 1, varint) in the
`parse_position` loop. -/
theorem posGo_line_step (pre rest : List Nat) (v en : Nat) (acc : PPosition)
    (hen : pre.length + (encode_int32 1 v).length ≤ en)
    (hacc : v = 0 → acc.line = 0) :
    parsePositionGo (pre ++ (encode_int32 1 v ++ rest)) en pre.length acc =
      parsePositionGo (pre ++ (encode_int32 1 v ++ rest)) en
        (pre.length + (encode_int32 1 v).length) { acc with line := v } := by
  by_cases hv : v = 0
  · subst hv
    have hacc' : ({ acc with line := 0 } : PPosition) = acc := by
      cases acc with
      | mk l c =>
        have : l = 0 := hacc rfl
        simp [this]
    rw [show encode_int32 1 0 = [] from rfl]
    simp only [List.length_nil, Nat.add_zero]
    rw [hacc']
  · have henc : encode_int32 1 v = [8] ++ encode_varint v := by
      rw [encode_int32, if_neg hv,
        show ((1 <<< 3) ||| 0 : Nat) = 8 from by decide,
        encode_varint_small (by norm_num)]
    rw [henc] at hen ⊢
    rw [List.append_assoc]
    rw [parsePositionGo]
    have h1 := encode_varint_length_pos v
    rw [if_pos (show pre.length < en by
      simp only [List.length_append, List.length_singleton] at hen
      omega)]
    have hdec := decode_varint_at pre 8 (encode_varint v ++ rest)
    rw [encode_varint_small (by norm_num)] at hdec
    rw [hdec]
    dsimp only
    rw [if_pos (by decide : (8 : Nat) >>> 3 = 1 ∧ (8 : Nat) &&& 7 = 0)]
    have hdec2 := decode_varint_at (pre ++ [8]) v rest
    rw [List.append_assoc] at hdec2
    simp only [List.length_append, List.length_singleton] at hdec2 ⊢
    rw [hdec2]
    dsimp only
    rw [show pre.length + (1 + (encode_varint v).length) =
      pre.length + 1 + (encode_varint v).length from by omega]

/-- Processing the encoded `column` field (number 2, varint) in the
`parse_position` loop. -/
theorem posGo_column_step (pre rest : List Nat) (v en : Nat) (acc : PPosition)
    (hen : pre.length + (encode_int32 2 v).length ≤ en)
    (hacc : v = 0 → acc.column = 0) :
    parsePositionGo (pre ++ (encode_int32 2 v ++ rest)) en pre.length acc =
      parsePositionGo (pre ++ (encode_int32 2 v ++ rest)) en
        (pre.length + (encode_int32 2 v).length) { acc with column := v } := by
  by_cases hv : v = 0
  · subst hv
    have hacc' : ({ acc with column := 0 } : PPosition) = acc := by
      cases acc with
      | mk l c =>
        have : c = 0 := hacc rfl
        simp [this]
    rw [show encode_int32 2 0 = [] from rfl]
    simp only [List.length_nil, Nat.add_zero]
    rw [hacc']
  · have henc : encode_int32 2 v = [16] ++ encode_varint v := by
      rw [encode_int32, if_neg hv,
        show ((2 <<< 3) ||| 0 : Nat) = 16 from by decide,
        encode_varint_small (by norm_num)]
    rw [henc] at hen ⊢
    rw [List.append_assoc]
    rw [parsePositionGo]
    have h1 := encode_varint_length_pos v
    rw [if_pos (show pre.length < en by
      simp only [List.length_append, List.length_singleton] at hen
      omega)]
    have hdec := decode_varint_at pre 16 (encode_varint v ++ rest)
    rw [encode_varint_small (by norm_num)] at hdec
    rw [hdec]
    dsimp only
    rw [if_neg (by decide : ¬((16 : Nat) >>> 3 = 1 ∧ (16 : Nat) &&& 7 = 0))]
    rw [if_pos (by decide : (16 : Nat) >>> 3 = 2 ∧ (16 : Nat) &&& 7 = 0)]
    have hdec2 := decode_varint_at (pre ++ [16]) v rest
    rw [List.append_assoc] at hdec2
    simp only [List.length_append, List.length_singleton] at hdec2 ⊢
    rw [hdec2]
    dsimp only
    rw [show pre.length + (1 + (encode_varint v).length) =
      pre.length + 1 + (encode_varint v).length from by omega]

/-- Loop exit at the end of the window. -/
theorem posGo_end (data : List Nat) (en : Nat) (acc : PPosition) :
    parsePositionGo data en en acc = some acc := by
  rw [parsePositionGo, if_neg (lt_irrefl en)]

def encode_position (line column : Nat) : List Nat :=
  encode_int32 1 line ++ encode_int32 2 column

def expectedPosition (line column : Nat) : Option PPosition :=
  if line = 0 ∧ column = 0 then none else some ⟨line, column⟩

/-- Parsing a window holding exactly an encoded Position. -/
theorem parse_position_encoded (pre rest : List Nat) (l c : Nat) :
    parse_position (pre ++ (encode_position l c ++ rest)) pre.length
      (pre.length + (encode_position l c).length) = some ⟨l, c⟩ := by
  rw [parse_position, encode_position, List.append_assoc]
  have hstep1 := posGo_line_step pre (encode_int32 2 c ++ rest) l
    (pre.length + ((encode_int32 1 l ++ encode_int32 2 c)).length) initPosition
    (by simp only [List.length_append]; omega) (fun _ => rfl)
  rw [hstep1]
  have hassoc : pre ++ (encode_int32 1 l ++ (encode_int32 2 c ++ rest)) =
      (pre ++ encode_int32 1 l) ++ (encode_int32 2 c ++ rest) :=
    (List.append_assoc _ _ _).symm
  have hstep2 := posGo_column_step (pre ++ encode_int32 1 l) rest c
    (pre.length + ((encode_int32 1 l ++ encode_int32 2 c)).length)
    { initPosition with line := l }
    (by simp only [List.length_append]; omega) (fun _ => rfl)
  rw [← hassoc] at hstep2
  rw [show (pre ++ encode_int32 1 l).length = pre.length + (encode_int32 1 l).length
    from by simp] at hstep2
  rw [hstep2]
  rw [show pre.length + (encode_int32 1 l).length + (encode_int32 2 c).length =
    pre.length + (encode_int32 1 l ++ encode_int32 2 c).length from by
      simp only [List.length_append]
      omega]
  rw [posGo_end]

theorem encode_int32_eq_nil_iff (f v : Nat) : encode_int32 f v = [] ↔ v = 0 := by
  rw [encode_int32]
  by_cases h : v = 0
  · simp [h]
  · simp [h, List.append_eq_nil, encode_varint_ne_nil]

theorem encode_string_eq_nil_iff (f : Nat) (s : List Nat) :
    encode_string f s = [] ↔ s = [] := by
  rw [encode_string]
  by_cases h : s = []
  · simp [h]
  · simp [h, List.append_eq_nil, encode_varint_ne_nil]

theorem encode_message_eq_nil_iff (f : Nat) (d : List Nat) :
    encode_message f d = [] ↔ d = [] := by
  rw [encode_message]
  by_cases h : d = []
  · simp [h]
  · simp [h, List.append_eq_nil, encode_varint_ne_nil]

theorem encode_position_eq_nil_iff (l c : Nat) :
    encode_position l c = [] ↔ l = 0 ∧ c = 0 := by
  rw [encode_position]
  rw [List.append_eq_nil, encode_int32_eq_nil_iff, encode_int32_eq_nil_iff]

def encode_range (sl sc el ec : Nat) : List Nat :=
  encode_message 1 (encode_position sl sc) ++ encode_message 2 (encode_position el ec)

def expectedRange (sl sc el ec : Nat) : PRange :=
  ⟨expectedPosition sl sc, expectedPosition el ec⟩

/-- Processing the encoded `start_position` field (number 1, nested message)
in the `parse_range` loop. -/
theorem rangeGo_start_step (pre rest : List Nat) (l c en : Nat) (acc : PRange)
    (hen : pre.length + (encode_message 1 (encode_position l c)).length ≤ en)
    (hacc : encode_position l c = [] → acc.startPosition = none) :
    parseRangeGo (pre ++ (encode_message 1 (encode_position l c) ++ rest)) en pre.length acc =
      parseRangeGo (pre ++ (encode_message 1 (encode_position l c) ++ rest)) en
        (pre.length + (encode_message 1 (encode_position l c)).length)
        { acc with startPosition := expectedPosition l c } := by
  by_cases hv : encode_position l c = []
  · have hlc := (encode_position_eq_nil_iff l c).mp hv
    have hacc' : ({ acc with startPosition := expectedPosition l c } : PRange) = acc := by
      cases acc with
      | mk sp ep =>
        rw [expectedPosition, if_pos hlc]
        have := hacc hv
        simp at this
        simp [this]
    rw [hv]
    rw [show encode_message 1 ([] : List Nat) = [] from rfl]
    simp only [List.length_nil, Nat.add_zero]
    rw [hacc']
  · have hexp : expectedPosition l c = some ⟨l, c⟩ := by
      rw [expectedPosition, if_neg]
      intro hc
      exact hv ((encode_position_eq_nil_iff l c).mpr hc)
    have henc : encode_message 1 (encode_position l c) =
        [10] ++ (encode_varint (encode_position l c).length ++ encode_position l c) := by
      rw [encode_message, if_neg hv,
        show ((1 <<< 3) ||| 2 : Nat) = 10 from by decide,
        encode_varint_small (by norm_num), List.append_assoc]
    rw [henc] at hen ⊢
    simp only [List.append_assoc]
    rw [parseRangeGo]
    have h1 := encode_varint_length_pos (encode_position l c).length
    rw [if_pos (show pre.length < en by
      simp only [List.length_append, List.length_singleton] at hen
      omega)]
    have hdec := decode_varint_at pre 10
      (encode_varint (encode_position l c).length ++ (encode_position l c ++ rest))
    rw [encode_varint_small (by norm_num)] at hdec
    rw [hdec]
    dsimp only
    rw [if_pos (by decide : (10 : Nat) >>> 3 = 1 ∧ (10 : Nat) &&& 7 = 2)]
    have hdec2 := decode_varint_at (pre ++ [10]) (encode_position l c).length
      (encode_position l c ++ rest)
    rw [List.append_assoc] at hdec2
    simp only [List.length_append, List.length_singleton] at hdec2 ⊢
    rw [hdec2]
    dsimp only
    have hpp := parse_position_encoded
      ((pre ++ [10]) ++ encode_varint (encode_position l c).length) rest l c
    simp only [List.append_assoc, List.length_append, List.length_singleton] at hpp
    simp only [Nat.add_assoc] at hpp ⊢
    rw [hpp]
    rw [hexp]

/-- Processing the encoded `end_position` field (number 2, nested message)
in the `parse_range` loop. -/
theorem rangeGo_endpos_step (pre rest : List Nat) (l c en : Nat) (acc : PRange)
    (hen : pre.length + (encode_message 2 (encode_position l c)).length ≤ en)
    (hacc : encode_position l c = [] → acc.endPosition = none) :
    parseRangeGo (pre ++ (encode_message 2 (encode_position l c) ++ rest)) en pre.length acc =
      parseRangeGo (pre ++ (encode_message 2 (encode_position l c) ++ rest)) en
        (pre.length + (encode_message 2 (encode_position l c)).length)
        { acc with endPosition := expectedPosition l c } := by
  by_cases hv : encode_position l c = []
  · have hlc := (encode_position_eq_nil_iff l c).mp hv
    have hacc' : ({ acc with endPosition := expectedPosition l c } : PRange) = acc := by
      cases acc with
      | mk sp ep =>
        rw [expectedPosition, if_pos hlc]
        have := hacc hv
        simp at this
        simp [this]
    rw [hv]
    rw [show encode_message 2 ([] : List Nat) = [] from rfl]
    simp only [List.length_nil, Nat.add_zero]
    rw [hacc']
  · have hexp : expectedPosition l c = some ⟨l, c⟩ := by
      rw [expectedPosition, if_neg]
      intro hc
      exact hv ((encode_position_eq_nil_iff l c).mpr hc)
    have henc : encode_message 2 (encode_position l c) =
        [18] ++ (encode_varint (encode_position l c).length ++ encode_position l c) := by
      rw [encode_message, if_neg hv,
        show ((2 <<< 3) ||| 2 : Nat) = 18 from by decide,
        encode_varint_small (by norm_num), List.append_assoc]
    rw [henc] at hen ⊢
    simp only [List.append_assoc]
    rw [parseRangeGo]
    have h1 := encode_varint_length_pos (encode_position l c).length
    rw [if_pos (show pre.length < en by
      simp only [List.length_append, List.length_singleton] at hen
      omega)]
    have hdec := decode_varint_at pre 18
      (encode_varint (encode_position l c).length ++ (encode_position l c ++ rest))
    rw [encode_varint_small (by norm_num)] at hdec
    rw [hdec]
    dsimp only
    rw [if_neg (by decide : ¬((18 : Nat) >>> 3 = 1 ∧ (18 : Nat) &&& 7 = 2))]
    rw [if_pos (by decide : (18 : Nat) >>> 3 = 2 ∧ (18 : Nat) &&& 7 = 2)]
    have hdec2 := decode_varint_at (pre ++ [18]) (encode_position l c).length
      (encode_position l c ++ rest)
    rw [List.append_assoc] at hdec2
    simp only [List.length_append, List.length_singleton] at hdec2 ⊢
    rw [hdec2]
    dsimp only
    have hpp := parse_position_encoded
      ((pre ++ [18]) ++ encode_varint (encode_position l c).length) rest l c
    simp only [List.append_assoc, List.length_append, List.length_singleton] at hpp
    simp only [Nat.add_assoc] at hpp ⊢
    rw [hpp]
    rw [hexp]

theorem rangeGo_end (data : List Nat) (en : Nat) (acc : PRange) :
    parseRangeGo data en en acc = some acc := by
  rw [parseRangeGo, if_neg (lt_irrefl en)]

/-- Parsing a window holding exactly an encoded Range. -/
theorem parse_range_encoded (pre rest : List Nat) (sl sc el ec : Nat) :
    parse_range (pre ++ (encode_range sl sc el ec ++ rest)) pre.length
      (pre.length + (encode_range sl sc el ec).length) = some (expectedRange sl sc el ec) := by
  rw [parse_range, encode_range]
  simp only [List.append_assoc]
  have hstep1 := rangeGo_start_step pre
    (encode_message 2 (encode_position el ec) ++ rest) sl sc
    (pre.length + (encode_message 1 (encode_position sl sc) ++
      encode_message 2 (encode_position el ec)).length) initRange
    (by simp only [List.length_append]; omega) (fun _ => rfl)
  simp only [List.append_assoc] at hstep1
  rw [hstep1]
  have hstep2 := rangeGo_endpos_step
    (pre ++ encode_message 1 (encode_position sl sc)) rest el ec
    (pre.length + (encode_message 1 (encode_position sl sc) ++
      encode_message 2 (encode_position el ec)).length)
    { initRange with startPosition := expectedPosition sl sc }
    (by simp only [List.length_append]; omega) (fun _ => rfl)
  simp only [List.append_assoc, List.length_append] at hstep2 ⊢
  simp only [Nat.add_assoc] at hstep2 ⊢
  rw [hstep2]
  rw [show pre.length + ((encode_message 1 (encode_position sl sc)).length +
      (encode_message 2 (encode_position el ec)).length) =
    pre.length + ((encode_message 1 (encode_position sl sc)).length +
      ((encode_message 2 (encode_position el ec)).length + 0)) from by omega]
  rw [show (pre.length + ((encode_message 1 (encode_position sl sc)).length +
      ((encode_message 2 (encode_position el ec)).length + 0))) =
    (pre.length + ((encode_message 1 (encode_position sl sc)).length +
      (encode_message 2 (encode_position el ec)).length)) from by omega]
  rw [rangeGo_end]
  rw [expectedRange]

/-- `decode_string` on a well-formed encoded length-delimited string body. -/
theorem decode_string_at (pre s rest : List Nat) (h : ValidStr s) :
    decode_string (pre ++ (encode_varint (utf8Enc s).length ++ (utf8Enc s ++ rest)))
      pre.length =
      some (s, pre.length + ((encode_varint (utf8Enc s).length).length +
        (utf8Enc s).length)) := by
  rw [decode_string]
  rw [decode_varint_at pre _ (utf8Enc s ++ rest)]
  dsimp only
  have hsl : ((pre ++ (encode_varint (utf8Enc s).length ++ (utf8Enc s ++ rest))).drop
      (pre.length + (encode_varint (utf8Enc s).length).length)).take (utf8Enc s).length =
      utf8Enc s := by
    have hmid := take_drop_middle (pre ++ encode_varint (utf8Enc s).length) (utf8Enc s) rest
    rw [List.append_assoc] at hmid
    simp only [List.length_append] at hmid
    exact hmid
  rw [hsl, utf8Dec_enc s h]
  rw [show pre.length + (encode_varint (utf8Enc s).length).length + (utf8Enc s).length =
    pre.length + ((encode_varint (utf8Enc s).length).length + (utf8Enc s).length)
    from by omega]

/-- Processing the encoded field 1 (`relativeWorkspacePath`) in the
`parse_code_block` loop. -/
theorem cbGo_path_step (pre rest s : List Nat) (en : Nat) (acc : PCodeBlock)
    (hs : ValidStr s)
    (hen : pre.length + (encode_string 1 s).length ≤ en)
    (hacc : s = [] → acc.relativeWorkspacePath = []) :
    parseCodeBlockGo (pre ++ (encode_string 1 s ++ rest)) en pre.length acc =
      parseCodeBlockGo (pre ++ (encode_string 1 s ++ rest)) en
        (pre.length + (encode_string 1 s).length) { acc with relativeWorkspacePath := s } := by
  by_cases hv : s = []
  · subst hv
    have hacc' : ({ acc with relativeWorkspacePath := [] } : PCodeBlock) = acc := by
      cases acc with
      | mk a b c d e g =>
        have hz := hacc rfl
        simp at hz
        simp [hz]
    rw [show encode_string 1 ([] : List Nat) = [] from rfl]
    simp only [List.length_nil, Nat.add_zero]
    rw [hacc']
  · have henc : encode_string 1 s =
        [10] ++ (encode_varint (utf8Enc s).length ++ utf8Enc s) := by
      rw [encode_string, if_neg hv,
        show ((1 <<< 3) ||| 2 : Nat) = 10 from by decide,
        encode_varint_small (by norm_num), List.append_assoc]
    rw [henc] at hen ⊢
    simp only [List.append_assoc]
    rw [parseCodeBlockGo]
    have h1 := encode_varint_length_pos (utf8Enc s).length
    rw [if_pos (show pre.length < en by
      simp only [List.length_append, List.length_singleton] at hen
      omega)]
    have hdec := decode_varint_at pre 10
      (encode_varint (utf8Enc s).length ++ (utf8Enc s ++ rest))
    rw [encode_varint_small (by norm_num)] at hdec
    rw [hdec]
    dsimp only
    rw [if_pos (by decide : (10 : Nat) >>> 3 = 1 ∧ (10 : Nat) &&& 7 = 2)]
    have hds := decode_string_at (pre ++ [10]) s rest hs
    rw [List.append_assoc] at hds
    simp only [List.length_append, List.length_singleton] at hds ⊢
    simp only [Nat.add_assoc] at hds ⊢
    rw [hds]

/-- Processing the encoded field 2 (`fileContents`) in the
`parse_code_block` loop. -/
theorem cbGo_fileContents_step (pre rest s : List Nat) (en : Nat) (acc : PCodeBlock)
    (hs : ValidStr s)
    (hen : pre.length + (encode_string 2 s).length ≤ en)
    (hacc : s = [] → acc.fileContents = []) :
    parseCodeBlockGo (pre ++ (encode_string 2 s ++ rest)) en pre.length acc =
      parseCodeBlockGo (pre ++ (encode_string 2 s ++ rest)) en
        (pre.length + (encode_string 2 s).length) { acc with fileContents := s } := by
  by_cases hv : s = []
  · subst hv
    have hacc' : ({ acc with fileContents := [] } : PCodeBlock) = acc := by
      cases acc with
      | mk a b c d e g =>
        have hz := hacc rfl
        simp at hz
        simp [hz]
    rw [show encode_string 2 ([] : List Nat) = [] from rfl]
    simp only [List.length_nil, Nat.add_zero]
    rw [hacc']
  · have henc : encode_string 2 s =
        [18] ++ (encode_varint (utf8Enc s).length ++ utf8Enc s) := by
      rw [encode_string, if_neg hv,
        show ((2 <<< 3) ||| 2 : Nat) = 18 from by decide,
        encode_varint_small (by norm_num), List.append_assoc]
    rw [henc] at hen ⊢
    simp only [List.append_assoc]
    rw [parseCodeBlockGo]
    have h1 := encode_varint_length_pos (utf8Enc s).length
    rw [if_pos (show pre.length < en by
      simp only [List.length_append, List.length_singleton] at hen
      omega)]
    have hdec := decode_varint_at pre 18
      (encode_varint (utf8Enc s).length ++ (utf8Enc s ++ rest))
    rw [encode_varint_small (by norm_num)] at hdec
    rw [hdec]
    dsimp only
    rw [if_neg (by decide : ¬((18 : Nat) >>> 3 = 1 ∧ (18 : Nat) &&& 7 = 2))]
    rw [if_pos (by decide : (18 : Nat) >>> 3 = 2 ∧ (18 : Nat) &&& 7 = 2)]
    have hds := decode_string_at (pre ++ [18]) s rest hs
    rw [List.append_assoc] at hds
    simp only [List.length_append, List.length_singleton] at hds ⊢
    simp only [Nat.add_assoc] at hds ⊢
    rw [hds]

/-- Processing the encoded field 4 (`contents`) in the
`parse_code_block` loop. -/
theorem cbGo_contents_step (pre rest s : List Nat) (en : Nat) (acc : PCodeBlock)
    (hs : ValidStr s)
    (hen : pre.length + (encode_string 4 s).length ≤ en)
    (hacc : s = [] → acc.contents = []) :
    parseCodeBlockGo (pre ++ (encode_string 4 s ++ rest)) en pre.length acc =
      parseCodeBlockGo (pre ++ (encode_string 4 s ++ rest)) en
        (pre.length + (encode_string 4 s).length) { acc with contents := s } := by
  by_cases hv : s = []
  · subst hv
    have hacc' : ({ acc with contents := [] } : PCodeBlock) = acc := by
      cases acc with
      | mk a b c d e g =>
        have hz := hacc rfl
        simp at hz
        simp [hz]
    rw [show encode_string 4 ([] : List Nat) = [] from rfl]
    simp only [List.length_nil, Nat.add_zero]
    rw [hacc']
  · have henc : encode_string 4 s =
        [34] ++ (encode_varint (utf8Enc s).length ++ utf8Enc s) := by
      rw [encode_string, if_neg hv,
        show ((4 <<< 3) ||| 2 : Nat) = 34 from by decide,
        encode_varint_small (by norm_num), List.append_assoc]
    rw [henc] at hen ⊢
    simp only [List.append_assoc]
    rw [parseCodeBlockGo]
    have h1 := encode_varint_length_pos (utf8Enc s).length
    rw [if_pos (show pre.length < en by
      simp only [List.length_append, List.length_singleton] at hen
      omega)]
    have hdec := decode_varint_at pre 34
      (encode_varint (utf8Enc s).length ++ (utf8Enc s ++ rest))
    rw [encode_varint_small (by norm_num)] at hdec
    rw [hdec]
    dsimp only
    rw [if_neg (by decide : ¬((34 : Nat) >>> 3 = 1 ∧ (34 : Nat) &&& 7 = 2))]
    rw [if_neg (by decide : ¬((34 : Nat) >>> 3 = 2 ∧ (34 : Nat) &&& 7 = 2))]
    rw [if_neg (by decide : ¬((34 : Nat) >>> 3 = 3 ∧ (34 : Nat) &&& 7 = 2))]
    rw [if_pos (by decide : (34 : Nat) >>> 3 = 4 ∧ (34 : Nat) &&& 7 = 2)]
    have hds := decode_string_at (pre ++ [34]) s rest hs
    rw [List.append_assoc] at hds
    simp only [List.length_append, List.length_singleton] at hds ⊢
    simp only [Nat.add_assoc] at hds ⊢
    rw [hds]

/-- Processing the encoded field 6 (`overrideContents`) in the
`parse_code_block` loop. -/
theorem cbGo_override_step (pre rest s : List Nat) (en : Nat) (acc : PCodeBlock)
    (hs : ValidStr s)
    (hen : pre.length + (encode_string 6 s).length ≤ en)
    (hacc : s = [] → acc.overrideContents = []) :
    parseCodeBlockGo (pre ++ (encode_string 6 s ++ rest)) en pre.length acc =
      parseCodeBlockGo (pre ++ (encode_string 6 s ++ rest)) en
        (pre.length + (encode_string 6 s).length) { acc with overrideContents := s } := by
  by_cases hv : s = []
  · subst hv
    have hacc' : ({ acc with overrideContents := [] } : PCodeBlock) = acc := by
      cases acc with
      | mk a b c d e g =>
        have hz := hacc rfl
        simp at hz
        simp [hz]
    rw [show encode_string 6 ([] : List Nat) = [] from rfl]
    simp only [List.length_nil, Nat.add_zero]
    rw [hacc']
  · have henc : encode_string 6 s =
        [50] ++ (encode_varint (utf8Enc s).length ++ utf8Enc s) := by
      rw [encode_string, if_neg hv,
        show ((6 <<< 3) ||| 2 : Nat) = 50 from by decide,
        encode_varint_small (by norm_num), List.append_assoc]
    rw [henc] at hen ⊢
    simp only [List.append_assoc]
    rw [parseCodeBlockGo]
    have h1 := encode_varint_length_pos (utf8Enc s).length
    rw [if_pos (show pre.length < en by
      simp only [List.length_append, List.length_singleton] at hen
      omega)]
    have hdec := decode_varint_at pre 50
      (encode_varint (utf8Enc s).length ++ (utf8Enc s ++ rest))
    rw [encode_varint_small (by norm_num)] at hdec
    rw [hdec]
    dsimp only
    rw [if_neg (by decide : ¬((50 : Nat) >>> 3 = 1 ∧ (50 : Nat) &&& 7 = 2))]
    rw [if_neg (by decide : ¬((50 : Nat) >>> 3 = 2 ∧ (50 : Nat) &&& 7 = 2))]
    rw [if_neg (by decide : ¬((50 : Nat) >>> 3 = 3 ∧ (50 : Nat) &&& 7 = 2))]
    rw [if_neg (by decide : ¬((50 : Nat) >>> 3 = 4 ∧ (50 : Nat) &&& 7 = 2))]
    rw [if_pos (by decide : (50 : Nat) >>> 3 = 6 ∧ (50 : Nat) &&& 7 = 2)]
    have hds := decode_string_at (pre ++ [50]) s rest hs
    rw [List.append_assoc] at hds
    simp only [List.length_append, List.length_singleton] at hds ⊢
    simp only [Nat.add_assoc] at hds ⊢
    rw [hds]

/-- Processing the encoded field 7 (`originalContents`) in the
`parse_code_block` loop. -/
theorem cbGo_original_step (pre rest s : List Nat) (en : Nat) (acc : PCodeBlock)
    (hs : ValidStr s)
    (hen : pre.length + (encode_string 7 s).length ≤ en)
    (hacc : s = [] → acc.originalContents = []) :
    parseCodeBlockGo (pre ++ (encode_string 7 s ++ rest)) en pre.length acc =
      parseCodeBlockGo (pre ++ (encode_string 7 s ++ rest)) en
        (pre.length + (encode_string 7 s).length) { acc with originalContents := s } := by
  by_cases hv : s = []
  · subst hv
    have hacc' : ({ acc with originalContents := [] } : PCodeBlock) = acc := by
      cases acc with
      | mk a b c d e g =>
        have hz := hacc rfl
        simp at hz
        simp [hz]
    rw [show encode_string 7 ([] : List Nat) = [] from rfl]
    simp only [List.length_nil, Nat.add_zero]
    rw [hacc']
  · have henc : encode_string 7 s =
        [58] ++ (encode_varint (utf8Enc s).length ++ utf8Enc s) := by
      rw [encode_string, if_neg hv,
        show ((7 <<< 3) ||| 2 : Nat) = 58 from by decide,
        encode_varint_small (by norm_num), List.append_assoc]
    rw [henc] at hen ⊢
    simp only [List.append_assoc]
    rw [parseCodeBlockGo]
    have h1 := encode_varint_length_pos (utf8Enc s).length
    rw [if_pos (show pre.length < en by
      simp only [List.length_append, List.length_singleton] at hen
      omega)]
    have hdec := decode_varint_at pre 58
      (encode_varint (utf8Enc s).length ++ (utf8Enc s ++ rest))
    rw [encode_varint_small (by norm_num)] at hdec
    rw [hdec]
    dsimp only
    rw [if_neg (by decide : ¬((58 : Nat) >>> 3 = 1 ∧ (58 : Nat) &&& 7 = 2))]
    rw [if_neg (by decide : ¬((58 : Nat) >>> 3 = 2 ∧ (58 : Nat) &&& 7 = 2))]
    rw [if_neg (by decide : ¬((58 : Nat) >>> 3 = 3 ∧ (58 : Nat) &&& 7 = 2))]
    rw [if_neg (by decide : ¬((58 : Nat) >>> 3 = 4 ∧ (58 : Nat) &&& 7 = 2))]
    rw [if_neg (by decide : ¬((58 : Nat) >>> 3 = 6 ∧ (58 : Nat) &&& 7 = 2))]
    rw [if_pos (by decide : (58 : Nat) >>> 3 = 7 ∧ (58 : Nat) &&& 7 = 2)]
    have hds := decode_string_at (pre ++ [58]) s rest hs
    rw [List.append_assoc] at hds
    simp only [List.length_append, List.length_singleton] at hds ⊢
    simp only [Nat.add_assoc] at hds ⊢
    rw [hds]

theorem encode_range_eq_nil_iff (sl sc el ec : Nat) :
    encode_range sl sc el ec = [] ↔ (sl = 0 ∧ sc = 0) ∧ (el = 0 ∧ ec = 0) := by
  rw [encode_range, List.append_eq_nil, encode_message_eq_nil_iff,
    encode_message_eq_nil_iff, encode_position_eq_nil_iff, encode_position_eq_nil_iff]

/-- Processing the encoded `range` field (number 3, nested message) in the
`parse_code_block` loop. -/
theorem cbGo_range_step (pre rest : List Nat) (sl sc el ec en : Nat) (acc : PCodeBlock)
    (hen : pre.length + (encode_message 3 (encode_range sl sc el ec)).length ≤ en)
    (hacc : encode_range sl sc el ec = [] → acc.range = initRange) :
    parseCodeBlockGo (pre ++ (encode_message 3 (encode_range sl sc el ec) ++ rest)) en
      pre.length acc =
      parseCodeBlockGo (pre ++ (encode_message 3 (encode_range sl sc el ec) ++ rest)) en
        (pre.length + (encode_message 3 (encode_range sl sc el ec)).length)
        { acc with range := expectedRange sl sc el ec } := by
  by_cases hv : encode_range sl sc el ec = []
  · have hz := (encode_range_eq_nil_iff sl sc el ec).mp hv
    have hacc' : ({ acc with range := expectedRange sl sc el ec } : PCodeBlock) = acc := by
      cases acc with
      | mk a b c d e g =>
        have hi := hacc hv
        simp at hi
        rw [expectedRange, expectedPosition, if_pos hz.1, expectedPosition, if_pos hz.2]
        rw [show (⟨none, none⟩ : PRange) = initRange from rfl]
        simp [hi]
    rw [hv]
    rw [show encode_message 3 ([] : List Nat) = [] from rfl]
    simp only [List.length_nil, Nat.add_zero]
    rw [hacc']
  · have henc : encode_message 3 (encode_range sl sc el ec) =
        [26] ++ (encode_varint (encode_range sl sc el ec).length ++
          encode_range sl sc el ec) := by
      rw [encode_message, if_neg hv,
        show ((3 <<< 3) ||| 2 : Nat) = 26 from by decide,
        encode_varint_small (by norm_num), List.append_assoc]
    rw [henc] at hen ⊢
    simp only [List.append_assoc]
    rw [parseCodeBlockGo]
    have h1 := encode_varint_length_pos (encode_range sl sc el ec).length
    rw [if_pos (show pre.length < en by
      simp only [List.length_append, List.length_singleton] at hen
      omega)]
    have hdec := decode_varint_at pre 26
      (encode_varint (encode_range sl sc el ec).length ++ (encode_range sl sc el ec ++ rest))
    rw [encode_varint_small (by norm_num)] at hdec
    rw [hdec]
    dsimp only
    rw [if_neg (by decide : ¬((26 : Nat) >>> 3 = 1 ∧ (26 : Nat) &&& 7 = 2))]
    rw [if_neg (by decide : ¬((26 : Nat) >>> 3 = 2 ∧ (26 : Nat) &&& 7 = 2))]
    rw [if_pos (by decide : (26 : Nat) >>> 3 = 3 ∧ (26 : Nat) &&& 7 = 2)]
    have hdec2 := decode_varint_at (pre ++ [26]) (encode_range sl sc el ec).length
      (encode_range sl sc el ec ++ rest)
    rw [List.append_assoc] at hdec2
    simp only [List.length_append, List.length_singleton] at hdec2 ⊢
    rw [hdec2]
    dsimp only
    have hpr := parse_range_encoded
      ((pre ++ [26]) ++ encode_varint (encode_range sl sc el ec).length) rest sl sc el ec
    simp only [List.append_assoc, List.length_append, List.length_singleton] at hpr
    simp only [Nat.add_assoc] at hpr ⊢
    rw [hpr]

theorem cbGo_end (data : List Nat) (en : Nat) (acc : PCodeBlock) :
    parseCodeBlockGo data en en acc = some acc := by
  rw [parseCodeBlockGo, if_neg (lt_irrefl en)]

/-- The value content of a CodeResult as the backend would encode it:
string fields as code-point lists, the range as four coordinates, the score
as the raw bytes of the wire float. -/
structure CodeBlockV where
  path : List Nat
  fileContents : List Nat
  contents : List Nat
  overrideContents : List Nat
  originalContents : List Nat
  startLine : Nat
  startCol : Nat
  endLine : Nat
  endCol : Nat
deriving DecidableEq

/-- The wire encoding of a CodeBlock message, per the field table the
parser implements (path 1, file contents 2, range 3, contents 4, override
contents 6, original contents 7) and the source field encoders. -/
def encode_code_block (b : CodeBlockV) : List Nat :=
  encode_string 1 b.path ++ encode_string 2 b.fileContents ++
  encode_message 3 (encode_range b.startLine b.startCol b.endLine b.endCol) ++
  encode_string 4 b.contents ++ encode_string 6 b.overrideContents ++
  encode_string 7 b.originalContents

def ValidCodeBlockV (b : CodeBlockV) : Prop :=
  ValidStr b.path ∧ ValidStr b.fileContents ∧ ValidStr b.contents ∧
  ValidStr b.overrideContents ∧ ValidStr b.originalContents

instance (b : CodeBlockV) : Decidable (ValidCodeBlockV b) := by
  unfold ValidCodeBlockV
  infer_instance

/-- The dict `parse_code_block` produces for an encoded CodeBlock. -/
def expectedCodeBlock (b : CodeBlockV) : PCodeBlock :=
  applyContentsFallback
    ⟨b.path, b.contents, expectedRange b.startLine b.startCol b.endLine b.endCol,
     b.fileContents, b.overrideContents, b.originalContents⟩

/-- Parsing a window holding exactly an encoded CodeBlock. -/
theorem parse_code_block_encoded (pre rest : List Nat) (b : CodeBlockV)
    (hb : ValidCodeBlockV b) :
    parse_code_block (pre ++ (encode_code_block b ++ rest)) pre.length
      (pre.length + (encode_code_block b).length) = some (expectedCodeBlock b) := by
  obtain ⟨hv1, hv2, hv3, hv4, hv5⟩ := hb
  rw [parse_code_block, encode_code_block]
  simp only [List.append_assoc]
  have hstep1 := cbGo_path_step pre
    (encode_string 2 b.fileContents ++
      (encode_message 3 (encode_range b.startLine b.startCol b.endLine b.endCol) ++
        (encode_string 4 b.contents ++ (encode_string 6 b.overrideContents ++
          (encode_string 7 b.originalContents ++ rest))))) b.path
    (pre.length + (encode_string 1 b.path ++ (encode_string 2 b.fileContents ++
      (encode_message 3 (encode_range b.startLine b.startCol b.endLine b.endCol) ++
        (encode_string 4 b.contents ++ (encode_string 6 b.overrideContents ++
          encode_string 7 b.originalContents))))).length)
    initCodeBlock hv1 (by simp only [List.length_append]; omega) (fun _ => rfl)
  try simp only [List.append_assoc, List.length_append] at hstep1 ⊢
  try simp only [Nat.add_assoc] at hstep1 ⊢
  rw [hstep1]
  have hstep2 := cbGo_fileContents_step (pre ++ encode_string 1 b.path)
    (encode_message 3 (encode_range b.startLine b.startCol b.endLine b.endCol) ++
      (encode_string 4 b.contents ++ (encode_string 6 b.overrideContents ++
        (encode_string 7 b.originalContents ++ rest)))) b.fileContents
    (pre.length + ((encode_string 1 b.path).length + ((encode_string 2 b.fileContents).length +
      ((encode_message 3 (encode_range b.startLine b.startCol b.endLine b.endCol)).length +
        ((encode_string 4 b.contents).length + ((encode_string 6 b.overrideContents).length +
          (encode_string 7 b.originalContents).length))))))
    { initCodeBlock with relativeWorkspacePath := b.path } hv2
    (by simp only [List.length_append]; omega) (fun _ => rfl)
  try simp only [List.append_assoc, List.length_append] at hstep2
  try simp only [Nat.add_assoc] at hstep2
  rw [hstep2]
  have hstep3 := cbGo_range_step
    ((pre ++ encode_string 1 b.path) ++ encode_string 2 b.fileContents)
    (encode_string 4 b.contents ++ (encode_string 6 b.overrideContents ++
      (encode_string 7 b.originalContents ++ rest)))
    b.startLine b.startCol b.endLine b.endCol
    (pre.length + ((encode_string 1 b.path).length + ((encode_string 2 b.fileContents).length +
      ((encode_message 3 (encode_range b.startLine b.startCol b.endLine b.endCol)).length +
        ((encode_string 4 b.contents).length + ((encode_string 6 b.overrideContents).length +
          (encode_string 7 b.originalContents).length))))))
    { { initCodeBlock with relativeWorkspacePath := b.path } with
        fileContents := b.fileContents }
    (by simp only [List.length_append]; omega) (fun _ => rfl)
  try simp only [List.append_assoc, List.length_append] at hstep3
  try simp only [Nat.add_assoc] at hstep3
  rw [hstep3]
  have hstep4 := cbGo_contents_step
    (((pre ++ encode_string 1 b.path) ++ encode_string 2 b.fileContents) ++
      encode_message 3 (encode_range b.startLine b.startCol b.endLine b.endCol))
    (encode_string 6 b.overrideContents ++ (encode_string 7 b.originalContents ++ rest))
    b.contents
    (pre.length + ((encode_string 1 b.path).length + ((encode_string 2 b.fileContents).length +
      ((encode_message 3 (encode_range b.startLine b.startCol b.endLine b.endCol)).length +
        ((encode_string 4 b.contents).length + ((encode_string 6 b.overrideContents).length +
          (encode_string 7 b.originalContents).length))))))
    { { { initCodeBlock with relativeWorkspacePath := b.path } with
        fileContents := b.fileContents } with
        range := expectedRange b.startLine b.startCol b.endLine b.endCol } hv3
    (by simp only [List.length_append]; omega) (fun _ => rfl)
  try simp only [List.append_assoc, List.length_append] at hstep4
  try simp only [Nat.add_assoc] at hstep4
  rw [hstep4]
  have hstep5 := cbGo_override_step
    ((((pre ++ encode_string 1 b.path) ++ encode_string 2 b.fileContents) ++
      encode_message 3 (encode_range b.startLine b.startCol b.endLine b.endCol)) ++
      encode_string 4 b.contents)
    (encode_string 7 b.originalContents ++ rest)
    b.overrideContents
    (pre.length + ((encode_string 1 b.path).length + ((encode_string 2 b.fileContents).length +
      ((encode_message 3 (encode_range b.startLine b.startCol b.endLine b.endCol)).length +
        ((encode_string 4 b.contents).length + ((encode_string 6 b.overrideContents).length +
          (encode_string 7 b.originalContents).length))))))
    { { { { initCodeBlock with relativeWorkspacePath := b.path } with
        fileContents := b.fileContents } with
        range := expectedRange b.startLine b.startCol b.endLine b.endCol } with
        contents := b.contents } hv4
    (by simp only [List.length_append]; omega) (fun _ => rfl)
  try simp only [List.append_assoc, List.length_append] at hstep5
  try simp only [Nat.add_assoc] at hstep5
  rw [hstep5]
  have hstep6 := cbGo_original_step
    (((((pre ++ encode_string 1 b.path) ++ encode_string 2 b.fileContents) ++
      encode_message 3 (encode_range b.startLine b.startCol b.endLine b.endCol)) ++
      encode_string 4 b.contents) ++ encode_string 6 b.overrideContents)
    rest
    b.originalContents
    (pre.length + ((encode_string 1 b.path).length + ((encode_string 2 b.fileContents).length +
      ((encode_message 3 (encode_range b.startLine b.startCol b.endLine b.endCol)).length +
        ((encode_string 4 b.contents).length + ((encode_string 6 b.overrideContents).length +
          (encode_string 7 b.originalContents).length))))))
    { { { { { initCodeBlock with relativeWorkspacePath := b.path } with
        fileContents := b.fileContents } with
        range := expectedRange b.startLine b.startCol b.endLine b.endCol } with
        contents := b.contents } with
        overrideContents := b.overrideContents } hv5
    (by simp only [List.length_append]; omega) (fun _ => rfl)
  try simp only [List.append_assoc, List.length_append] at hstep6
  try simp only [Nat.add_assoc] at hstep6
  rw [hstep6]
  rw [cbGo_end]
  dsimp only
  rw [expectedCodeBlock]

structure CodeResultV where
  block : CodeBlockV
  score : Option (List Nat)
deriving DecidableEq

/-- The wire encoding of a CodeResult: nested code block at field 1, the
score as a wire-type-1 (64-bit) field 2 when present. -/
def encode_code_result (r : CodeResultV) : List Nat :=
  encode_message 1 (encode_code_block r.block) ++ encode_double 2 r.score

def ValidCodeResultV (r : CodeResultV) : Prop :=
  ValidCodeBlockV r.block ∧
    (match r.score with
     | some bs => bs.length = 8
     | none => True)

instance (r : CodeResultV) : Decidable (ValidCodeResultV r) := by
  unfold ValidCodeResultV
  cases r.score <;> infer_instance

/-- The dict `parse_code_result` produces for an encoded CodeResult. -/
def expectedCodeResult (r : CodeResultV) : PCodeResult :=
  ⟨if encode_code_block r.block = [] then none else some (expectedCodeBlock r.block),
   match r.score with
   | some bytes => PScore.f64 bytes
   | none => initScore⟩

/-- Processing the encoded `code_block` field (number 1, nested message) in
the `parse_code_result` loop. -/
theorem crGo_cb_step (pre rest : List Nat) (b : CodeBlockV) (en : Nat) (acc : PCodeResult)
    (hb : ValidCodeBlockV b)
    (hen : pre.length + (encode_message 1 (encode_code_block b)).length ≤ en)
    (hacc : encode_code_block b = [] → acc.codeBlock = none) :
    parseCodeResultGo (pre ++ (encode_message 1 (encode_code_block b) ++ rest)) en
      pre.length acc =
      parseCodeResultGo (pre ++ (encode_message 1 (encode_code_block b) ++ rest)) en
        (pre.length + (encode_message 1 (encode_code_block b)).length)
        { acc with codeBlock :=
            (if encode_code_block b = [] then none else some (expectedCodeBlock b)) } := by
  by_cases hv : encode_code_block b = []
  · have hacc' : ({ acc with codeBlock :=
        (if encode_code_block b = [] then none else some (expectedCodeBlock b)) } :
          PCodeResult) = acc := by
      cases acc with
      | mk cb sc =>
        have hi := hacc hv
        simp at hi
        rw [if_pos hv]
        simp [hi]
    rw [hacc']
    rw [hv]
    rw [show encode_message 1 ([] : List Nat) = [] from rfl]
    simp only [List.length_nil, Nat.add_zero]
  · rw [if_neg hv]
    have henc : encode_message 1 (encode_code_block b) =
        [10] ++ (encode_varint (encode_code_block b).length ++ encode_code_block b) := by
      rw [encode_message, if_neg hv,
        show ((1 <<< 3) ||| 2 : Nat) = 10 from by decide,
        encode_varint_small (by norm_num), List.append_assoc]
    rw [henc] at hen ⊢
    simp only [List.append_assoc]
    rw [parseCodeResultGo]
    have h1 := encode_varint_length_pos (encode_code_block b).length
    rw [if_pos (show pre.length < en by
      simp only [List.length_append, List.length_singleton] at hen
      omega)]
    have hdec := decode_varint_at pre 10
      (encode_varint (encode_code_block b).length ++ (encode_code_block b ++ rest))
    rw [encode_varint_small (by norm_num)] at hdec
    rw [hdec]
    dsimp only
    rw [if_pos (by decide : (10 : Nat) >>> 3 = 1 ∧ (10 : Nat) &&& 7 = 2)]
    have hdec2 := decode_varint_at (pre ++ [10]) (encode_code_block b).length
      (encode_code_block b ++ rest)
    rw [List.append_assoc] at hdec2
    simp only [List.length_append, List.length_singleton] at hdec2 ⊢
    rw [hdec2]
    dsimp only
    have hpb := parse_code_block_encoded
      ((pre ++ [10]) ++ encode_varint (encode_code_block b).length) rest b hb
    simp only [List.append_assoc, List.length_append, List.length_singleton] at hpb
    simp only [Nat.add_assoc] at hpb ⊢
    rw [hpb]

/-- Processing the encoded double `score` field (number 2, wire type 1) in
the `parse_code_result` loop. -/
theorem crGo_score_step (pre rest byts : List Nat) (en : Nat) (acc : PCodeResult)
    (hlen : byts.length = 8)
    (hen : pre.length + (encode_double 2 (some byts)).length ≤ en) :
    parseCodeResultGo (pre ++ (encode_double 2 (some byts) ++ rest)) en pre.length acc =
      parseCodeResultGo (pre ++ (encode_double 2 (some byts) ++ rest)) en
        (pre.length + (encode_double 2 (some byts)).length)
        { acc with score := PScore.f64 byts } := by
  have henc : encode_double 2 (some byts) = [17] ++ byts := by
    rw [encode_double,
      show ((2 <<< 3) ||| 1 : Nat) = 17 from by decide,
      encode_varint_small (by norm_num)]
  rw [henc] at hen ⊢
  simp only [List.append_assoc]
  rw [parseCodeResultGo]
  rw [if_pos (show pre.length < en by
    simp only [List.length_append, List.length_singleton] at hen
    omega)]
  have hdec := decode_varint_at pre 17 (byts ++ rest)
  rw [encode_varint_small (by norm_num)] at hdec
  rw [hdec]
  dsimp only
  rw [if_neg (by decide : ¬((17 : Nat) >>> 3 = 1 ∧ (17 : Nat) &&& 7 = 2))]
  rw [if_pos (by decide : (17 : Nat) >>> 3 = 2 ∧ (17 : Nat) &&& 7 = 1)]
  have hrb : readBytes (pre ++ ([17] ++ (byts ++ rest))) (pre.length + [17].length) 8 =
      some byts := by
    rw [readBytes, if_pos (by
      simp only [List.length_append, List.length_singleton]
      omega)]
    have hmid := take_drop_middle (pre ++ [17]) byts rest
    rw [List.append_assoc] at hmid
    simp only [List.length_append, List.length_singleton] at hmid
    rw [hlen] at hmid
    simp only [List.length_singleton]
    rw [hmid]
  simp only [List.length_singleton] at hrb ⊢
  rw [hrb]
  dsimp only
  have hfin : pre.length + ([17] ++ byts).length = pre.length + 1 + 8 := by
    simp only [List.length_append, List.length_singleton, hlen]
  rw [hfin]

theorem crGo_end (data : List Nat) (en : Nat) (acc : PCodeResult) :
    parseCodeResultGo data en en acc = some acc := by
  rw [parseCodeResultGo, if_neg (lt_irrefl en)]

/-- Parsing a window holding exactly an encoded CodeResult. -/
theorem parse_code_result_encoded (pre rest : List Nat) (r : CodeResultV)
    (hr : ValidCodeResultV r) :
    parse_code_result (pre ++ (encode_code_result r ++ rest)) pre.length
      (pre.length + (encode_code_result r).length) = some (expectedCodeResult r) := by
  obtain ⟨hb, hs⟩ := hr
  rw [parse_code_result, encode_code_result, expectedCodeResult]
  cases hsc : r.score with
  | none =>
    rw [show encode_double 2 (none : Option (List Nat)) = [] from rfl]
    simp only [List.append_nil]
    have hstep1 := crGo_cb_step pre rest r.block
      (pre.length + (encode_message 1 (encode_code_block r.block)).length)
      initCodeResult hb (by omega) (fun _ => rfl)
    rw [hstep1]
    rw [crGo_end]
    rfl
  | some byts =>
    rw [hsc] at hs
    try dsimp only at hs
    simp only [List.append_assoc, List.length_append]
    have hstep1 := crGo_cb_step pre (encode_double 2 (some byts) ++ rest) r.block
      (pre.length + ((encode_message 1 (encode_code_block r.block)).length +
        (encode_double 2 (some byts)).length))
      initCodeResult hb (by omega) (fun _ => rfl)
    rw [hstep1]
    have hstep2 := crGo_score_step
      (pre ++ encode_message 1 (encode_code_block r.block)) rest byts
      (pre.length + ((encode_message 1 (encode_code_block r.block)).length +
        (encode_double 2 (some byts)).length))
      { initCodeResult with codeBlock :=
          (if encode_code_block r.block = [] then none
           else some (expectedCodeBlock r.block)) }
      hs (by simp only [List.length_append]; omega)
    simp only [List.append_assoc, List.length_append] at hstep2
    simp only [Nat.add_assoc] at hstep2 ⊢
    rw [hstep2]
    rw [crGo_end]

theorem pcrwcGo_end (data : List Nat) (en : Nat) :
    parseCRWCGo data en en = some none := by
  rw [parseCRWCGo, if_neg (lt_irrefl en)]

/-- Parsing a window holding exactly a classification wrapper around an
encoded CodeResult. -/
theorem pcrwc_encoded (pre rest : List Nat) (r : CodeResultV)
    (hr : ValidCodeResultV r) (hne : encode_code_result r ≠ []) :
    parse_code_result_with_classification
      (pre ++ (encode_message 1 (encode_code_result r) ++ rest)) pre.length
      (pre.length + (encode_message 1 (encode_code_result r)).length) =
      some (some (expectedCodeResult r)) := by
  have henc : encode_message 1 (encode_code_result r) =
      [10] ++ (encode_varint (encode_code_result r).length ++ encode_code_result r) := by
    rw [encode_message, if_neg hne,
      show ((1 <<< 3) ||| 2 : Nat) = 10 from by decide,
      encode_varint_small (by norm_num), List.append_assoc]
  rw [parse_code_result_with_classification, henc]
  simp only [List.append_assoc]
  rw [parseCRWCGo]
  have h1 := encode_varint_length_pos (encode_code_result r).length
  have hlt : pre.length < pre.length +
      ([10] ++ (encode_varint (encode_code_result r).length ++
        encode_code_result r)).length := by
    simp only [List.length_append, List.length_singleton]
    omega
  rw [if_pos hlt]
  have hdec := decode_varint_at pre 10
    (encode_varint (encode_code_result r).length ++ (encode_code_result r ++ rest))
  rw [encode_varint_small (by norm_num)] at hdec
  rw [hdec]
  dsimp only
  rw [if_pos (by decide : (10 : Nat) >>> 3 = 1 ∧ (10 : Nat) &&& 7 = 2)]
  have hdec2 := decode_varint_at (pre ++ [10]) (encode_code_result r).length
    (encode_code_result r ++ rest)
  rw [List.append_assoc] at hdec2
  simp only [List.length_append, List.length_singleton] at hdec2 ⊢
  rw [hdec2]
  dsimp only
  have hpc := parse_code_result_encoded
    ((pre ++ [10]) ++ encode_varint (encode_code_result r).length) rest r hr
  simp only [List.append_assoc, List.length_append, List.length_singleton] at hpc
  simp only [Nat.add_assoc] at hpc ⊢
  rw [hpc]

theorem applyContentsFallback_path (x : PCodeBlock) :
    (applyContentsFallback x).relativeWorkspacePath = x.relativeWorkspacePath := by
  rw [applyContentsFallback]
  by_cases h1 : x.contents = []
  · rw [if_pos h1]
    by_cases h2 : x.overrideContents ≠ []
    · rw [if_pos h2]
    · rw [if_neg h2]
      by_cases h3 : x.fileContents ≠ []
      · rw [if_pos h3]
      · rw [if_neg h3]
        by_cases h4 : x.originalContents ≠ []
        · rw [if_pos h4]
        · rw [if_neg h4]
  · rw [if_neg h1]

theorem encode_code_block_path_nil {b : CodeBlockV} (h : encode_code_block b = []) :
    b.path = [] := by
  rw [encode_code_block] at h
  simp only [List.append_eq_nil] at h
  exact (encode_string_eq_nil_iff 1 b.path).mp h.1.1.1.1.1

theorem encode_code_result_ne_nil {r : CodeResultV} (h : r.block.path ≠ []) :
    encode_code_result r ≠ [] := by
  rw [encode_code_result]
  intro hc
  rw [List.append_eq_nil] at hc
  have hm := (encode_message_eq_nil_iff 1 (encode_code_block r.block)).mp hc.1
  exact h (encode_code_block_path_nil hm)

theorem hasNonemptyPath_expected {r : CodeResultV} (h : r.block.path ≠ []) :
    hasNonemptyPath (expectedCodeResult r) = true := by
  rw [hasNonemptyPath, expectedCodeResult]
  rw [if_neg (fun hc => h (encode_code_block_path_nil hc))]
  dsimp only
  rw [expectedCodeBlock, applyContentsFallback_path]
  dsimp only
  cases hp : r.block.path with
  | nil => exact absurd hp h
  | cons a l => rfl

theorem psrGo_end (data : List Nat) (pos : Nat) (acc : List PCodeResult)
    (h : data.length ≤ pos) :
    parseSearchGo data pos acc = some acc := by
  rw [parseSearchGo, if_neg (by omega)]

/-- Processing one field-1 item holding an encoded CodeResult with a
non-empty path in the `parse_search_response` loop: the result is accepted
and appended. -/
theorem psrGo_item1_step (pre rest : List Nat) (r : CodeResultV)
    (hr : ValidCodeResultV r) (hpath : r.block.path ≠ []) (acc : List PCodeResult) :
    parseSearchGo (pre ++ (encode_message 1 (encode_code_result r) ++ rest)) pre.length acc =
      parseSearchGo (pre ++ (encode_message 1 (encode_code_result r) ++ rest))
        (pre.length + (encode_message 1 (encode_code_result r)).length)
        (acc ++ [expectedCodeResult r]) := by
  have hne := encode_code_result_ne_nil hpath
  have henc : encode_message 1 (encode_code_result r) =
      [10] ++ (encode_varint (encode_code_result r).length ++ encode_code_result r) := by
    rw [encode_message, if_neg hne,
      show ((1 <<< 3) ||| 2 : Nat) = 10 from by decide,
      encode_varint_small (by norm_num), List.append_assoc]
  rw [henc]
  simp only [List.append_assoc]
  rw [parseSearchGo]
  have h1 := encode_varint_length_pos (encode_code_result r).length
  have hlt : pre.length <
      (pre ++ ([10] ++ (encode_varint (encode_code_result r).length ++
        (encode_code_result r ++ rest)))).length := by
    simp only [List.length_append, List.length_singleton]
    omega
  rw [if_pos hlt]
  have hdec := decode_varint_at pre 10
    (encode_varint (encode_code_result r).length ++ (encode_code_result r ++ rest))
  rw [encode_varint_small (by norm_num)] at hdec
  rw [hdec]
  dsimp only
  rw [if_pos (by decide : (10 : Nat) >>> 3 = 1 ∧ (10 : Nat) &&& 7 = 2)]
  have hdec2 := decode_varint_at (pre ++ [10]) (encode_code_result r).length
    (encode_code_result r ++ rest)
  rw [List.append_assoc] at hdec2
  simp only [List.length_append, List.length_singleton] at hdec2 ⊢
  rw [hdec2]
  dsimp only
  have hsl := take_drop_middle ((pre ++ [10]) ++
    encode_varint (encode_code_result r).length) (encode_code_result r) rest
  simp only [List.append_assoc, List.length_append, List.length_singleton] at hsl
  simp only [Nat.add_assoc] at hsl ⊢
  rw [hsl]
  have hpc := parse_code_result_encoded [] [] r hr
  simp only [List.nil_append, List.append_nil, List.length_nil, Nat.zero_add] at hpc
  rw [hpc]
  dsimp only
  rw [hasNonemptyPath_expected hpath]
  rw [if_pos rfl]

/-- Processing one field-3 item holding a classification wrapper around an
encoded CodeResult with a non-empty path: the unwrapped result is accepted
and appended. -/
theorem psrGo_item3_step (pre rest : List Nat) (r : CodeResultV)
    (hr : ValidCodeResultV r) (hpath : r.block.path ≠ []) (acc : List PCodeResult) :
    parseSearchGo (pre ++ (encode_message 3 (encode_message 1 (encode_code_result r)) ++
        rest)) pre.length acc =
      parseSearchGo (pre ++ (encode_message 3 (encode_message 1 (encode_code_result r)) ++
        rest))
        (pre.length + (encode_message 3 (encode_message 1 (encode_code_result r))).length)
        (acc ++ [expectedCodeResult r]) := by
  have hne := encode_code_result_ne_nil hpath
  have hnem : encode_message 1 (encode_code_result r) ≠ [] := by
    intro hc
    exact hne ((encode_message_eq_nil_iff 1 (encode_code_result r)).mp hc)
  have henc : encode_message 3 (encode_message 1 (encode_code_result r)) =
      [26] ++ (encode_varint (encode_message 1 (encode_code_result r)).length ++
        encode_message 1 (encode_code_result r)) := by
    rw [encode_message, if_neg hnem,
      show ((3 <<< 3) ||| 2 : Nat) = 26 from by decide,
      encode_varint_small (by norm_num), List.append_assoc]
  rw [henc]
  simp only [List.append_assoc]
  rw [parseSearchGo]
  have h1 := encode_varint_length_pos (encode_message 1 (encode_code_result r)).length
  have hlt : pre.length <
      (pre ++ ([26] ++ (encode_varint (encode_message 1 (encode_code_result r)).length ++
        (encode_message 1 (encode_code_result r) ++ rest)))).length := by
    simp only [List.length_append, List.length_singleton]
    omega
  rw [if_pos hlt]
  have hdec := decode_varint_at pre 26
    (encode_varint (encode_message 1 (encode_code_result r)).length ++
      (encode_message 1 (encode_code_result r) ++ rest))
  rw [encode_varint_small (by norm_num)] at hdec
  rw [hdec]
  dsimp only
  rw [if_neg (by decide : ¬((26 : Nat) >>> 3 = 1 ∧ (26 : Nat) &&& 7 = 2))]
  rw [if_pos (by decide : (26 : Nat) >>> 3 = 3 ∧ (26 : Nat) &&& 7 = 2)]
  have hdec2 := decode_varint_at (pre ++ [26])
    (encode_message 1 (encode_code_result r)).length
    (encode_message 1 (encode_code_result r) ++ rest)
  rw [List.append_assoc] at hdec2
  simp only [List.length_append, List.length_singleton] at hdec2 ⊢
  rw [hdec2]
  dsimp only
  have hw := pcrwc_encoded ((pre ++ [26]) ++
    encode_varint (encode_message 1 (encode_code_result r)).length) rest r hr hne
  simp only [List.append_assoc, List.length_append, List.length_singleton] at hw
  simp only [Nat.add_assoc] at hw ⊢
  rw [hw]
  dsimp only
  rw [hasNonemptyPath_expected hpath]
  rw [if_pos rfl]

/-! ## Claim C1 -/

/-- C1: for every byte buffer encoding a plain repeated-CodeResult response
with two entries (each a length-delimited field 1 whose CodeBlock carries a
non-empty path), `parse_search_response` returns exactly those two results
in order; and for the same two results wrapped one level deeper in a
classification wrapper (field-3 entries each wrapping the CodeResult at
field 1), it returns the same two results unwrapped, in order. -/
theorem C1_parse_search_response_two_results (r1 r2 : CodeResultV)
    (h1 : ValidCodeResultV r1) (h2 : ValidCodeResultV r2)
    (hp1 : r1.block.path ≠ []) (hp2 : r2.block.path ≠ []) :
    parse_search_response (encode_message 1 (encode_code_result r1) ++
        encode_message 1 (encode_code_result r2)) =
      some [expectedCodeResult r1, expectedCodeResult r2] ∧
    parse_search_response (encode_message 3 (encode_message 1 (encode_code_result r1)) ++
        encode_message 3 (encode_message 1 (encode_code_result r2))) =
      some [expectedCodeResult r1, expectedCodeResult r2] := by
  constructor
  · rw [parse_search_response]
    have hs1 := psrGo_item1_step [] (encode_message 1 (encode_code_result r2)) r1 h1 hp1 []
    simp only [List.nil_append, List.length_nil, Nat.zero_add] at hs1
    rw [hs1]
    have hs2 := psrGo_item1_step (encode_message 1 (encode_code_result r1)) [] r2 h2 hp2
      [expectedCodeResult r1]
    simp only [List.append_nil, List.nil_append] at hs2
    rw [hs2]
    have hend := psrGo_end
      (encode_message 1 (encode_code_result r1) ++ encode_message 1 (encode_code_result r2))
      ((encode_message 1 (encode_code_result r1)).length +
        (encode_message 1 (encode_code_result r2)).length)
      ([expectedCodeResult r1] ++ [expectedCodeResult r2])
      (by simp [List.length_append])
    rw [hend]
    rfl
  · rw [parse_search_response]
    have hs1 := psrGo_item3_step []
      (encode_message 3 (encode_message 1 (encode_code_result r2))) r1 h1 hp1 []
    simp only [List.nil_append, List.length_nil, Nat.zero_add] at hs1
    rw [hs1]
    have hs2 := psrGo_item3_step
      (encode_message 3 (encode_message 1 (encode_code_result r1))) [] r2 h2 hp2
      [expectedCodeResult r1]
    simp only [List.append_nil, List.nil_append] at hs2
    rw [hs2]
    have hend := psrGo_end
      (encode_message 3 (encode_message 1 (encode_code_result r1)) ++
        encode_message 3 (encode_message 1 (encode_code_result r2)))
      ((encode_message 3 (encode_message 1 (encode_code_result r1))).length +
        (encode_message 3 (encode_message 1 (encode_code_result r2))).length)
      ([expectedCodeResult r1] ++ [expectedCodeResult r2])
      (by simp [List.length_append])
    rw [hend]
    rfl

/-- Witness for C1 at a concrete pair of results. -/
theorem C1_parse_search_response_two_results_witness :
    parse_search_response (encode_message 1 (encode_code_result
        ⟨⟨[97, 46, 112, 121], [], [100, 101, 102], [], [], 1, 0, 2, 5⟩,
          some [0, 0, 0, 0, 0, 0, 240, 63]⟩) ++
      encode_message 1 (encode_code_result
        ⟨⟨[98, 47, 99], [], [], [], [], 0, 0, 0, 0⟩, none⟩)) =
      some [expectedCodeResult
        ⟨⟨[97, 46, 112, 121], [], [100, 101, 102], [], [], 1, 0, 2, 5⟩,
          some [0, 0, 0, 0, 0, 0, 240, 63]⟩,
        expectedCodeResult ⟨⟨[98, 47, 99], [], [], [], [], 0, 0, 0, 0⟩, none⟩] ∧
    parse_search_response (encode_message 3 (encode_message 1 (encode_code_result
        ⟨⟨[97, 46, 112, 121], [], [100, 101, 102], [], [], 1, 0, 2, 5⟩,
          some [0, 0, 0, 0, 0, 0, 240, 63]⟩)) ++
      encode_message 3 (encode_message 1 (encode_code_result
        ⟨⟨[98, 47, 99], [], [], [], [], 0, 0, 0, 0⟩, none⟩))) =
      some [expectedCodeResult
        ⟨⟨[97, 46, 112, 121], [], [100, 101, 102], [], [], 1, 0, 2, 5⟩,
          some [0, 0, 0, 0, 0, 0, 240, 63]⟩,
        expectedCodeResult ⟨⟨[98, 47, 99], [], [], [], [], 0, 0, 0, 0⟩, none⟩] :=
  C1_parse_search_response_two_results _ _ (by decide) (by decide) (by decide) (by decide)

/-- Processing one field-3 classification-wrapped encoded CodeResult in the
`parse_search_response` loop: accepted iff the path is non-empty, dropped
otherwise (no recursion for field 3). -/
theorem psrGo_item3_general (pre rest : List Nat) (r : CodeResultV)
    (hr : ValidCodeResultV r) (hne : encode_code_result r ≠ []) (acc : List PCodeResult) :
    parseSearchGo (pre ++ (encode_message 3 (encode_message 1 (encode_code_result r)) ++
        rest)) pre.length acc =
      parseSearchGo (pre ++ (encode_message 3 (encode_message 1 (encode_code_result r)) ++
        rest))
        (pre.length + (encode_message 3 (encode_message 1 (encode_code_result r))).length)
        (if hasNonemptyPath (expectedCodeResult r) then acc ++ [expectedCodeResult r]
         else acc) := by
  have hnem : encode_message 1 (encode_code_result r) ≠ [] := by
    intro hc
    exact hne ((encode_message_eq_nil_iff 1 (encode_code_result r)).mp hc)
  have henc : encode_message 3 (encode_message 1 (encode_code_result r)) =
      [26] ++ (encode_varint (encode_message 1 (encode_code_result r)).length ++
        encode_message 1 (encode_code_result r)) := by
    rw [encode_message, if_neg hnem,
      show ((3 <<< 3) ||| 2 : Nat) = 26 from by decide,
      encode_varint_small (by norm_num), List.append_assoc]
  rw [henc]
  simp only [List.append_assoc]
  rw [parseSearchGo]
  have h1 := encode_varint_length_pos (encode_message 1 (encode_code_result r)).length
  have hlt : pre.length <
      (pre ++ ([26] ++ (encode_varint (encode_message 1 (encode_code_result r)).length ++
        (encode_message 1 (encode_code_result r) ++ rest)))).length := by
    simp only [List.length_append, List.length_singleton]
    omega
  rw [if_pos hlt]
  have hdec := decode_varint_at pre 26
    (encode_varint (encode_message 1 (encode_code_result r)).length ++
      (encode_message 1 (encode_code_result r) ++ rest))
  rw [encode_varint_small (by norm_num)] at hdec
  rw [hdec]
  dsimp only
  rw [if_neg (by decide : ¬((26 : Nat) >>> 3 = 1 ∧ (26 : Nat) &&& 7 = 2))]
  rw [if_pos (by decide : (26 : Nat) >>> 3 = 3 ∧ (26 : Nat) &&& 7 = 2)]
  have hdec2 := decode_varint_at (pre ++ [26])
    (encode_message 1 (encode_code_result r)).length
    (encode_message 1 (encode_code_result r) ++ rest)
  rw [List.append_assoc] at hdec2
  simp only [List.length_append, List.length_singleton] at hdec2 ⊢
  rw [hdec2]
  dsimp only
  have hw := pcrwc_encoded ((pre ++ [26]) ++
    encode_varint (encode_message 1 (encode_code_result r)).length) rest r hr hne
  simp only [List.append_assoc, List.length_append, List.length_singleton] at hw
  simp only [Nat.add_assoc] at hw ⊢
  rw [hw]
  dsimp only
  cases hnp : hasNonemptyPath (expectedCodeResult r) with
  | true =>
    rw [if_pos rfl, if_pos rfl]
  | false =>
    rw [if_neg (by simp), if_neg (by simp)]

/-! ## Claim C2 -/

/-- Modelled from the spec: the "looks like a path" plausibility test the
spec says the manual fallback applies to a decoded result's path (contains
a path separator, is printable, contains no control characters).  The code
contains no such test; this definition states the spec's predicate so the
claim can be compared against the code. -/
def specLooksLikePath (s : List Nat) : Bool :=
  s.any (fun c => c = 47 || c = 92) &&
  s.all (fun c => 32 ≤ c && c < 127)

/-- C2 counterexample: `parse_search_response` accepts a decoded CodeResult
whose path is `"abc"`, which contains no path separator and therefore fails
the spec's looks-like-a-path test; acceptance only requires a non-empty
path, so the claim's "only if it looks like a path" is false on the code. -/
theorem C2_counterexample_no_path_plausibility_test :
    parse_search_response (encode_message 1 (encode_code_result
        ⟨⟨[97, 98, 99], [], [], [], [], 0, 0, 0, 0⟩, none⟩)) =
      some [expectedCodeResult ⟨⟨[97, 98, 99], [], [], [], [], 0, 0, 0, 0⟩, none⟩] ∧
    (expectedCodeResult ⟨⟨[97, 98, 99], [], [], [], [], 0, 0, 0, 0⟩, none⟩).codeBlock =
      some (expectedCodeBlock ⟨[97, 98, 99], [], [], [], [], 0, 0, 0, 0⟩) ∧
    (expectedCodeBlock ⟨[97, 98, 99], [], [], [], [], 0, 0, 0, 0⟩).relativeWorkspacePath =
      [97, 98, 99] ∧
    specLooksLikePath [97, 98, 99] = false := by
  refine ⟨?_, ?_, ?_, by decide⟩
  · rw [parse_search_response]
    have hs1 := psrGo_item1_step [] []
      ⟨⟨[97, 98, 99], [], [], [], [], 0, 0, 0, 0⟩, none⟩ (by decide) (by decide) []
    simp only [List.nil_append, List.append_nil, List.length_nil, Nat.zero_add] at hs1
    rw [hs1]
    have hend := psrGo_end
      (encode_message 1 (encode_code_result
        ⟨⟨[97, 98, 99], [], [], [], [], 0, 0, 0, 0⟩, none⟩))
      (encode_message 1 (encode_code_result
        ⟨⟨[97, 98, 99], [], [], [], [], 0, 0, 0, 0⟩, none⟩)).length
      ([] ++ [expectedCodeResult ⟨⟨[97, 98, 99], [], [], [], [], 0, 0, 0, 0⟩, none⟩])
      (by omega)
    simp only [List.nil_append] at hend
    rw [hend]
  · rw [expectedCodeResult]
    rw [if_neg (fun hc =>
      (by decide : ([97, 98, 99] : List Nat) ≠ []) (encode_code_block_path_nil hc))]
  · rw [expectedCodeBlock, applyContentsFallback_path]

/-- C2 as amended: in the manual fallback, a field-1 length-delimited payload
that decodes as a CodeResult is accepted into the result list iff its path
string is non-empty (no separator/printability test); otherwise — empty
path or failed decode — the payload is recursed into as a nested response.
A field-3 classification-wrapped CodeResult is likewise accepted iff its
path is non-empty, and otherwise dropped without recursion. -/
theorem C2_amended_acceptance_is_nonempty_path :
    (∀ P : List Nat, P ≠ [] →
      parse_search_response (encode_message 1 P) =
        (match parse_code_result P 0 P.length with
         | some r => if hasNonemptyPath r then some [r] else parse_search_response P
         | none => parse_search_response P)) ∧
    (∀ r : CodeResultV, ValidCodeResultV r →
      parse_search_response (encode_message 3 (encode_message 1 (encode_code_result r))) =
        some (if hasNonemptyPath (expectedCodeResult r) then [expectedCodeResult r]
          else [])) := by
  constructor
  · intro P hne
    have henc : encode_message 1 P = [10] ++ (encode_varint P.length ++ P) := by
      rw [encode_message, if_neg hne,
        show ((1 <<< 3) ||| 2 : Nat) = 10 from by decide,
        encode_varint_small (by norm_num), List.append_assoc]
    rw [henc, parse_search_response, parseSearchGo]
    have h1 := encode_varint_length_pos P.length
    have hP1 := List.length_pos.mpr hne
    have hlt0 : 0 < ([10] ++ (encode_varint P.length ++ P)).length := by
      simp [List.length_append]
    rw [if_pos hlt0]
    have hdec := decode_varint_at [] 10 (encode_varint P.length ++ P)
    rw [encode_varint_small (by norm_num)] at hdec
    simp only [List.nil_append, List.length_nil, List.length_singleton, Nat.zero_add] at hdec
    rw [hdec]
    dsimp only
    rw [if_pos (by decide : (10 : Nat) >>> 3 = 1 ∧ (10 : Nat) &&& 7 = 2)]
    have hdec2 := decode_varint_at [10] P.length P
    simp only [List.length_singleton] at hdec2
    rw [hdec2]
    dsimp only
    have hsl := take_drop_middle ([10] ++ encode_varint P.length) P []
    rw [List.append_nil] at hsl
    simp only [List.append_assoc, List.length_append, List.length_singleton] at hsl
    rw [hsl]
    cases hpc : parse_code_result P 0 P.length with
    | some r =>
      dsimp only
      cases hnp : hasNonemptyPath r with
      | true =>
        rw [if_pos rfl, if_pos rfl]
        have hend := psrGo_end ([10] ++ (encode_varint P.length ++ P))
          (1 + (encode_varint P.length).length + P.length) ([] ++ [r])
          (by simp only [List.length_append, List.length_singleton]; omega)
        rw [hend]
        simp
      | false =>
        rw [if_neg (by simp), if_neg (by simp)]
        cases hin : parse_search_response P with
        | none => rfl
        | some inner =>
          dsimp only
          have hend := psrGo_end ([10] ++ (encode_varint P.length ++ P))
            (1 + (encode_varint P.length).length + P.length) ([] ++ inner)
            (by simp only [List.length_append, List.length_singleton]; omega)
          rw [hend]
          simp
    | none =>
      dsimp only
      cases hin : parse_search_response P with
      | none => rfl
      | some inner =>
        dsimp only
        have hend := psrGo_end ([10] ++ (encode_varint P.length ++ P))
          (1 + (encode_varint P.length).length + P.length) ([] ++ inner)
          (by simp only [List.length_append, List.length_singleton]; omega)
        rw [hend]
        simp
  · intro r hr
    by_cases hne : encode_code_result r = []
    · have hcb : encode_code_block r.block = [] := by
        rw [encode_code_result, List.append_eq_nil] at hne
        exact (encode_message_eq_nil_iff 1 (encode_code_block r.block)).mp hne.1
      have hm1 : encode_message 1 (encode_code_result r) = [] := by
        rw [hne]
        rfl
      have hnp : hasNonemptyPath (expectedCodeResult r) = false := by
        rw [hasNonemptyPath, expectedCodeResult]
        rw [if_pos hcb]
      rw [hm1]
      rw [show encode_message 3 ([] : List Nat) = [] from rfl]
      rw [hnp]
      rw [parse_search_response]
      rw [psrGo_end [] 0 [] (by simp)]
      rfl
    · rw [parse_search_response]
      have hs1 := psrGo_item3_general [] [] r hr hne []
      simp only [List.nil_append, List.append_nil, List.length_nil, Nat.zero_add] at hs1
      rw [hs1]
      cases hnp : hasNonemptyPath (expectedCodeResult r) with
      | true =>
        simp only [eq_self_iff_true, if_true]
        have hend := psrGo_end
          (encode_message 3 (encode_message 1 (encode_code_result r)))
          (encode_message 3 (encode_message 1 (encode_code_result r))).length
          [expectedCodeResult r] (by omega)
        rw [hend]
      | false =>
        simp only [Bool.false_eq_true, if_false]
        have hend := psrGo_end
          (encode_message 3 (encode_message 1 (encode_code_result r)))
          (encode_message 3 (encode_message 1 (encode_code_result r))).length
          [] (by omega)
        rw [hend]

/-- Witness for the amended C2 theorem: a concrete varint-only payload for the
field-1 case and a concrete one-result message for the field-3 case. -/
theorem C2_amended_acceptance_is_nonempty_path_witness :
    (([8, 1] : List Nat) ≠ [] ∧
      parse_search_response (encode_message 1 [8, 1]) =
        (match parse_code_result [8, 1] 0 ([8, 1] : List Nat).length with
         | some r => if hasNonemptyPath r then some [r] else parse_search_response [8, 1]
         | none => parse_search_response [8, 1])) ∧
    (ValidCodeResultV ⟨⟨[97], [], [], [], [], 0, 0, 0, 0⟩, none⟩ ∧
      parse_search_response (encode_message 3 (encode_message 1
          (encode_code_result ⟨⟨[97], [], [], [], [], 0, 0, 0, 0⟩, none⟩))) =
        some (if hasNonemptyPath (expectedCodeResult ⟨⟨[97], [], [], [], [], 0, 0, 0, 0⟩, none⟩)
          then [expectedCodeResult ⟨⟨[97], [], [], [], [], 0, 0, 0, 0⟩, none⟩] else [])) :=
  ⟨⟨by decide, C2_amended_acceptance_is_nonempty_path.1 [8, 1] (by decide)⟩,
   ⟨by decide, C2_amended_acceptance_is_nonempty_path.2
      ⟨⟨[97], [], [], [], [], 0, 0, 0, 0⟩, none⟩ (by decide)⟩⟩

/-! ### Connect envelope (proto.py: wrap_connect_envelope, decode_connect_envelope) -/

/-- Big-endian 4-byte encoding of a 32-bit unsigned integer (`struct.pack ">I"`). -/
def be32 (n : Nat) : List Nat :=
  [n / 16777216 % 256, n / 65536 % 256, n / 256 % 256, n % 256]

theorem be32_length (n : Nat) : (be32 n).length = 4 := rfl

/-- `wrap_connect_envelope(data, compressed)`: a flags byte (1 if compressed else 0),
the big-endian 32-bit length, then the payload. `struct.pack ">I"` raises when the
length does not fit in 32 bits, modelled by `none`. -/
def wrap_connect_envelope (data : List Nat) (compressed : Bool) : Option (List Nat) :=
  if data.length < 4294967296 then
    some ((if compressed then [1] else [0]) ++ be32 data.length ++ data)
  else none

/-- Byte access `data[i]`; every use in the envelope decoder is bounds-guarded,
so the default never fires. -/
def byteAt (data : List Nat) (i : Nat) : Nat := (data.get? i).getD 0

/-- The frame length read by `struct.unpack(">I", data[pos+1:pos+5])`. -/
def envLen (data : List Nat) (pos : Nat) : Nat :=
  byteAt data (pos + 1) * 16777216 + byteAt data (pos + 2) * 65536 +
    byteAt data (pos + 3) * 256 + byteAt data (pos + 4)

/-- The `decode_connect_envelope` loop. `gunzip` models `gzip.decompress`, with
`none` for a raised exception: the source's `except Exception: pass` keeps the
raw message bytes in that case. A frame with flags bit 1 set is skipped
(`continue`) without touching the accumulator. -/
def decodeEnvGo (gunzip : List Nat → Option (List Nat)) (data : List Nat)
    (pos : Nat) (acc : List (List Nat)) : List (List Nat) :=
  if h : pos < data.length then
    if pos + 5 > data.length then acc
    else if pos + 5 + envLen data pos > data.length then acc
    else if byteAt data pos &&& 2 ≠ 0 then
      decodeEnvGo gunzip data (pos + 5 + envLen data pos) acc
    else if byteAt data pos &&& 1 ≠ 0 then
      (match gunzip ((data.drop (pos + 5)).take (envLen data pos)) with
       | some m => decodeEnvGo gunzip data (pos + 5 + envLen data pos) (acc ++ [m])
       | none => decodeEnvGo gunzip data (pos + 5 + envLen data pos)
           (acc ++ [(data.drop (pos + 5)).take (envLen data pos)]))
    else decodeEnvGo gunzip data (pos + 5 + envLen data pos)
      (acc ++ [(data.drop (pos + 5)).take (envLen data pos)])
  else acc
termination_by data.length - pos
decreasing_by all_goals (simp_wf; omega)

def decode_connect_envelope (gunzip : List Nat → Option (List Nat))
    (data : List Nat) : List (List Nat) :=
  decodeEnvGo gunzip data 0 []

theorem byteAt_at (pre : List Nat) (b : Nat) (suf : List Nat) :
    byteAt (pre ++ (b :: suf)) pre.length = b := by
  rw [byteAt, List.get?_append_right (le_refl pre.length)]
  simp

theorem byteAt_append_right (pre suf : List Nat) (k : Nat) :
    byteAt (pre ++ suf) (pre.length + k) = byteAt suf k := by
  rw [byteAt, byteAt, List.get?_append_right (by omega)]
  have hx : pre.length + k - pre.length = k := by omega
  rw [hx]

/-- Recombining the four big-endian digits of a 32-bit value found right after
a flags byte. -/
theorem be32_digits (x n : Nat) (q : List Nat) (h : n < 4294967296) :
    byteAt (x :: (be32 n ++ q)) 1 * 16777216 + byteAt (x :: (be32 n ++ q)) 2 * 65536 +
      byteAt (x :: (be32 n ++ q)) 3 * 256 + byteAt (x :: (be32 n ++ q)) 4 = n := by
  have e1 : byteAt (x :: (be32 n ++ q)) 1 = n / 16777216 % 256 := rfl
  have e2 : byteAt (x :: (be32 n ++ q)) 2 = n / 65536 % 256 := rfl
  have e3 : byteAt (x :: (be32 n ++ q)) 3 = n / 256 % 256 := rfl
  have e4 : byteAt (x :: (be32 n ++ q)) 4 = n % 256 := rfl
  rw [e1, e2, e3, e4]
  omega

theorem decodeEnvGo_end (gunzip : List Nat → Option (List Nat)) (data : List Nat)
    (pos : Nat) (acc : List (List Nat)) (h : data.length ≤ pos) :
    decodeEnvGo gunzip data pos acc = acc := by
  rw [decodeEnvGo, dif_neg (by omega)]

/-- One frame step of the envelope decoder: reading the frame that starts at
`head.length` consumes its 5-byte header and payload and updates the
accumulator exactly as the flag bits dictate. -/
theorem envGo_step (gunzip : List Nat → Option (List Nat)) (head : List Nat)
    (flags : Nat) (p rest : List Nat) (acc : List (List Nat))
    (hlen : p.length < 4294967296) :
    decodeEnvGo gunzip (head ++ (flags :: (be32 p.length ++ (p ++ rest)))) head.length acc =
      decodeEnvGo gunzip (head ++ (flags :: (be32 p.length ++ (p ++ rest))))
        (head.length + 5 + p.length)
        (if flags &&& 2 ≠ 0 then acc
         else if flags &&& 1 ≠ 0 then
           (match gunzip p with
            | some m => acc ++ [m]
            | none => acc ++ [p])
         else acc ++ [p]) := by
  have hDlen : (head ++ (flags :: (be32 p.length ++ (p ++ rest)))).length =
      head.length + 5 + p.length + rest.length := by
    simp only [List.length_append, List.length_cons, be32_length]
    omega
  have hfl : byteAt (head ++ (flags :: (be32 p.length ++ (p ++ rest)))) head.length = flags :=
    byteAt_at head flags _
  have hEL : envLen (head ++ (flags :: (be32 p.length ++ (p ++ rest)))) head.length =
      p.length := by
    rw [envLen, byteAt_append_right, byteAt_append_right, byteAt_append_right,
      byteAt_append_right]
    exact be32_digits flags p.length (p ++ rest) hlen
  have hmsg : (((head ++ (flags :: (be32 p.length ++ (p ++ rest)))).drop
      (head.length + 5)).take p.length) = p := by
    have h0 : head ++ (flags :: (be32 p.length ++ (p ++ rest))) =
        (head ++ flags :: be32 p.length) ++ (p ++ rest) := by
      simp [List.append_assoc]
    have h1 : head.length + 5 = (head ++ flags :: be32 p.length).length := by
      simp only [List.length_append, List.length_cons, be32_length]
      try omega
    rw [h0, h1, List.drop_left, List.take_left]
  rw [decodeEnvGo, dif_pos (by omega), if_neg (by omega), hEL, if_neg (by omega), hfl, hmsg]
  by_cases h2 : flags &&& 2 ≠ 0
  · rw [if_pos h2, if_pos h2]
  · rw [if_neg h2, if_neg h2]
    by_cases h1f : flags &&& 1 ≠ 0
    · rw [if_pos h1f, if_pos h1f]
      cases hgz : gunzip p with
      | some m => rfl
      | none => rfl
    · rw [if_neg h1f, if_neg h1f]

/-- An ordinary (flags = 0) frame appends its payload to the accumulator. -/
theorem envStepPlain (gunzip : List Nat → Option (List Nat)) (head p rest : List Nat)
    (acc : List (List Nat)) (hlen : p.length < 4294967296) :
    decodeEnvGo gunzip (head ++ (0 :: (be32 p.length ++ (p ++ rest)))) head.length acc =
      decodeEnvGo gunzip (head ++ (0 :: (be32 p.length ++ (p ++ rest))))
        (head.length + 5 + p.length) (acc ++ [p]) := by
  have hs := envGo_step gunzip head 0 p rest acc hlen
  rw [if_neg (by decide), if_neg (by decide)] at hs
  exact hs

/-- A stream consisting of exactly one frame whose flags have bit 1 set decodes
to the empty message list. -/
theorem envSingleTrailer (gunzip : List Nat → Option (List Nat)) (flags : Nat)
    (p : List Nat) (h2 : flags &&& 2 ≠ 0) (hlen : p.length < 4294967296) :
    decode_connect_envelope gunzip (flags :: (be32 p.length ++ p)) = [] := by
  rw [decode_connect_envelope]
  have hs := envGo_step gunzip [] flags p [] [] hlen
  rw [if_pos h2] at hs
  simp only [List.nil_append, List.append_nil, List.length_nil] at hs
  rw [hs, decodeEnvGo_end]
  simp only [List.length_cons, List.length_append, be32_length]
  omega

/-- C5 counterexample: two streams consisting of a single trailer frame
(flags = 2) that differ only in the trailer payload both decode to the same
empty message list, so `decode_connect_envelope` drops the trailer payload
entirely instead of surfacing it. -/
theorem C5_counterexample_trailer_payload_lost :
    decode_connect_envelope (fun _ => none) (2 :: (be32 1 ++ [65])) = [] ∧
    decode_connect_envelope (fun _ => none) (2 :: (be32 1 ++ [66])) = [] :=
  ⟨envSingleTrailer (fun _ => none) 2 [65] (by decide) (by decide),
   envSingleTrailer (fun _ => none) 2 [66] (by decide) (by decide)⟩

/-- C5 (amended): a frame whose flags byte has bit 1 set is skipped by
`decode_connect_envelope`: processing it advances past the frame and leaves the
accumulated message list unchanged, and a stream of exactly one trailer frame
decodes to the empty list. The decoder itself drops the trailer payload rather
than surfacing it. -/
theorem C5_amended_trailer_frames_skipped :
    (∀ (gunzip : List Nat → Option (List Nat)) (head : List Nat) (flags : Nat)
        (p rest : List Nat) (acc : List (List Nat)),
      flags &&& 2 ≠ 0 → p.length < 4294967296 →
      decodeEnvGo gunzip (head ++ (flags :: (be32 p.length ++ (p ++ rest))))
          head.length acc =
        decodeEnvGo gunzip (head ++ (flags :: (be32 p.length ++ (p ++ rest))))
          (head.length + 5 + p.length) acc) ∧
    (∀ (gunzip : List Nat → Option (List Nat)) (flags : Nat) (p : List Nat),
      flags &&& 2 ≠ 0 → p.length < 4294967296 →
      decode_connect_envelope gunzip (flags :: (be32 p.length ++ p)) = []) := by
  constructor
  · intro gz head flags p rest acc h2 hlen
    have hs := envGo_step gz head flags p rest acc hlen
    rw [if_pos h2] at hs
    exact hs
  · intro gz flags p h2 hlen
    exact envSingleTrailer gz flags p h2 hlen

/-- Witness for the amended C5 theorem at a concrete trailer frame. -/
theorem C5_amended_trailer_frames_skipped_witness :
    ((2 : Nat) &&& 2 ≠ 0 ∧ ([65] : List Nat).length < 4294967296) ∧
    decode_connect_envelope (fun _ => none)
      (2 :: (be32 ([65] : List Nat).length ++ [65])) = [] :=
  ⟨⟨by decide, by decide⟩,
   C5_amended_trailer_frames_skipped.2 (fun _ => none) 2 [65] (by decide) (by decide)⟩

/-- C4: `wrap_connect_envelope` emits the flags byte, the big-endian 32-bit
length and the payload; an uncompressed wrap round-trips through
`decode_connect_envelope`; a compressed payload wrapped with the flag set
decodes to the decompressed payload; and two concatenated uncompressed frames
decode to the two payloads in order. -/
theorem C4_envelope_wrap_decode_roundtrip :
    (∀ (p : List Nat) (c : Bool), p.length < 4294967296 →
      ∃ w, wrap_connect_envelope p c = some w ∧
        w.length = 5 + p.length ∧
        byteAt w 0 = (if c then 1 else 0) ∧
        byteAt w 1 * 16777216 + byteAt w 2 * 65536 + byteAt w 3 * 256 + byteAt w 4 =
          p.length ∧
        w.drop 5 = p) ∧
    (∀ (gunzip : List Nat → Option (List Nat)) (p : List Nat),
      p.length < 4294967296 →
      ∀ w, wrap_connect_envelope p false = some w →
        decode_connect_envelope gunzip w = [p]) ∧
    (∀ (gunzip : List Nat → Option (List Nat)) (u c : List Nat),
      gunzip c = some u → c.length < 4294967296 →
      ∀ w, wrap_connect_envelope c true = some w →
        decode_connect_envelope gunzip w = [u]) ∧
    (∀ (gunzip : List Nat → Option (List Nat)) (p1 p2 : List Nat),
      p1.length < 4294967296 → p2.length < 4294967296 →
      ∀ w1 w2, wrap_connect_envelope p1 false = some w1 →
        wrap_connect_envelope p2 false = some w2 →
        decode_connect_envelope gunzip (w1 ++ w2) = [p1, p2]) := by
  refine ⟨?_, ?_, ?_, ?_⟩
  · intro p c h
    refine ⟨(if c then [1] else [0]) ++ be32 p.length ++ p, ?_, ?_, ?_, ?_, ?_⟩
    · rw [wrap_connect_envelope, if_pos h]
    · cases c <;> simp [be32_length, List.length_append] <;> omega
    · cases c <;> rfl
    · cases c
      · exact be32_digits 0 p.length p h
      · exact be32_digits 1 p.length p h
    · cases c <;> rfl
  · intro gz p h w hw
    rw [wrap_connect_envelope, if_pos h] at hw
    simp only [Option.some.injEq] at hw
    have hw2 : w = 0 :: (be32 p.length ++ p) := by
      rw [← hw]
      simp
    rw [decode_connect_envelope, hw2]
    have hs := envStepPlain gz [] p [] [] h
    simp only [List.length_nil, List.nil_append, List.append_nil] at hs
    rw [hs, decodeEnvGo_end gz (0 :: (be32 p.length ++ p)) (0 + 5 + p.length) [p]
      (by simp only [List.length_cons, List.length_append, be32_length]; omega)]
  · intro gz u c hgz h w hw
    rw [wrap_connect_envelope, if_pos h] at hw
    simp only [Option.some.injEq] at hw
    have hw2 : w = 1 :: (be32 c.length ++ c) := by
      rw [← hw]
      simp
    rw [decode_connect_envelope, hw2]
    have hs := envGo_step gz [] 1 c [] [] h
    rw [if_neg (by decide), if_pos (by decide), hgz] at hs
    dsimp only at hs
    simp only [List.length_nil, List.nil_append, List.append_nil] at hs
    rw [hs, decodeEnvGo_end gz (1 :: (be32 c.length ++ c)) (0 + 5 + c.length) [u]
      (by simp only [List.length_cons, List.length_append, be32_length]; omega)]
  · intro gz p1 p2 h1 h2 w1 w2 hw1 hw2
    rw [wrap_connect_envelope, if_pos h1] at hw1
    rw [wrap_connect_envelope, if_pos h2] at hw2
    simp only [Option.some.injEq] at hw1 hw2
    have e1 : w1 = 0 :: (be32 p1.length ++ p1) := by
      rw [← hw1]
      simp
    have e2 : w2 = 0 :: (be32 p2.length ++ p2) := by
      rw [← hw2]
      simp
    rw [decode_connect_envelope, e1, e2]
    have hform : (0 :: (be32 p1.length ++ p1)) ++ (0 :: (be32 p2.length ++ p2)) =
        0 :: (be32 p1.length ++ (p1 ++ 0 :: (be32 p2.length ++ (p2 ++ [])))) := by
      simp [List.append_assoc]
    rw [hform]
    have hs1 := envStepPlain gz [] p1 (0 :: (be32 p2.length ++ (p2 ++ []))) [] h1
    simp only [List.length_nil, List.nil_append] at hs1
    rw [hs1]
    have hs2 := envStepPlain gz (0 :: (be32 p1.length ++ p1)) p2 [] [p1] h2
    simp only [List.cons_append, List.append_assoc, List.length_cons, List.length_append,
      be32_length] at hs2
    have hpos : 0 + 5 + p1.length = 4 + p1.length + 1 := by omega
    rw [hpos, hs2, decodeEnvGo_end gz
      (0 :: (be32 p1.length ++ (p1 ++ 0 :: (be32 p2.length ++ (p2 ++ [])))))
      (4 + p1.length + 1 + 5 + p2.length) (p1 :: ([] ++ [p2]))
      (by simp only [List.length_cons, List.length_append, be32_length, List.length_nil]; omega)]
    simp

/-- Witness for the C4 envelope theorem at concrete payloads. -/
theorem C4_envelope_wrap_decode_roundtrip_witness :
    (([7] : List Nat).length < 4294967296 ∧
      (∃ w, wrap_connect_envelope [7] false = some w ∧
        w.length = 5 + ([7] : List Nat).length ∧
        byteAt w 0 = (if false then 1 else 0) ∧
        byteAt w 1 * 16777216 + byteAt w 2 * 65536 + byteAt w 3 * 256 + byteAt w 4 =
          ([7] : List Nat).length ∧
        w.drop 5 = [7])) ∧
    decode_connect_envelope (fun _ => none) [0, 0, 0, 0, 1, 7] = [[7]] ∧
    decode_connect_envelope (fun _ => some [9, 9]) [1, 0, 0, 0, 1, 8] = [[9, 9]] ∧
    decode_connect_envelope (fun _ => none)
      ([0, 0, 0, 0, 1, 7] ++ [0, 0, 0, 0, 1, 5]) = [[7], [5]] :=
  ⟨⟨by decide, C4_envelope_wrap_decode_roundtrip.1 [7] false (by decide)⟩,
   C4_envelope_wrap_decode_roundtrip.2.1 (fun _ => none) [7] (by decide)
     [0, 0, 0, 0, 1, 7] rfl,
   C4_envelope_wrap_decode_roundtrip.2.2.1 (fun _ => some [9, 9]) [9, 9] [8] rfl
     (by decide) [1, 0, 0, 0, 1, 8] rfl,
   C4_envelope_wrap_decode_roundtrip.2.2.2 (fun _ => none) [7] [5] (by decide) (by decide)
     [0, 0, 0, 0, 1, 7] [0, 0, 0, 0, 1, 5] rfl rfl⟩

/-- C8: every scalar field encoder emits the empty byte string at the default
value (empty string, zero int, false bool, empty submessage, absent double);
consequently a repository-info message whose every field is default/empty/false
encodes to a zero-length buffer, and in the search request every scalar field
at its default vanishes, leaving only the (non-default) repository-info
submessage field. -/
theorem C8_zero_default_fields_emit_nothing :
    (∀ f : Nat, encode_string f [] = []) ∧
    (∀ f : Nat, encode_int32 f 0 = []) ∧
    (∀ f : Nat, encode_bool f false = []) ∧
    (∀ f : Nat, encode_message f [] = []) ∧
    (∀ f : Nat, encode_double f none = []) ∧
    encode_repository_info [] [] [] none false false none none none none none = [] ∧
    encode_search_repository_request [] [] [] 0 false none none false false
        none none none none none =
      encode_message 2 (encode_repository_info [] [] [46] none false false
        none none none none none) := by
  refine ⟨?_, ?_, ?_, ?_, ?_, ?_, ?_⟩
  · intro f
    rw [encode_string, if_pos rfl]
  · intro f
    rw [encode_int32, if_pos rfl]
  · intro f
    rw [encode_bool, if_pos rfl]
  · intro f
    rw [encode_message, if_pos rfl]
  · intro f
    rfl
  · rfl
  · rw [encode_search_repository_request]
    rw [encode_string, if_pos rfl, encode_int32, if_pos rfl, encode_bool, if_pos rfl]
    simp

/-- Recursive byte structure of `encode_varint`: the low 7 bits go in the first
byte; if more bits remain the continuation bit 0x80 is set and the rest of the
value follows. -/
theorem encode_varint_unfold (n : Nat) :
    encode_varint n = if n < 128 then [n] else (n % 128 + 128) :: encode_varint (n / 128) := by
  by_cases h : n < 128
  · rw [if_pos h, encode_varint_small h]
  · rw [if_neg h, encode_varint, encodeVarintGo,
      if_neg (show ¬ n >>> 7 = 0 by rw [shiftRight7_eq_div]; omega), ← encode_varint]
    congr 1
    · rw [and127_eq_mod, lor128_eq_add (by omega)]
      omega
    · rw [shiftRight7_eq_div]

/-- Each byte of `encode_varint n` carries the matching 7-bit group of `n` in
its low bits, and has the 0x80 continuation bit exactly when it is not the
last byte. -/
theorem encode_varint_byte (n : Nat) : ∀ i b, (encode_varint n).get? i = some b →
    b % 128 = n / 128 ^ i % 128 ∧ (128 ≤ b ↔ i + 1 < (encode_varint n).length) := by
  induction n using Nat.strong_induction_on with
  | _ n ih =>
    intro i b hb
    rw [encode_varint_unfold] at hb
    rw [encode_varint_unfold n]
    by_cases h : n < 128
    · rw [if_pos h] at hb ⊢
      match i with
      | 0 =>
        simp only [List.get?_cons_zero, Option.some.injEq] at hb
        subst hb
        constructor
        · simp only [pow_zero, Nat.div_one]
        · simp only [List.length_singleton]
          omega
      | i + 1 =>
        simp only [List.get?_cons_succ, List.get?_nil] at hb
        exact Option.noConfusion hb
    · rw [if_neg h] at hb ⊢
      match i with
      | 0 =>
        simp only [List.get?_cons_zero, Option.some.injEq] at hb
        subst hb
        constructor
        · simp only [pow_zero, Nat.div_one]
          omega
        · simp only [List.length_cons]
          have := encode_varint_length_pos (n / 128)
          constructor
          · intro _
            omega
          · intro _
            omega
      | i + 1 =>
        simp only [List.get?_cons_succ] at hb
        have hrec := ih (n / 128) (by omega) i b hb
        constructor
        · rw [hrec.1, Nat.div_div_eq_div_mul, ← pow_succ']
        · rw [hrec.2]
          simp only [List.length_cons]
          omega

/-- C6: varint round-trip for every n with the returned end offset equal to the
encoding length; the recursive and per-byte 7-bit/continuation-bit structure of
the encoder; and the six boundary values from the spec with their exact
encodings. -/
theorem C6_varint_roundtrip_and_structure :
    (∀ n : Nat, decode_varint (encode_varint n) 0 = some (n, (encode_varint n).length)) ∧
    (∀ n : Nat, encode_varint n =
      if n < 128 then [n] else (n % 128 + 128) :: encode_varint (n / 128)) ∧
    (∀ (n i b : Nat), (encode_varint n).get? i = some b →
      b % 128 = n / 128 ^ i % 128 ∧ (128 ≤ b ↔ i + 1 < (encode_varint n).length)) ∧
    (encode_varint 0 = [0] ∧ encode_varint 127 = [127] ∧ encode_varint 128 = [128, 1] ∧
     encode_varint 16383 = [255, 127] ∧ encode_varint 16384 = [128, 128, 1] ∧
     encode_varint 4294967295 = [255, 255, 255, 255, 15]) := by
  refine ⟨?_, encode_varint_unfold, encode_varint_byte, ?_, ?_, ?_, ?_, ?_, ?_⟩
  · intro n
    have h := decode_varint_encode n []
    rw [List.append_nil] at h
    exact h
  · simp [encode_varint_unfold]
  · simp [encode_varint_unfold]
  · simp [encode_varint_unfold]
  · simp [encode_varint_unfold]
  · simp [encode_varint_unfold]
  · simp [encode_varint_unfold]

/-- Witness for C6 at the concrete byte `encode_varint 128`. -/
theorem C6_varint_roundtrip_and_structure_witness :
    (encode_varint 128).get? 0 = some 128 ∧
    (128 % 128 = 128 / 128 ^ 0 % 128 ∧
      (128 ≤ 128 ↔ 0 + 1 < (encode_varint 128).length)) := by
  have hb : (encode_varint 128).get? 0 = some 128 := by
    simp [encode_varint_unfold]
  exact ⟨hb, C6_varint_roundtrip_and_structure.2.2.1 128 0 128 hb⟩

/-- Fuel-counted copy of the `decode_varint` loop; the outer `none` means the
iteration budget ran out before the loop finished. -/
def decodeVarintFuel (fuel : Nat) (data : List Nat) (pos shift acc : Nat) :
    Option (Option (Nat × Nat)) :=
  match fuel with
  | 0 => none
  | fuel + 1 =>
    match data.get? pos with
    | none => some none
    | some b =>
      if b &&& 0x80 = 0 then some (some (acc ||| ((b &&& 0x7F) <<< shift), pos + 1))
      else decodeVarintFuel fuel data (pos + 1) (shift + 7) (acc ||| ((b &&& 0x7F) <<< shift))

theorem decodeVarintFuel_agree (data : List Nat) :
    ∀ fuel pos shift acc, data.length - pos < fuel →
      decodeVarintFuel fuel data pos shift acc = some (decodeVarintGo data pos shift acc) := by
  intro fuel
  induction fuel with
  | zero =>
    intro pos shift acc h
    omega
  | succ fuel ih =>
    intro pos shift acc h
    rw [decodeVarintFuel, decodeVarintGo]
    cases hg : data.get? pos with
    | none => rfl
    | some b =>
      dsimp only
      by_cases hc : b &&& 128 = 0
      · rw [if_pos hc, if_pos hc]
      · rw [if_neg hc, if_neg hc]
        have hpos : pos < data.length := by
          by_contra hnp
          rw [List.get?_eq_none.mpr (by omega)] at hg
          exact Option.noConfusion hg
        exact ih (pos + 1) (shift + 7) _ (by omega)

/-- If every byte from `pos` on has the continuation bit set, the varint is
truncated and the loop fails with `none` (Python: `IndexError` from
`data[pos]`). -/
theorem decodeVarintGo_truncated (data : List Nat) :
    ∀ pos shift acc, (∀ i b, pos ≤ i → data.get? i = some b → b &&& 128 ≠ 0) →
      decodeVarintGo data pos shift acc = none := by
  intro pos shift acc
  induction pos, shift, acc using decodeVarintGo.induct data with
  | case1 pos shift acc hnone =>
    intro hall
    rw [decodeVarintGo, hnone]
  | case2 pos shift acc b hsome hstop =>
    intro hall
    exact absurd hstop (hall pos b (le_refl pos) hsome)
  | case3 pos shift acc b hsome acc' hcont ih =>
    intro hall
    rw [decodeVarintGo, hsome]
    dsimp only
    rw [if_neg hcont]
    exact ih (fun i b hi hb => hall i b (by omega) hb)

/-- C7: the `decode_varint` loop halts within `|data| - pos + 1` iterations on
every input (fuelled agreement); a start at or past the end fails; a buffer
whose bytes from `pos` on all carry the continuation bit fails with `none`
instead of looping; and on success the returned offset never passes the end of
the buffer. -/
theorem C7_decode_varint_terminates_or_fails :
    (∀ (data : List Nat) (pos shift acc fuel : Nat), data.length - pos < fuel →
      decodeVarintFuel fuel data pos shift acc = some (decodeVarintGo data pos shift acc)) ∧
    (∀ (data : List Nat) (pos : Nat), data.length ≤ pos → decode_varint data pos = none) ∧
    (∀ (data : List Nat) (pos : Nat),
      (∀ i b, pos ≤ i → data.get? i = some b → b &&& 128 ≠ 0) →
      decode_varint data pos = none) ∧
    (∀ (data : List Nat) (pos v p : Nat), decode_varint data pos = some (v, p) →
      pos < p ∧ p ≤ data.length) := by
  refine ⟨?_, ?_, ?_, ?_⟩
  · intro data pos shift acc fuel h
    exact decodeVarintFuel_agree data fuel pos shift acc h
  · intro data pos h
    rw [decode_varint, decodeVarintGo, List.get?_eq_none.mpr (by omega)]
  · intro data pos h
    exact decodeVarintGo_truncated data pos 0 0 h
  · intro data pos v p h
    exact decode_varint_bounds h

/-- Witness for C7 on the truncated buffer `[0x80, 0x80]` at position 0. -/
theorem C7_decode_varint_terminates_or_fails_witness :
    (([128, 128] : List Nat).length - 0 < 3 ∧
      decodeVarintFuel 3 [128, 128] 0 0 0 = some (decodeVarintGo [128, 128] 0 0 0)) ∧
    (∀ i b, 0 ≤ i → ([128, 128] : List Nat).get? i = some b → b &&& 128 ≠ 0) ∧
    decode_varint [128, 128] 0 = none := by
  have hall : ∀ i b, 0 ≤ i → ([128, 128] : List Nat).get? i = some b → b &&& 128 ≠ 0 := by
    intro i b _ hb
    match i with
    | 0 =>
      simp only [List.get?_cons_zero, Option.some.injEq] at hb
      subst hb
      decide
    | 1 =>
      simp only [List.get?_cons_succ, List.get?_cons_zero, Option.some.injEq] at hb
      subst hb
      decide
    | n + 2 =>
      simp only [List.get?_cons_succ, List.get?_nil] at hb
      exact Option.noConfusion hb
  exact ⟨⟨by decide, C7_decode_varint_terminates_or_fails.1 [128, 128] 0 0 0 3 (by decide)⟩,
    hall, C7_decode_varint_terminates_or_fails.2.2.1 [128, 128] 0 hall⟩

/-! ### Checksum transform (auth.py: _encrypt_bytes, generate_checksum) -/

/-- The rolling-XOR loop of `_encrypt_bytes`: running byte `w`, position `i`. -/
def encryptBytesGo (w i : Nat) : List Nat → List Nat
  | [] => []
  | b :: bs =>
    ((b ^^^ w) + i % 256) % 256 :: encryptBytesGo (((b ^^^ w) + i % 256) % 256) (i + 1) bs

/-- `_encrypt_bytes` (auth.py 53–60), `w` initialised to 165. -/
def _encrypt_bytes (data : List Nat) : List Nat := encryptBytesGo 165 0 data

/-- Proof-side inverse of the rolling cipher, used to establish injectivity. -/
def decryptBytesGo (w i : Nat) : List Nat → List Nat
  | [] => []
  | b :: bs => ((b + 256 - i % 256) % 256 ^^^ w) :: decryptBytesGo b (i + 1) bs

/-- `timestamp.to_bytes(6, byteorder="big")`. -/
def be6 (n : Nat) : List Nat :=
  [n / 1099511627776 % 256, n / 4294967296 % 256, n / 16777216 % 256,
   n / 65536 % 256, n / 256 % 256, n % 256]

/-- The standard base64 alphabet (`base64.b64encode`). -/
def stdB64Char (v : Nat) : Nat :=
  if v < 26 then 65 + v
  else if v < 52 then 97 + (v - 26)
  else if v < 62 then 48 + (v - 52)
  else if v = 62 then 43
  else 47

/-- Proof-side inverse of the base64 alphabet. -/
def stdB64CharInv (c : Nat) : Nat :=
  if 65 ≤ c ∧ c ≤ 90 then c - 65
  else if 97 ≤ c ∧ c ≤ 122 then c - 97 + 26
  else if 48 ≤ c ∧ c ≤ 57 then c - 48 + 52
  else if c = 43 then 62
  else 63

def b64group (a b c : Nat) : List Nat :=
  [stdB64Char (a / 4), stdB64Char (a % 4 * 16 + b / 16),
   stdB64Char (b % 16 * 4 + c / 64), stdB64Char (c % 64)]

/-- `base64.b64encode` over bytes (61 is the pad character `=`). -/
def stdB64 : List Nat → List Nat
  | [] => []
  | [a] => [stdB64Char (a / 4), stdB64Char (a % 4 * 16), 61, 61]
  | [a, b] => [stdB64Char (a / 4), stdB64Char (a % 4 * 16 + b / 16), stdB64Char (b % 16 * 4), 61]
  | a :: b :: c :: rest => b64group a b c ++ stdB64 rest

/-- Proof-side base64 decoder for unpadded groups. -/
def stdB64Dec : List Nat → List Nat
  | e1 :: e2 :: e3 :: e4 :: rest =>
    (stdB64CharInv e1 * 4 + stdB64CharInv e2 / 16) ::
      (stdB64CharInv e2 % 16 * 16 + stdB64CharInv e3 / 4) ::
      (stdB64CharInv e3 % 4 * 64 + stdB64CharInv e4) :: stdB64Dec rest
  | _ => []

/-- `generate_checksum` (auth.py 63–75) with the timestamp and machine id as
explicit inputs; `to_bytes(6, "big")` raises for values not fitting 6 bytes. -/
def generate_checksum (timestamp : Nat) (machine_id : List Nat) : Option (List Nat) :=
  if timestamp < 281474976710656 then
    some (stdB64 (_encrypt_bytes (be6 timestamp)) ++ machine_id)
  else none

theorem encryptBytesGo_length : ∀ (l : List Nat) (w i : Nat),
    (encryptBytesGo w i l).length = l.length := by
  intro l
  induction l with
  | nil => intro w i; rfl
  | cons b bs ih =>
    intro w i
    simp only [encryptBytesGo, List.length_cons, ih]

theorem encryptBytesGo_lt256 : ∀ (l : List Nat) (w i b : Nat),
    b ∈ encryptBytesGo w i l → b < 256 := by
  intro l
  induction l with
  | nil => intro w i b hb; simp [encryptBytesGo] at hb
  | cons x xs ih =>
    intro w i b hb
    simp only [encryptBytesGo, List.mem_cons] at hb
    cases hb with
    | inl h => omega
    | inr h => exact ih _ _ b h

theorem encryptBytesGo_getD : ∀ (l : List Nat) (w i0 j : Nat), j < l.length →
    (encryptBytesGo w i0 l).getD j 0 =
      ((l.getD j 0 ^^^ (if j = 0 then w else (encryptBytesGo w i0 l).getD (j - 1) 0)) +
        (i0 + j) % 256) % 256 := by
  intro l
  induction l with
  | nil => intro w i0 j h; simp at h
  | cons b bs ih =>
    intro w i0 j h
    match j with
    | 0 =>
      simp [encryptBytesGo]
    | k + 1 =>
      have hk : k < bs.length := by
        simp only [List.length_cons] at h
        omega
      have hrec := ih (((b ^^^ w) + i0 % 256) % 256) (i0 + 1) k hk
      simp only [encryptBytesGo, List.getD_cons_succ]
      rw [hrec]
      have harith : (i0 + 1 + k) % 256 = (i0 + (k + 1)) % 256 := by omega
      rw [harith]
      match k with
      | 0 => simp [encryptBytesGo]
      | m + 1 => simp [encryptBytesGo]

theorem decryptBytesGo_encryptBytesGo : ∀ (l : List Nat) (w i : Nat), w < 256 →
    (∀ b ∈ l, b < 256) → decryptBytesGo w i (encryptBytesGo w i l) = l := by
  intro l
  induction l with
  | nil => intro w i hw hb; rfl
  | cons b bs ih =>
    intro w i hw hb
    have hblt : b < 256 := hb b (List.mem_cons_self b bs)
    have hx : b ^^^ w < 256 := by
      have h8 : b < 2 ^ 8 := by omega
      have w8 : w < 2 ^ 8 := by omega
      have := Nat.xor_lt_two_pow h8 w8
      omega
    simp only [encryptBytesGo, decryptBytesGo]
    have harith : ((((b ^^^ w) + i % 256) % 256) + 256 - i % 256) % 256 = b ^^^ w := by
      omega
    rw [harith, Nat.xor_cancel_right]
    congr 1
    exact ih _ _ (by omega) (fun x hx2 => hb x (List.mem_cons_of_mem b hx2))

theorem stdB64CharInv_char {v : Nat} (h : v < 64) : stdB64CharInv (stdB64Char v) = v := by
  rw [stdB64Char, stdB64CharInv]
  split_ifs <;> omega

theorem stdB64_mod3_length : ∀ l : List Nat, l.length % 3 = 0 →
    (stdB64 l).length = l.length / 3 * 4 := by
  intro l
  induction l using stdB64.induct with
  | case1 => intro h; rfl
  | case2 a => intro h; simp at h
  | case3 a b => intro h; simp at h
  | case4 a b c rest ih =>
    intro h
    simp only [List.length_cons] at h
    have h3 : rest.length % 3 = 0 := by omega
    rw [stdB64]
    simp only [List.length_append, List.length_cons, b64group, ih h3]
    have : (rest.length + 1 + 1 + 1) / 3 = rest.length / 3 + 1 := by omega
    rw [this]
    simp only [List.length_cons, List.length_nil]
    omega

theorem stdB64Dec_stdB64 : ∀ l : List Nat, (∀ b ∈ l, b < 256) → l.length % 3 = 0 →
    stdB64Dec (stdB64 l) = l := by
  intro l
  induction l using stdB64.induct with
  | case1 => intro hb h; rfl
  | case2 a => intro hb h; simp at h
  | case3 a b => intro hb h; simp at h
  | case4 a b c rest ih =>
    intro hb h
    have ha : a < 256 := hb a (by simp)
    have hbb : b < 256 := hb b (by simp)
    have hc : c < 256 := hb c (by simp)
    simp only [List.length_cons] at h
    have h3 : rest.length % 3 = 0 := by omega
    rw [stdB64]
    simp only [b64group, List.cons_append, List.nil_append]
    rw [stdB64Dec]
    rw [stdB64CharInv_char (by omega), stdB64CharInv_char (by omega),
      stdB64CharInv_char (by omega), stdB64CharInv_char (by omega)]
    rw [ih (fun x hx => hb x (by simp [hx])) h3]
    congr 1
    · omega
    congr 1
    · omega
    congr 1
    · omega

theorem be6_lt256 (t : Nat) : ∀ b ∈ be6 t, b < 256 := by
  intro b hb
  simp only [be6, List.mem_cons, List.not_mem_nil, or_false] at hb
  rcases hb with h | h | h | h | h | h <;> subst h <;> omega

/-- C9: the checksum byte transform satisfies the feedback recurrence
(w starts at 165; output byte i is ((input XOR w) + i mod 256) mod 256 and
becomes the new w), and generate_checksum — base64 of the transformed 6-byte
big-endian timestamp concatenated with the machine id — is injective in the
timestamp and the machine id. -/
theorem C9_checksum_recurrence_and_injectivity :
    (∀ data : List Nat, (_encrypt_bytes data).length = data.length) ∧
    (∀ (data : List Nat) (i : Nat), i < data.length →
      (_encrypt_bytes data).getD i 0 =
        ((data.getD i 0 ^^^ (if i = 0 then 165 else (_encrypt_bytes data).getD (i - 1) 0)) +
          i % 256) % 256) ∧
    (∀ (t1 t2 : Nat) (m1 m2 : List Nat),
      t1 < 281474976710656 → t2 < 281474976710656 →
      generate_checksum t1 m1 = generate_checksum t2 m2 → t1 = t2 ∧ m1 = m2) := by
  refine ⟨?_, ?_, ?_⟩
  · intro data
    exact encryptBytesGo_length data 165 0
  · intro data i h
    have hrec := encryptBytesGo_getD data 165 0 i h
    rw [_encrypt_bytes]
    rw [hrec, Nat.zero_add]
  · intro t1 t2 m1 m2 h1 h2 heq
    simp only [generate_checksum, if_pos h1, if_pos h2, Option.some.injEq] at heq
    have hX1len : (_encrypt_bytes (be6 t1)).length = 6 := encryptBytesGo_length (be6 t1) 165 0
    have hX2len : (_encrypt_bytes (be6 t2)).length = 6 := encryptBytesGo_length (be6 t2) 165 0
    have hL1 : (stdB64 (_encrypt_bytes (be6 t1))).length = 8 := by
      rw [stdB64_mod3_length _ (by rw [hX1len]), hX1len]
    have hL2 : (stdB64 (_encrypt_bytes (be6 t2))).length = 8 := by
      rw [stdB64_mod3_length _ (by rw [hX2len]), hX2len]
    have hsplit := List.append_inj heq (by rw [hL1, hL2])
    obtain ⟨hb64, hm⟩ := hsplit
    have hXeq : _encrypt_bytes (be6 t1) = _encrypt_bytes (be6 t2) := by
      have d1 := stdB64Dec_stdB64 (_encrypt_bytes (be6 t1))
        (fun b hb => encryptBytesGo_lt256 (be6 t1) 165 0 b hb) (by rw [hX1len])
      have d2 := stdB64Dec_stdB64 (_encrypt_bytes (be6 t2))
        (fun b hb => encryptBytesGo_lt256 (be6 t2) 165 0 b hb) (by rw [hX2len])
      rw [← d1, ← d2, hb64]
    have hbe : be6 t1 = be6 t2 := by
      have r1 := decryptBytesGo_encryptBytesGo (be6 t1) 165 0 (by omega) (be6_lt256 t1)
      have r2 := decryptBytesGo_encryptBytesGo (be6 t2) 165 0 (by omega) (be6_lt256 t2)
      rw [_encrypt_bytes, _encrypt_bytes] at hXeq
      rw [← r1, ← r2, hXeq]
    refine ⟨?_, hm⟩
    simp only [be6, List.cons.injEq, and_true] at hbe
    omega

/-- Witness for C9 at a concrete buffer and a pair of equal checksums. -/
theorem C9_checksum_recurrence_and_injectivity_witness :
    (1 < ([1, 2] : List Nat).length ∧
      (_encrypt_bytes [1, 2]).getD 1 0 =
        ((([1, 2] : List Nat).getD 1 0 ^^^
          (if 1 = 0 then 165 else (_encrypt_bytes [1, 2]).getD (1 - 1) 0)) + 1 % 256) % 256) ∧
    ((0 : Nat) < 281474976710656 ∧ generate_checksum 0 [] = generate_checksum 0 [] ∧
      ((0 : Nat) = 0 ∧ ([] : List Nat) = [])) :=
  ⟨⟨by decide, C9_checksum_recurrence_and_injectivity.2.1 [1, 2] 1 (by decide)⟩,
   ⟨by decide, rfl,
    C9_checksum_recurrence_and_injectivity.2.2 0 0 [] [] (by decide) (by decide) rfl⟩⟩

/-! ### Fuel-counted copies of the parsing loops (termination analysis) -/

/-- Computable wrapper for `decode_varint`, evaluating the loop with enough
fuel. -/
def decode_varintC (data : List Nat) (pos : Nat) : Option (Nat × Nat) :=
  (decodeVarintFuel (data.length - pos + 1) data pos 0 0).getD none

theorem decode_varintC_eq (data : List Nat) (pos : Nat) :
    decode_varintC data pos = decode_varint data pos := by
  rw [decode_varintC, decodeVarintFuel_agree data _ pos 0 0 (by omega)]
  rfl

/-- Fuel-counted copy of the `parse_position` loop; the outer `none` means the
iteration budget ran out. -/
def parsePositionFuel (fuel : Nat) (data : List Nat) (en pos : Nat) (acc : PPosition) :
    Option (Option PPosition) :=
  match fuel with
  | 0 => none
  | fuel + 1 =>
    if pos < en then
      match decode_varintC data pos with
      | none => some none
      | some (tag, pos1) =>
        if tag >>> 3 = 1 ∧ tag &&& 7 = 0 then
          match decode_varintC data pos1 with
          | none => some none
          | some (v, pos2) => parsePositionFuel fuel data en pos2 { acc with line := v }
        else if tag >>> 3 = 2 ∧ tag &&& 7 = 0 then
          match decode_varintC data pos1 with
          | none => some none
          | some (v, pos2) => parsePositionFuel fuel data en pos2 { acc with column := v }
        else
          match skip_field data pos1 (tag &&& 7) with
          | none => some none
          | some p2 => parsePositionFuel fuel data en p2 acc
    else some (some acc)

theorem parsePositionFuel_agree (data : List Nat) (en : Nat) :
    ∀ fuel pos acc, en - pos < fuel →
      parsePositionFuel fuel data en pos acc = some (parsePositionGo data en pos acc) := by
  intro fuel
  induction fuel with
  | zero =>
    intro pos acc h
    omega
  | succ fuel ih =>
    intro pos acc h
    rw [parsePositionFuel, parsePositionGo, decode_varintC_eq]
    by_cases hlt : pos < en
    · rw [if_pos hlt, if_pos hlt]
      cases hdv : decode_varint data pos with
      | none => rfl
      | some tp =>
        obtain ⟨tag, pos1⟩ := tp
        have ha := decode_varint_bounds hdv
        dsimp only
        rw [decode_varintC_eq]
        by_cases hb1 : tag >>> 3 = 1 ∧ tag &&& 7 = 0
        · rw [if_pos hb1, if_pos hb1]
          cases hdv2 : decode_varint data pos1 with
          | none => rfl
          | some vp =>
            obtain ⟨v, pos2⟩ := vp
            have hb := decode_varint_bounds hdv2
            dsimp only
            exact ih pos2 _ (by omega)
        · rw [if_neg hb1, if_neg hb1]
          by_cases hb2 : tag >>> 3 = 2 ∧ tag &&& 7 = 0
          · rw [if_pos hb2, if_pos hb2]
            cases hdv2 : decode_varint data pos1 with
            | none => rfl
            | some vp =>
              obtain ⟨v, pos2⟩ := vp
              have hb := decode_varint_bounds hdv2
              dsimp only
              exact ih pos2 _ (by omega)
          · rw [if_neg hb2, if_neg hb2]
            cases hsk : skip_field data pos1 (tag &&& 7) with
            | none => rfl
            | some p2 =>
              have hb := skip_field_ge hsk
              dsimp only
              exact ih p2 _ (by omega)
    · rw [if_neg hlt, if_neg hlt]

/-- Fuel-counted copy of the `parse_range` loop. -/
def parseRangeFuel (fuel : Nat) (data : List Nat) (en pos : Nat) (acc : PRange) :
    Option (Option PRange) :=
  match fuel with
  | 0 => none
  | fuel + 1 =>
    if pos < en then
      match decode_varintC data pos with
      | none => some none
      | some (tag, pos1) =>
        if tag >>> 3 = 1 ∧ tag &&& 7 = 2 then
          match decode_varintC data pos1 with
          | none => some none
          | some (length, pos2) =>
            match parse_position data pos2 (pos2 + length) with
            | none => some none
            | some p =>
              parseRangeFuel fuel data en (pos2 + length) { acc with startPosition := some p }
        else if tag >>> 3 = 2 ∧ tag &&& 7 = 2 then
          match decode_varintC data pos1 with
          | none => some none
          | some (length, pos2) =>
            match parse_position data pos2 (pos2 + length) with
            | none => some none
            | some p =>
              parseRangeFuel fuel data en (pos2 + length) { acc with endPosition := some p }
        else
          match skip_field data pos1 (tag &&& 7) with
          | none => some none
          | some p2 => parseRangeFuel fuel data en p2 acc
    else some (some acc)

theorem parseRangeFuel_agree (data : List Nat) (en : Nat) :
    ∀ fuel pos acc, en - pos < fuel →
      parseRangeFuel fuel data en pos acc = some (parseRangeGo data en pos acc) := by
  intro fuel
  induction fuel with
  | zero =>
    intro pos acc h
    omega
  | succ fuel ih =>
    intro pos acc h
    rw [parseRangeFuel, parseRangeGo, decode_varintC_eq]
    by_cases hlt : pos < en
    · rw [if_pos hlt, if_pos hlt]
      cases hdv : decode_varint data pos with
      | none => rfl
      | some tp =>
        obtain ⟨tag, pos1⟩ := tp
        have ha := decode_varint_bounds hdv
        dsimp only
        rw [decode_varintC_eq]
        by_cases hb1 : tag >>> 3 = 1 ∧ tag &&& 7 = 2
        · rw [if_pos hb1, if_pos hb1]
          cases hdv2 : decode_varint data pos1 with
          | none => rfl
          | some vp =>
            obtain ⟨length, pos2⟩ := vp
            have hb := decode_varint_bounds hdv2
            dsimp only
            cases hpp : parse_position data pos2 (pos2 + length) with
            | none => rfl
            | some p =>
              dsimp only
              exact ih (pos2 + length) _ (by omega)
        · rw [if_neg hb1, if_neg hb1]
          by_cases hb2 : tag >>> 3 = 2 ∧ tag &&& 7 = 2
          · rw [if_pos hb2, if_pos hb2]
            cases hdv2 : decode_varint data pos1 with
            | none => rfl
            | some vp =>
              obtain ⟨length, pos2⟩ := vp
              have hb := decode_varint_bounds hdv2
              dsimp only
              cases hpp : parse_position data pos2 (pos2 + length) with
              | none => rfl
              | some p =>
                dsimp only
                exact ih (pos2 + length) _ (by omega)
          · rw [if_neg hb2, if_neg hb2]
            cases hsk : skip_field data pos1 (tag &&& 7) with
            | none => rfl
            | some p2 =>
              have hb := skip_field_ge hsk
              dsimp only
              exact ih p2 _ (by omega)
    · rw [if_neg hlt, if_neg hlt]

/-- Fuel-counted copy of the `parse_code_block` loop. -/
def parseCodeBlockFuel (fuel : Nat) (data : List Nat) (en pos : Nat) (acc : PCodeBlock) :
    Option (Option PCodeBlock) :=
  match fuel with
  | 0 => none
  | fuel + 1 =>
    if pos < en then
      match decode_varintC data pos with
      | none => some none
      | some (tag, pos1) =>
        if tag >>> 3 = 1 ∧ tag &&& 7 = 2 then
          match decode_string data pos1 with
          | none => some none
          | some (s, pos2) =>
            parseCodeBlockFuel fuel data en pos2 { acc with relativeWorkspacePath := s }
        else if tag >>> 3 = 2 ∧ tag &&& 7 = 2 then
          match decode_string data pos1 with
          | none => some none
          | some (s, pos2) => parseCodeBlockFuel fuel data en pos2 { acc with fileContents := s }
        else if tag >>> 3 = 3 ∧ tag &&& 7 = 2 then
          match decode_varintC data pos1 with
          | none => some none
          | some (length, pos2) =>
            match parse_range data pos2 (pos2 + length) with
            | none => some none
            | some r => parseCodeBlockFuel fuel data en (pos2 + length) { acc with range := r }
        else if tag >>> 3 = 4 ∧ tag &&& 7 = 2 then
          match decode_string data pos1 with
          | none => some none
          | some (s, pos2) => parseCodeBlockFuel fuel data en pos2 { acc with contents := s }
        else if tag >>> 3 = 6 ∧ tag &&& 7 = 2 then
          match decode_string data pos1 with
          | none => some none
          | some (s, pos2) =>
            parseCodeBlockFuel fuel data en pos2 { acc with overrideContents := s }
        else if tag >>> 3 = 7 ∧ tag &&& 7 = 2 then
          match decode_string data pos1 with
          | none => some none
          | some (s, pos2) =>
            parseCodeBlockFuel fuel data en pos2 { acc with originalContents := s }
        else
          match skip_field data pos1 (tag &&& 7) with
          | none => some none
          | some p2 => parseCodeBlockFuel fuel data en p2 acc
    else some (some acc)

theorem parseCodeBlockFuel_agree (data : List Nat) (en : Nat) :
    ∀ fuel pos acc, en - pos < fuel →
      parseCodeBlockFuel fuel data en pos acc = some (parseCodeBlockGo data en pos acc) := by
  intro fuel
  induction fuel with
  | zero =>
    intro pos acc h
    omega
  | succ fuel ih =>
    intro pos acc h
    rw [parseCodeBlockFuel, parseCodeBlockGo, decode_varintC_eq]
    by_cases hlt : pos < en
    · rw [if_pos hlt, if_pos hlt]
      cases hdv : decode_varint data pos with
      | none => rfl
      | some tp =>
        obtain ⟨tag, pos1⟩ := tp
        have ha := decode_varint_bounds hdv
        dsimp only
        rw [decode_varintC_eq]
        by_cases hb1 : tag >>> 3 = 1 ∧ tag &&& 7 = 2
        · rw [if_pos hb1, if_pos hb1]
          cases hds : decode_string data pos1 with
          | none => rfl
          | some sp =>
            obtain ⟨s, pos2⟩ := sp
            have hb := decode_string_lt hds
            dsimp only
            exact ih pos2 _ (by omega)
        · rw [if_neg hb1, if_neg hb1]
          by_cases hb2 : tag >>> 3 = 2 ∧ tag &&& 7 = 2
          · rw [if_pos hb2, if_pos hb2]
            cases hds : decode_string data pos1 with
            | none => rfl
            | some sp =>
              obtain ⟨s, pos2⟩ := sp
              have hb := decode_string_lt hds
              dsimp only
              exact ih pos2 _ (by omega)
          · rw [if_neg hb2, if_neg hb2]
            by_cases hb3 : tag >>> 3 = 3 ∧ tag &&& 7 = 2
            · rw [if_pos hb3, if_pos hb3]
              cases hdv2 : decode_varint data pos1 with
              | none => rfl
              | some vp =>
                obtain ⟨length, pos2⟩ := vp
                have hb := decode_varint_bounds hdv2
                dsimp only
                cases hpr : parse_range data pos2 (pos2 + length) with
                | none => rfl
                | some r =>
                  dsimp only
                  exact ih (pos2 + length) _ (by omega)
            · rw [if_neg hb3, if_neg hb3]
              by_cases hb4 : tag >>> 3 = 4 ∧ tag &&& 7 = 2
              · rw [if_pos hb4, if_pos hb4]
                cases hds : decode_string data pos1 with
                | none => rfl
                | some sp =>
                  obtain ⟨s, pos2⟩ := sp
                  have hb := decode_string_lt hds
                  dsimp only
                  exact ih pos2 _ (by omega)
              · rw [if_neg hb4, if_neg hb4]
                by_cases hb6 : tag >>> 3 = 6 ∧ tag &&& 7 = 2
                · rw [if_pos hb6, if_pos hb6]
                  cases hds : decode_string data pos1 with
                  | none => rfl
                  | some sp =>
                    obtain ⟨s, pos2⟩ := sp
                    have hb := decode_string_lt hds
                    dsimp only
                    exact ih pos2 _ (by omega)
                · rw [if_neg hb6, if_neg hb6]
                  by_cases hb7 : tag >>> 3 = 7 ∧ tag &&& 7 = 2
                  · rw [if_pos hb7, if_pos hb7]
                    cases hds : decode_string data pos1 with
                    | none => rfl
                    | some sp =>
                      obtain ⟨s, pos2⟩ := sp
                      have hb := decode_string_lt hds
                      dsimp only
                      exact ih pos2 _ (by omega)
                  · rw [if_neg hb7, if_neg hb7]
                    cases hsk : skip_field data pos1 (tag &&& 7) with
                    | none => rfl
                    | some p2 =>
                      have hb := skip_field_ge hsk
                      dsimp only
                      exact ih p2 _ (by omega)
    · rw [if_neg hlt, if_neg hlt]

/-- Fuel-counted copy of the `parse_code_result` loop. -/
def parseCodeResultFuel (fuel : Nat) (data : List Nat) (en pos : Nat) (acc : PCodeResult) :
    Option (Option PCodeResult) :=
  match fuel with
  | 0 => none
  | fuel + 1 =>
    if pos < en then
      match decode_varintC data pos with
      | none => some none
      | some (tag, pos1) =>
        if tag >>> 3 = 1 ∧ tag &&& 7 = 2 then
          match decode_varintC data pos1 with
          | none => some none
          | some (length, pos2) =>
            match parse_code_block data pos2 (pos2 + length) with
            | none => some none
            | some cb =>
              parseCodeResultFuel fuel data en (pos2 + length) { acc with codeBlock := some cb }
        else if tag >>> 3 = 2 ∧ tag &&& 7 = 1 then
          match readBytes data pos1 8 with
          | none => some none
          | some bytes =>
            parseCodeResultFuel fuel data en (pos1 + 8) { acc with score := PScore.f64 bytes }
        else if tag >>> 3 = 2 ∧ tag &&& 7 = 5 then
          match readBytes data pos1 4 with
          | none => some none
          | some bytes =>
            parseCodeResultFuel fuel data en (pos1 + 4) { acc with score := PScore.f32 bytes }
        else
          match skip_field data pos1 (tag &&& 7) with
          | none => some none
          | some p2 => parseCodeResultFuel fuel data en p2 acc
    else some (some acc)

theorem parseCodeResultFuel_agree (data : List Nat) (en : Nat) :
    ∀ fuel pos acc, en - pos < fuel →
      parseCodeResultFuel fuel data en pos acc = some (parseCodeResultGo data en pos acc) := by
  intro fuel
  induction fuel with
  | zero =>
    intro pos acc h
    omega
  | succ fuel ih =>
    intro pos acc h
    rw [parseCodeResultFuel, parseCodeResultGo, decode_varintC_eq]
    by_cases hlt : pos < en
    · rw [if_pos hlt, if_pos hlt]
      cases hdv : decode_varint data pos with
      | none => rfl
      | some tp =>
        obtain ⟨tag, pos1⟩ := tp
        have ha := decode_varint_bounds hdv
        dsimp only
        rw [decode_varintC_eq]
        by_cases hb1 : tag >>> 3 = 1 ∧ tag &&& 7 = 2
        · rw [if_pos hb1, if_pos hb1]
          cases hdv2 : decode_varint data pos1 with
          | none => rfl
          | some vp =>
            obtain ⟨length, pos2⟩ := vp
            have hb := decode_varint_bounds hdv2
            dsimp only
            cases hcb : parse_code_block data pos2 (pos2 + length) with
            | none => rfl
            | some cb =>
              dsimp only
              exact ih (pos2 + length) _ (by omega)
        · rw [if_neg hb1, if_neg hb1]
          by_cases hb2 : tag >>> 3 = 2 ∧ tag &&& 7 = 1
          · rw [if_pos hb2, if_pos hb2]
            cases hrb : readBytes data pos1 8 with
            | none => rfl
            | some bytes =>
              dsimp only
              exact ih (pos1 + 8) _ (by omega)
          · rw [if_neg hb2, if_neg hb2]
            by_cases hb3 : tag >>> 3 = 2 ∧ tag &&& 7 = 5
            · rw [if_pos hb3, if_pos hb3]
              cases hrb : readBytes data pos1 4 with
              | none => rfl
              | some bytes =>
                dsimp only
                exact ih (pos1 + 4) _ (by omega)
            · rw [if_neg hb3, if_neg hb3]
              cases hsk : skip_field data pos1 (tag &&& 7) with
              | none => rfl
              | some p2 =>
                have hb := skip_field_ge hsk
                dsimp only
                exact ih p2 _ (by omega)
    · rw [if_neg hlt, if_neg hlt]

/-- Fuel-counted copy of the `parse_code_result_with_classification` loop. -/
def parseCRWCFuel (fuel : Nat) (data : List Nat) (en pos : Nat) :
    Option (Option (Option PCodeResult)) :=
  match fuel with
  | 0 => none
  | fuel + 1 =>
    if pos < en then
      match decode_varintC data pos with
      | none => some none
      | some (tag, pos1) =>
        if tag >>> 3 = 1 ∧ tag &&& 7 = 2 then
          match decode_varintC data pos1 with
          | none => some none
          | some (length, pos2) =>
            match parse_code_result data pos2 (pos2 + length) with
            | none => some none
            | some r => some (some (some r))
        else
          match skip_field data pos1 (tag &&& 7) with
          | none => some none
          | some p2 => parseCRWCFuel fuel data en p2
    else some (some none)

theorem parseCRWCFuel_agree (data : List Nat) (en : Nat) :
    ∀ fuel pos, en - pos < fuel →
      parseCRWCFuel fuel data en pos = some (parseCRWCGo data en pos) := by
  intro fuel
  induction fuel with
  | zero =>
    intro pos h
    omega
  | succ fuel ih =>
    intro pos h
    rw [parseCRWCFuel, parseCRWCGo, decode_varintC_eq]
    by_cases hlt : pos < en
    · rw [if_pos hlt, if_pos hlt]
      cases hdv : decode_varint data pos with
      | none => rfl
      | some tp =>
        obtain ⟨tag, pos1⟩ := tp
        have ha := decode_varint_bounds hdv
        dsimp only
        rw [decode_varintC_eq]
        by_cases hb1 : tag >>> 3 = 1 ∧ tag &&& 7 = 2
        · rw [if_pos hb1, if_pos hb1]
          cases hdv2 : decode_varint data pos1 with
          | none => rfl
          | some vp =>
            obtain ⟨length, pos2⟩ := vp
            dsimp only
            cases hcr : parse_code_result data pos2 (pos2 + length) with
            | none => rfl
            | some r => rfl
        · rw [if_neg hb1, if_neg hb1]
          cases hsk : skip_field data pos1 (tag &&& 7) with
          | none => rfl
          | some p2 =>
            have hb := skip_field_ge hsk
            dsimp only
            exact ih p2 (by omega)
    · rw [if_neg hlt, if_neg hlt]

/-- Fuel-counted copy of the `parse_search_response` top-level loop (nested
payloads are parsed by the recursive functions themselves; the fuel counts
only this loop's iterations). -/
def parseSearchFuel (fuel : Nat) (data : List Nat) (pos : Nat) (acc : List PCodeResult) :
    Option (Option (List PCodeResult)) :=
  match fuel with
  | 0 => none
  | fuel + 1 =>
    if pos < data.length then
      match decode_varintC data pos with
      | none => some none
      | some (tag, pos1) =>
        if tag >>> 3 = 1 ∧ tag &&& 7 = 2 then
          match decode_varintC data pos1 with
          | none => some none
          | some (length, pos2) =>
            match parse_code_result ((data.drop pos2).take length) 0
                ((data.drop pos2).take length).length with
            | some r =>
              if hasNonemptyPath r then
                parseSearchFuel fuel data (pos2 + length) (acc ++ [r])
              else
                match parse_search_response ((data.drop pos2).take length) with
                | none => some none
                | some inner => parseSearchFuel fuel data (pos2 + length) (acc ++ inner)
            | none =>
              match parse_search_response ((data.drop pos2).take length) with
              | none => some none
              | some inner => parseSearchFuel fuel data (pos2 + length) (acc ++ inner)
        else if tag >>> 3 = 3 ∧ tag &&& 7 = 2 then
          match decode_varintC data pos1 with
          | none => some none
          | some (length, pos2) =>
            match parse_code_result_with_classification data pos2 (pos2 + length) with
            | some (some r) =>
              if hasNonemptyPath r then
                parseSearchFuel fuel data (pos2 + length) (acc ++ [r])
              else
                parseSearchFuel fuel data (pos2 + length) acc
            | _ => parseSearchFuel fuel data (pos2 + length) acc
        else
          match skip_field data pos1 (tag &&& 7) with
          | none => some none
          | some p2 => parseSearchFuel fuel data p2 acc
    else some (some acc)

theorem parseSearchFuel_agree (data : List Nat) :
    ∀ fuel pos acc, data.length - pos < fuel →
      parseSearchFuel fuel data pos acc = some (parseSearchGo data pos acc) := by
  intro fuel
  induction fuel with
  | zero =>
    intro pos acc h
    omega
  | succ fuel ih =>
    intro pos acc h
    rw [parseSearchFuel, parseSearchGo, decode_varintC_eq]
    by_cases hlt : pos < data.length
    · rw [if_pos hlt, if_pos hlt]
      cases hdv : decode_varint data pos with
      | none => rfl
      | some tp =>
        obtain ⟨tag, pos1⟩ := tp
        have ha := decode_varint_bounds hdv
        dsimp only
        rw [decode_varintC_eq]
        by_cases hb1 : tag >>> 3 = 1 ∧ tag &&& 7 = 2
        · rw [if_pos hb1, if_pos hb1]
          cases hdv2 : decode_varint data pos1 with
          | none => rfl
          | some vp =>
            obtain ⟨length, pos2⟩ := vp
            have hb := decode_varint_bounds hdv2
            dsimp only
            cases hcr : parse_code_result ((data.drop pos2).take length) 0
                ((data.drop pos2).take length).length with
            | some r =>
              dsimp only
              by_cases hnp : hasNonemptyPath r = true
              · rw [if_pos hnp, if_pos hnp]
                exact ih (pos2 + length) _ (by omega)
              · rw [if_neg hnp, if_neg hnp]
                cases hin : parse_search_response ((data.drop pos2).take length) with
                | none => rfl
                | some inner =>
                  dsimp only
                  exact ih (pos2 + length) _ (by omega)
            | none =>
              dsimp only
              cases hin : parse_search_response ((data.drop pos2).take length) with
              | none => rfl
              | some inner =>
                dsimp only
                exact ih (pos2 + length) _ (by omega)
        · rw [if_neg hb1, if_neg hb1]
          by_cases hb3 : tag >>> 3 = 3 ∧ tag &&& 7 = 2
          · rw [if_pos hb3, if_pos hb3]
            cases hdv2 : decode_varint data pos1 with
            | none => rfl
            | some vp =>
              obtain ⟨length, pos2⟩ := vp
              have hb := decode_varint_bounds hdv2
              dsimp only
              cases hcw : parse_code_result_with_classification data pos2 (pos2 + length) with
              | none =>
                dsimp only
                exact ih (pos2 + length) _ (by omega)
              | some o =>
                cases o with
                | none =>
                  dsimp only
                  exact ih (pos2 + length) _ (by omega)
                | some r =>
                  dsimp only
                  by_cases hnp : hasNonemptyPath r = true
                  · rw [if_pos hnp, if_pos hnp]
                    exact ih (pos2 + length) _ (by omega)
                  · rw [if_neg hnp, if_neg hnp]
                    exact ih (pos2 + length) _ (by omega)
          · rw [if_neg hb3, if_neg hb3]
            cases hsk : skip_field data pos1 (tag &&& 7) with
            | none => rfl
            | some p2 =>
              have hb := skip_field_ge hsk
              dsimp only
              exact ih p2 _ (by omega)
    · rw [if_neg hlt, if_neg hlt]

/-- C10 counterexample to "termination only under the wire-type precondition":
the buffer `[27]` carries a single tag with wire type 3 (not in {0,1,2,5});
`skip_field` indeed leaves the position unchanged, yet `parse_position` and
`parse_search_response` still terminate with a value, because the tag varint
decode had already advanced the position. -/
theorem C10_counterexample_terminates_on_wire_type_3 :
    27 >>> 3 = 3 ∧ 27 &&& 7 = 3 ∧ skip_field [27] 1 3 = some 1 ∧
    parse_position [27] 0 1 = some initPosition ∧
    parse_search_response [27] = some [] := by
  refine ⟨by decide, by decide, by decide, ?_, ?_⟩
  · have h := parsePositionFuel_agree [27] 1 2 0 initPosition (by decide)
    have h2 : parsePositionFuel 2 [27] 1 0 initPosition = some (some initPosition) := by
      decide
    exact Option.some.inj (h.symm.trans h2)
  · have h := parseSearchFuel_agree [27] 2 0 [] (by decide)
    have h2 : parseSearchFuel 2 [27] 0 [] = some (some []) := by decide
    rw [parse_search_response]
    exact Option.some.inj (h.symm.trans h2)

/-- C10 (amended): `skip_field` returns the position unchanged for wire types
other than 0, 1, 2, 5, but every message-parsing loop nevertheless terminates
on every finite input — with no precondition on wire types — within an
iteration budget bounded by the parsed span, because the tag varint decode at
the top of each iteration strictly advances the position (or the iteration
fails). Each fuel-counted loop copy agrees with the parser whenever the fuel
exceeds the remaining span. -/
theorem C10_amended_loops_terminate_unconditionally :
    (∀ (data : List Nat) (pos wt : Nat), wt ≠ 0 → wt ≠ 1 → wt ≠ 2 → wt ≠ 5 →
      skip_field data pos wt = some pos) ∧
    (∀ (data : List Nat) (en fuel pos : Nat) (acc : PPosition), en - pos < fuel →
      parsePositionFuel fuel data en pos acc = some (parsePositionGo data en pos acc)) ∧
    (∀ (data : List Nat) (en fuel pos : Nat) (acc : PRange), en - pos < fuel →
      parseRangeFuel fuel data en pos acc = some (parseRangeGo data en pos acc)) ∧
    (∀ (data : List Nat) (en fuel pos : Nat) (acc : PCodeBlock), en - pos < fuel →
      parseCodeBlockFuel fuel data en pos acc = some (parseCodeBlockGo data en pos acc)) ∧
    (∀ (data : List Nat) (en fuel pos : Nat) (acc : PCodeResult), en - pos < fuel →
      parseCodeResultFuel fuel data en pos acc = some (parseCodeResultGo data en pos acc)) ∧
    (∀ (data : List Nat) (en fuel pos : Nat), en - pos < fuel →
      parseCRWCFuel fuel data en pos = some (parseCRWCGo data en pos)) ∧
    (∀ (data : List Nat) (fuel pos : Nat) (acc : List PCodeResult),
      data.length - pos < fuel →
      parseSearchFuel fuel data pos acc = some (parseSearchGo data pos acc)) := by
  refine ⟨?_, ?_, ?_, ?_, ?_, ?_, ?_⟩
  · intro data pos wt h0 h1 h2 h5
    rw [skip_field, if_neg h0, if_neg h1, if_neg h2, if_neg h5]
  · intro data en fuel pos acc h
    exact parsePositionFuel_agree data en fuel pos acc h
  · intro data en fuel pos acc h
    exact parseRangeFuel_agree data en fuel pos acc h
  · intro data en fuel pos acc h
    exact parseCodeBlockFuel_agree data en fuel pos acc h
  · intro data en fuel pos acc h
    exact parseCodeResultFuel_agree data en fuel pos acc h
  · intro data en fuel pos h
    exact parseCRWCFuel_agree data en fuel pos h
  · intro data fuel pos acc h
    exact parseSearchFuel_agree data fuel pos acc h

/-- Witness for C10 at concrete inputs. -/
theorem C10_amended_loops_terminate_unconditionally_witness :
    ((3 : Nat) ≠ 0 ∧ (3 : Nat) ≠ 1 ∧ (3 : Nat) ≠ 2 ∧ (3 : Nat) ≠ 5 ∧
      skip_field [] 0 3 = some 0) ∧
    ((0 : Nat) - 0 < 1 ∧
      parsePositionFuel 1 [] 0 0 initPosition = some (parsePositionGo [] 0 0 initPosition)) ∧
    parseRangeFuel 1 [] 0 0 initRange = some (parseRangeGo [] 0 0 initRange) ∧
    parseCodeBlockFuel 1 [] 0 0 initCodeBlock = some (parseCodeBlockGo [] 0 0 initCodeBlock) ∧
    parseCodeResultFuel 1 [] 0 0 initCodeResult =
      some (parseCodeResultGo [] 0 0 initCodeResult) ∧
    parseCRWCFuel 1 [] 0 0 = some (parseCRWCGo [] 0 0) ∧
    parseSearchFuel 1 [] 0 [] = some (parseSearchGo [] 0 []) :=
  ⟨⟨by decide, by decide, by decide, by decide,
    C10_amended_loops_terminate_unconditionally.1 [] 0 3 (by decide) (by decide) (by decide)
      (by decide)⟩,
   ⟨by decide,
    C10_amended_loops_terminate_unconditionally.2.1 [] 0 1 0 initPosition (by decide)⟩,
   C10_amended_loops_terminate_unconditionally.2.2.1 [] 0 1 0 initRange (by decide),
   C10_amended_loops_terminate_unconditionally.2.2.2.1 [] 0 1 0 initCodeBlock (by decide),
   C10_amended_loops_terminate_unconditionally.2.2.2.2.1 [] 0 1 0 initCodeResult (by decide),
   C10_amended_loops_terminate_unconditionally.2.2.2.2.2.1 [] 0 1 0 (by decide),
   C10_amended_loops_terminate_unconditionally.2.2.2.2.2.2 [] 1 0 [] (by decide)⟩

/-! ### Path encryption (encryption.py) -/

/-- The urlsafe base64 alphabet (`base64.urlsafe_b64encode`): 62 is `-`, 63 is
`_`. -/
def b64urlChar (v : Nat) : Nat :=
  if v < 26 then 65 + v
  else if v < 52 then 97 + (v - 26)
  else if v < 62 then 48 + (v - 52)
  else if v = 62 then 45
  else 95

/-- Proof-side inverse of the urlsafe alphabet. -/
def b64urlCharInv (c : Nat) : Nat :=
  if 65 ≤ c ∧ c ≤ 90 then c - 65
  else if 97 ≤ c ∧ c ≤ 122 then c - 97 + 26
  else if 48 ≤ c ∧ c ≤ 57 then c - 48 + 52
  else if c = 45 then 62
  else 63

theorem b64urlCharInv_char {v : Nat} (h : v < 64) : b64urlCharInv (b64urlChar v) = v := by
  rw [b64urlChar, b64urlCharInv]
  split_ifs <;> omega

/-- `_b64url_encode` (encryption.py 18–19): urlsafe base64 with the `=`
padding stripped. -/
def b64urlEnc : List Nat → List Nat
  | [] => []
  | [a] => [b64urlChar (a / 4), b64urlChar (a % 4 * 16)]
  | [a, b] => [b64urlChar (a / 4), b64urlChar (a % 4 * 16 + b / 16), b64urlChar (b % 16 * 4)]
  | a :: b :: c :: rest =>
    b64urlChar (a / 4) :: b64urlChar (a % 4 * 16 + b / 16) ::
      b64urlChar (b % 16 * 4 + c / 64) :: b64urlChar (c % 64) :: b64urlEnc rest

/-- `_b64url_decode` (encryption.py 22–24): re-pad to a multiple of four and
decode the urlsafe alphabet. -/
def b64urlDec : List Nat → List Nat
  | e1 :: e2 :: e3 :: e4 :: rest =>
    (b64urlCharInv e1 * 4 + b64urlCharInv e2 / 16) ::
      (b64urlCharInv e2 % 16 * 16 + b64urlCharInv e3 / 4) ::
      (b64urlCharInv e3 % 4 * 64 + b64urlCharInv e4) :: b64urlDec rest
  | [e1, e2, e3] =>
    [b64urlCharInv e1 * 4 + b64urlCharInv e2 / 16,
     b64urlCharInv e2 % 16 * 16 + b64urlCharInv e3 / 4]
  | [e1, e2] => [b64urlCharInv e1 * 4 + b64urlCharInv e2 / 16]
  | _ => []

theorem b64urlDec_enc : ∀ l : List Nat, (∀ b ∈ l, b < 256) →
    b64urlDec (b64urlEnc l) = l := by
  intro l
  induction l using b64urlEnc.induct with
  | case1 => intro hb; rfl
  | case2 a =>
    intro hb
    have ha : a < 256 := hb a (by simp)
    rw [b64urlEnc, b64urlDec]
    rw [b64urlCharInv_char (by omega), b64urlCharInv_char (by omega)]
    congr 1
    omega
  | case3 a b =>
    intro hb
    have ha : a < 256 := hb a (by simp)
    have hbb : b < 256 := hb b (by simp)
    rw [b64urlEnc, b64urlDec]
    rw [b64urlCharInv_char (by omega), b64urlCharInv_char (by omega),
      b64urlCharInv_char (by omega)]
    congr 1
    · omega
    congr 1
    omega
  | case4 a b c rest ih =>
    intro hb
    have ha : a < 256 := hb a (by simp)
    have hbb : b < 256 := hb b (by simp)
    have hc : c < 256 := hb c (by simp)
    rw [b64urlEnc, b64urlDec]
    rw [b64urlCharInv_char (by omega), b64urlCharInv_char (by omega),
      b64urlCharInv_char (by omega), b64urlCharInv_char (by omega)]
    rw [ih (fun x hx => hb x (by simp [hx]))]
    congr 1
    · omega
    congr 1
    · omega
    congr 1
    omega

/-- Every output character of `b64urlEnc` is from the urlsafe alphabet. -/
theorem b64urlEnc_mem : ∀ (l : List Nat) (c : Nat), c ∈ b64urlEnc l →
    ∃ v, c = b64urlChar v := by
  intro l
  induction l using b64urlEnc.induct with
  | case1 => intro c hc; simp [b64urlEnc] at hc
  | case2 a =>
    intro c hc
    simp only [b64urlEnc, List.mem_cons, List.not_mem_nil, or_false] at hc
    rcases hc with h | h <;> exact ⟨_, h⟩
  | case3 a b =>
    intro c hc
    simp only [b64urlEnc, List.mem_cons, List.not_mem_nil, or_false] at hc
    rcases hc with h | h | h <;> exact ⟨_, h⟩
  | case4 a b c rest ih =>
    intro x hx
    simp only [b64urlEnc, List.mem_cons] at hx
    rcases hx with h | h | h | h | h
    · exact ⟨_, h⟩
    · exact ⟨_, h⟩
    · exact ⟨_, h⟩
    · exact ⟨_, h⟩
    · exact ih x h

/-- Separator test for the split class `([./\x5c])`. -/
def isSep (c : Nat) : Bool := c == 46 || c == 47 || c == 92

theorem b64urlChar_not_sep (v : Nat) : isSep (b64urlChar v) = false := by
  rw [b64urlChar, isSep]
  split_ifs <;> (simp only [Bool.or_eq_false_iff, beq_eq_false_iff_ne, ne_eq]
                 refine ⟨⟨?_, ?_⟩, ?_⟩ <;> omega)

theorem b64urlChar_ne_zero (v : Nat) : b64urlChar v ≠ 0 := by
  rw [b64urlChar]
  split_ifs <;> omega

theorem b64urlEnc_ne_nil : ∀ l : List Nat, l ≠ [] → b64urlEnc l ≠ [] := by
  intro l h
  match l with
  | [a] => rw [b64urlEnc]; simp
  | [a, b] => rw [b64urlEnc]; simp
  | a :: b :: c :: rest => rw [b64urlEnc]; simp

/-- The CTR keystream application (`encryptor.update`): byte i of the message
XORed with byte i of the keystream. -/
def ctrApplyGo (ks : Nat → Nat) (i : Nat) : List Nat → List Nat
  | [] => []
  | b :: bs => (b ^^^ ks i) :: ctrApplyGo ks (i + 1) bs

def ctrApply (ks : Nat → Nat) (l : List Nat) : List Nat := ctrApplyGo ks 0 l

theorem ctrApplyGo_invol (ks : Nat → Nat) : ∀ (l : List Nat) (i : Nat),
    ctrApplyGo ks i (ctrApplyGo ks i l) = l := by
  intro l
  induction l with
  | nil => intro i; rfl
  | cons b bs ih =>
    intro i
    simp only [ctrApplyGo, Nat.xor_cancel_right, List.cons.injEq, true_and]
    exact ih (i + 1)

theorem ctrApplyGo_lt256 (ks : Nat → Nat) (hks : ∀ i, ks i < 256) :
    ∀ (l : List Nat) (i : Nat), (∀ b ∈ l, b < 256) → ∀ b ∈ ctrApplyGo ks i l, b < 256 := by
  intro l
  induction l with
  | nil => intro i hl b hb; simp [ctrApplyGo] at hb
  | cons x xs ih =>
    intro i hl b hb
    simp only [ctrApplyGo, List.mem_cons] at hb
    cases hb with
    | inl h =>
      subst h
      have hx : x < 2 ^ 8 := by
        have := hl x (List.mem_cons_self x xs)
        omega
      have hk : ks i < 2 ^ 8 := by
        have := hks i
        omega
      have := Nat.xor_lt_two_pow hx hk
      omega
    | inr h => exact ih (i + 1) (fun y hy => hl y (List.mem_cons_of_mem x hy)) b h

/-- `_pad_to_multiple` (encryption.py 27–31): right-pad with NUL characters to
a multiple of `multiple`. -/
def _pad_to_multiple (value : List Nat) (multiple : Nat) : List Nat :=
  value ++ List.replicate ((multiple - value.length % multiple) % multiple) 0

/-- `bytes.rstrip(b"\x00")`. -/
def rstrip0 (l : List Nat) : List Nat := (l.reverse.dropWhile (fun c => c == 0)).reverse

theorem rstrip0_append_zeros (x : List Nat) (k : Nat) :
    rstrip0 (x ++ List.replicate k 0) = rstrip0 x := by
  rw [rstrip0, rstrip0, List.reverse_append, List.reverse_replicate]
  congr 1
  induction k with
  | zero => rfl
  | succ k ih =>
    rw [List.replicate_succ, List.cons_append, List.dropWhile]
    simpa using ih

theorem rstrip0_no_zero (l : List Nat) (h : ∀ b ∈ l, b ≠ 0) : rstrip0 l = l := by
  rw [rstrip0]
  cases hr : l.reverse with
  | nil =>
    have : l = [] := by
      have := congrArg List.reverse hr
      simpa using this
    subst this
    rfl
  | cons x t =>
    have hx : x ∈ l := by
      rw [← List.mem_reverse, hr]
      exact List.mem_cons_self x t
    rw [List.dropWhile]
    rw [show (x == 0) = false from by simpa using h x hx]
    rw [← hr, List.reverse_reverse]

theorem utf8EncChar_ne_zero {c : Nat} (h : c ≠ 0) : ∀ b ∈ utf8EncChar c, b ≠ 0 := by
  intro b hb
  rw [utf8EncChar] at hb
  split_ifs at hb <;> simp only [List.mem_cons, List.not_mem_nil, or_false] at hb <;>
    (rcases hb with h1 | h1 | h1 | h1 <;> try subst h1) <;> omega

theorem utf8Enc_ne_zero {s : List Nat} (h : ∀ c ∈ s, c ≠ 0) : ∀ b ∈ utf8Enc s, b ≠ 0 := by
  intro b hb
  rw [utf8Enc] at hb
  simp only [List.mem_join, List.mem_map] at hb
  obtain ⟨l, ⟨c, hc, hl⟩, hbl⟩ := hb
  subst hl
  exact utf8EncChar_ne_zero (h c hc) b hbl

theorem utf8Enc_replicate0 (k : Nat) : utf8Enc (List.replicate k 0) = List.replicate k 0 := by
  induction k with
  | zero => rfl
  | succ k ih =>
    rw [List.replicate_succ, utf8Enc_cons, ih]
    rfl

/-- `V1MasterKeyedEncryptionScheme` with the primitives derived from the
master key modelled as opaque functions: `macF` is
`hmac.new(self._mac_key, ·, sha256).digest()` and `ksF iv` is the AES-256-CTR
keystream for `self._enc_key` under the given 16-byte IV (CTR encryption and
decryption both XOR the keystream into the data). -/
structure V1MasterKeyedEncryptionScheme where
  macF : List Nat → List Nat
  ksF : List Nat → Nat → Nat

/-- `V1MasterKeyedEncryptionScheme.encrypt` (encryption.py 45–55): HMAC the
UTF-8 of the value, take a 6-byte prefix, build the IV from it, NUL-pad the
value to a multiple of four characters, CTR-encrypt its UTF-8, and
base64url-encode prefix plus ciphertext. -/
def V1encrypt (sch : V1MasterKeyedEncryptionScheme) (value : List Nat) : List Nat :=
  b64urlEnc ((sch.macF (utf8Enc value)).take 6 ++
    ctrApply (sch.ksF ((sch.macF (utf8Enc value)).take 6 ++ List.replicate 10 0))
      (utf8Enc (_pad_to_multiple value 4)))

/-- `V1MasterKeyedEncryptionScheme.decrypt` (encryption.py 57–66): base64url
decode, split off the 6-byte prefix, CTR-decrypt the rest under the IV built
from the prefix, strip trailing NUL bytes and UTF-8 decode (`none` is a raised
`UnicodeDecodeError`). -/
def V1decrypt (sch : V1MasterKeyedEncryptionScheme) (value : List Nat) : Option (List Nat) :=
  utf8Dec (rstrip0 (ctrApply (sch.ksF ((b64urlDec value).take 6 ++ List.replicate 10 0))
    ((b64urlDec value).drop 6)))

/-- Segment-level round trip of the keyed scheme. -/
theorem V1decrypt_V1encrypt (sch : V1MasterKeyedEncryptionScheme) (v : List Nat)
    (hmacLen : ∀ m, (sch.macF m).length = 32)
    (hmacB : ∀ m, ∀ b ∈ sch.macF m, b < 256)
    (hks : ∀ iv i, sch.ksF iv i < 256)
    (hv : ValidStr v) (hz : ∀ c ∈ v, c ≠ 0) :
    V1decrypt sch (V1encrypt sch v) = some v := by
  rw [V1encrypt, V1decrypt]
  have hpadvalid : ValidStr (_pad_to_multiple v 4) := by
    intro c hc
    rw [_pad_to_multiple] at hc
    rcases List.mem_append.mp hc with h | h
    · exact hv c h
    · have := List.eq_of_mem_replicate h
      subst this
      constructor
      · norm_num
      · omega
  have hctb : ∀ b ∈ ctrApply (sch.ksF ((sch.macF (utf8Enc v)).take 6 ++ List.replicate 10 0))
      (utf8Enc (_pad_to_multiple v 4)), b < 256 := by
    intro b hb
    exact ctrApplyGo_lt256 _ (fun i => hks _ i) _ 0 (utf8Enc_lt256 _ hpadvalid) b hb
  have hpre : ∀ b ∈ (sch.macF (utf8Enc v)).take 6, b < 256 := by
    intro b hb
    exact hmacB (utf8Enc v) b (List.take_subset 6 _ hb)
  have hall : ∀ b ∈ (sch.macF (utf8Enc v)).take 6 ++
      ctrApply (sch.ksF ((sch.macF (utf8Enc v)).take 6 ++ List.replicate 10 0))
        (utf8Enc (_pad_to_multiple v 4)), b < 256 := by
    intro b hb
    rcases List.mem_append.mp hb with h | h
    · exact hpre b h
    · exact hctb b h
  rw [b64urlDec_enc _ hall]
  have hplen : ((sch.macF (utf8Enc v)).take 6).length = 6 := by
    rw [List.length_take, hmacLen]
    decide
  have htake : ((sch.macF (utf8Enc v)).take 6 ++
      ctrApply (sch.ksF ((sch.macF (utf8Enc v)).take 6 ++ List.replicate 10 0))
        (utf8Enc (_pad_to_multiple v 4))).take 6 = (sch.macF (utf8Enc v)).take 6 :=
    List.take_left' hplen
  have hdrop : ((sch.macF (utf8Enc v)).take 6 ++
      ctrApply (sch.ksF ((sch.macF (utf8Enc v)).take 6 ++ List.replicate 10 0))
        (utf8Enc (_pad_to_multiple v 4))).drop 6 =
      ctrApply (sch.ksF ((sch.macF (utf8Enc v)).take 6 ++ List.replicate 10 0))
        (utf8Enc (_pad_to_multiple v 4)) :=
    List.drop_left' hplen
  rw [htake, hdrop]
  rw [ctrApply, ctrApply, ctrApplyGo_invol]
  rw [_pad_to_multiple, utf8Enc_append, utf8Enc_replicate0, rstrip0_append_zeros,
    rstrip0_no_zero _ (utf8Enc_ne_zero hz), utf8Dec_enc v hv]

/-- `_PATH_SPLIT_RE.match(part)`: the regex `([./\x5c])` anchored at the start
of the string. -/
def startsWithSep : List Nat → Bool
  | [] => false
  | c :: _ => isSep c

/-- `re.split` with the capturing class `([./\x5c])`: alternating (possibly
empty) separator-free segments and single-character separator tokens. -/
def pathSplitGo (cur : List Nat) : List Nat → List (List Nat)
  | [] => [cur.reverse]
  | c :: rest =>
    if isSep c then cur.reverse :: [c] :: pathSplitGo [] rest
    else pathSplitGo (c :: cur) rest

def pathSplit (p : List Nat) : List (List Nat) := pathSplitGo [] p

/-- The per-part branch of `encrypt_path`: separators and empty parts pass
through, everything else is encrypted. -/
def encPart (sch : V1MasterKeyedEncryptionScheme) (part : List Nat) : List Nat :=
  if startsWithSep part || part.isEmpty then part else V1encrypt sch part

/-- `encrypt_path` (encryption.py 87–95). -/
def encrypt_path (path : List Nat) (sch : V1MasterKeyedEncryptionScheme) : List Nat :=
  ((pathSplit path).map (encPart sch)).join

/-- The per-part branch of `decrypt_path`. -/
def decPart (sch : V1MasterKeyedEncryptionScheme) (part : List Nat) : Option (List Nat) :=
  if startsWithSep part || part.isEmpty then some part else V1decrypt sch part

def decPartsGo (sch : V1MasterKeyedEncryptionScheme) : List (List Nat) →
    Option (List (List Nat))
  | [] => some []
  | part :: rest =>
    match decPart sch part, decPartsGo sch rest with
    | some d, some ds => some (d :: ds)
    | _, _ => none

/-- `decrypt_path` (encryption.py 98–106); a raised decode error anywhere is
`none`. -/
def decrypt_path (path : List Nat) (sch : V1MasterKeyedEncryptionScheme) :
    Option (List Nat) :=
  Option.map List.join (decPartsGo sch (pathSplit path))

/-- The shape of `re.split` output with a capturing single-character class:
separator-free segments alternating with single separator tokens. -/
inductive SplitOk : List (List Nat) → Prop
  | single (seg : List Nat) (h : ∀ c ∈ seg, isSep c = false) : SplitOk [seg]
  | sep (seg : List Nat) (c : Nat) (rest : List (List Nat))
      (h : ∀ x ∈ seg, isSep x = false) (hc : isSep c = true) (hr : SplitOk rest) :
      SplitOk (seg :: [c] :: rest)

theorem splitOk_pathSplitGo : ∀ (l cur : List Nat), (∀ c ∈ cur, isSep c = false) →
    SplitOk (pathSplitGo cur l) := by
  intro l
  induction l with
  | nil =>
    intro cur h
    rw [pathSplitGo]
    exact SplitOk.single _ (fun c hc => h c (List.mem_reverse.mp hc))
  | cons c rest ih =>
    intro cur h
    rw [pathSplitGo]
    by_cases hs : isSep c = true
    · rw [if_pos hs]
      exact SplitOk.sep _ c _ (fun x hx => h x (List.mem_reverse.mp hx)) hs
        (ih [] (by simp))
    · rw [if_neg hs]
      refine ih (c :: cur) ?_
      intro x hx
      rcases List.mem_cons.mp hx with h1 | h1
      · subst h1
        simpa using hs
      · exact h x h1

theorem pathSplitGo_join : ∀ (l cur : List Nat),
    (pathSplitGo cur l).join = cur.reverse ++ l := by
  intro l
  induction l with
  | nil =>
    intro cur
    rw [pathSplitGo]
    simp
  | cons c rest ih =>
    intro cur
    rw [pathSplitGo]
    by_cases hs : isSep c = true
    · rw [if_pos hs]
      simp [ih []]
    · rw [if_neg hs, ih (c :: cur)]
      simp

theorem pathSplit_join (p : List Nat) : (pathSplit p).join = p := by
  rw [pathSplit, pathSplitGo_join]
  rfl

theorem pathSplitGo_noSep : ∀ (l cur : List Nat), (∀ c ∈ l, isSep c = false) →
    pathSplitGo cur l = [cur.reverse ++ l] := by
  intro l
  induction l with
  | nil =>
    intro cur h
    rw [pathSplitGo]
    simp
  | cons c rest ih =>
    intro cur h
    rw [pathSplitGo, if_neg (by simp [h c (List.mem_cons_self c rest)]),
      ih (c :: cur) (fun x hx => h x (List.mem_cons_of_mem c hx))]
    simp

theorem pathSplitGo_seg_sep : ∀ (seg : List Nat) (cur : List Nat) (c : Nat) (t : List Nat),
    (∀ x ∈ seg, isSep x = false) → isSep c = true →
    pathSplitGo cur (seg ++ c :: t) = (cur.reverse ++ seg) :: [c] :: pathSplitGo [] t := by
  intro seg
  induction seg with
  | nil =>
    intro cur c t h hc
    rw [List.nil_append, pathSplitGo, if_pos hc]
    simp
  | cons s ss ih =>
    intro cur c t h hc
    rw [List.cons_append, pathSplitGo,
      if_neg (by simp [h s (List.mem_cons_self s ss)]),
      ih (s :: cur) c t (fun x hx => h x (List.mem_cons_of_mem s hx)) hc]
    simp

theorem pathSplit_of_splitOk : ∀ parts : List (List Nat), SplitOk parts →
    pathSplit parts.join = parts := by
  intro parts hok
  induction hok with
  | single seg h =>
    rw [show ([seg] : List (List Nat)).join = seg from by simp]
    rw [pathSplit, pathSplitGo_noSep seg [] h]
    simp
  | sep seg c rest h hc hr ih =>
    rw [show (seg :: [c] :: rest : List (List Nat)).join = seg ++ c :: rest.join from by simp]
    rw [pathSplit, pathSplitGo_seg_sep seg [] c rest.join h hc]
    rw [show pathSplitGo [] rest.join = pathSplit rest.join from rfl, ih]
    simp

theorem V1encrypt_no_sep (sch : V1MasterKeyedEncryptionScheme) (v : List Nat) :
    ∀ c ∈ V1encrypt sch v, isSep c = false := by
  intro c hc
  obtain ⟨w, hw⟩ := b64urlEnc_mem _ c hc
  subst hw
  exact b64urlChar_not_sep w

theorem V1encrypt_ne_nil (sch : V1MasterKeyedEncryptionScheme) (v : List Nat)
    (hmacLen : ∀ m, (sch.macF m).length = 32) : V1encrypt sch v ≠ [] := by
  rw [V1encrypt]
  refine b64urlEnc_ne_nil _ ?_
  intro hnil
  have := congrArg List.length hnil
  simp only [List.length_append, List.length_take, hmacLen, List.length_nil] at this
  omega

theorem startsWithSep_false {l : List Nat} (h : ∀ c ∈ l, isSep c = false) :
    startsWithSep l = false := by
  cases l with
  | nil => rfl
  | cons c t =>
    rw [startsWithSep]
    exact h c (List.mem_cons_self c t)

theorem encPart_sepToken (sch : V1MasterKeyedEncryptionScheme) {c : Nat}
    (hc : isSep c = true) : encPart sch [c] = [c] := by
  rw [encPart, if_pos]
  rw [startsWithSep, hc]
  simp

theorem decPart_sepToken (sch : V1MasterKeyedEncryptionScheme) {c : Nat}
    (hc : isSep c = true) : decPart sch [c] = some [c] := by
  rw [decPart, if_pos]
  rw [startsWithSep, hc]
  simp

theorem decPart_encPart (sch : V1MasterKeyedEncryptionScheme) (part : List Nat)
    (hmacLen : ∀ m, (sch.macF m).length = 32)
    (hmacB : ∀ m, ∀ b ∈ sch.macF m, b < 256)
    (hks : ∀ iv i, sch.ksF iv i < 256)
    (hns : ∀ x ∈ part, isSep x = false)
    (hval : ValidStr part) (hz : ∀ c ∈ part, c ≠ 0) :
    decPart sch (encPart sch part) = some part := by
  by_cases hemp : part = []
  · subst hemp
    rfl
  · have hsw : startsWithSep part = false := startsWithSep_false hns
    have hie : part.isEmpty = false := by
      cases part with
      | nil => exact absurd rfl hemp
      | cons a t => rfl
    rw [encPart, if_neg (by rw [hsw, hie]; simp)]
    have hesw : startsWithSep (V1encrypt sch part) = false :=
      startsWithSep_false (V1encrypt_no_sep sch part)
    have heie : (V1encrypt sch part).isEmpty = false := by
      cases he : V1encrypt sch part with
      | nil => exact absurd he (V1encrypt_ne_nil sch part hmacLen)
      | cons a t => rfl
    rw [decPart, if_neg (by rw [hesw, heie]; simp)]
    exact V1decrypt_V1encrypt sch part hmacLen hmacB hks hval hz

theorem splitOk_map_enc (sch : V1MasterKeyedEncryptionScheme) :
    ∀ parts : List (List Nat), SplitOk parts →
      SplitOk (parts.map (encPart sch)) := by
  intro parts hok
  induction hok with
  | single seg h =>
    simp only [List.map]
    refine SplitOk.single _ ?_
    intro c hc
    rw [encPart] at hc
    by_cases hcond : (startsWithSep seg || seg.isEmpty) = true
    · rw [if_pos hcond] at hc
      exact h c hc
    · rw [if_neg hcond] at hc
      exact V1encrypt_no_sep sch seg c hc
  | sep seg c rest h hc hr ih =>
    simp only [List.map]
    rw [encPart_sepToken sch hc]
    refine SplitOk.sep _ c _ ?_ hc ih
    intro x hx
    rw [encPart] at hx
    by_cases hcond : (startsWithSep seg || seg.isEmpty) = true
    · rw [if_pos hcond] at hx
      exact h x hx
    · rw [if_neg hcond] at hx
      exact V1encrypt_no_sep sch seg x hx

theorem decPartsGo_map_enc (sch : V1MasterKeyedEncryptionScheme)
    (hmacLen : ∀ m, (sch.macF m).length = 32)
    (hmacB : ∀ m, ∀ b ∈ sch.macF m, b < 256)
    (hks : ∀ iv i, sch.ksF iv i < 256) :
    ∀ parts : List (List Nat), SplitOk parts →
      (∀ part ∈ parts, ValidStr part ∧ ∀ c ∈ part, c ≠ 0) →
      decPartsGo sch (parts.map (encPart sch)) = some parts := by
  intro parts hok
  induction hok with
  | single seg h =>
    intro hmem
    simp only [List.map]
    rw [decPartsGo]
    rw [decPart_encPart sch seg hmacLen hmacB hks h (hmem seg (by simp)).1
      (hmem seg (by simp)).2]
    try rfl
  | sep seg c rest h hc hr ih =>
    intro hmem
    simp only [List.map]
    rw [decPartsGo]
    rw [decPart_encPart sch seg hmacLen hmacB hks h (hmem seg (by simp)).1
      (hmem seg (by simp)).2]
    rw [encPart_sepToken sch hc, decPartsGo, decPart_sepToken sch hc]
    rw [ih (fun part hp => hmem part (by simp [hp]))]
    try rfl

theorem pathSplitGo_mem_chars : ∀ (l cur part : List Nat) (c : Nat),
    part ∈ pathSplitGo cur l → c ∈ part → c ∈ cur ∨ c ∈ l := by
  intro l
  induction l with
  | nil =>
    intro cur part c hp hc
    rw [pathSplitGo] at hp
    simp only [List.mem_singleton] at hp
    subst hp
    exact Or.inl (List.mem_reverse.mp hc)
  | cons x rest ih =>
    intro cur part c hp hc
    rw [pathSplitGo] at hp
    by_cases hs : isSep x = true
    · rw [if_pos hs] at hp
      rcases List.mem_cons.mp hp with h1 | h1
      · subst h1
        exact Or.inl (List.mem_reverse.mp hc)
      · rcases List.mem_cons.mp h1 with h2 | h2
        · subst h2
          simp only [List.mem_singleton] at hc
          exact Or.inr (by rw [hc]; exact List.mem_cons_self x rest)
        · rcases ih [] part c h2 hc with h3 | h3
          · simp at h3
          · exact Or.inr (List.mem_cons_of_mem x h3)
    · rw [if_neg hs] at hp
      rcases ih (x :: cur) part c hp hc with h3 | h3
      · rcases List.mem_cons.mp h3 with h4 | h4
        · exact Or.inr (by rw [h4]; exact List.mem_cons_self x rest)
        · exact Or.inl h4
      · exact Or.inr (List.mem_cons_of_mem x h3)

theorem filter_eq_of_splitOk (sch : V1MasterKeyedEncryptionScheme) :
    ∀ parts : List (List Nat), SplitOk parts →
      (parts.map (encPart sch)).join.filter (fun c => isSep c) =
        parts.join.filter (fun c => isSep c) := by
  intro parts hok
  have hseg : ∀ (seg : List Nat), (∀ x ∈ seg, isSep x = false) →
      (encPart sch seg).filter (fun c => isSep c) = [] ∧
      seg.filter (fun c => isSep c) = [] := by
    intro seg h
    constructor
    · refine List.filter_eq_nil.mpr ?_
      intro a ha
      rw [encPart] at ha
      by_cases hcond : (startsWithSep seg || seg.isEmpty) = true
      · rw [if_pos hcond] at ha
        simp [h a ha]
      · rw [if_neg hcond] at ha
        simp [V1encrypt_no_sep sch seg a ha]
    · refine List.filter_eq_nil.mpr ?_
      intro a ha
      simp [h a ha]
  induction hok with
  | single seg h =>
    simp only [List.map]
    rw [show ([encPart sch seg] : List (List Nat)).join = encPart sch seg from by simp,
      show ([seg] : List (List Nat)).join = seg from by simp]
    rw [(hseg seg h).1, (hseg seg h).2]
  | sep seg c rest h hc hr ih =>
    simp only [List.map]
    rw [encPart_sepToken sch hc]
    rw [show (encPart sch seg :: [c] :: List.map (encPart sch) rest : List (List Nat)).join =
        encPart sch seg ++ ([c] ++ (List.map (encPart sch) rest).join) from by simp,
      show (seg :: [c] :: rest : List (List Nat)).join = seg ++ ([c] ++ rest.join) from by simp]
    simp only [List.filter_append]
    rw [(hseg seg h).1, (hseg seg h).2, ih]

/-- C3: for any path (a valid, NUL-free string) and any keyed scheme whose
HMAC yields 32 in-range bytes and whose CTR keystream yields bytes,
`decrypt_path (encrypt_path path) = path`; the encrypted path splits into
exactly the original token sequence with each non-separator segment encrypted
in place (so every separator appears unencrypted at the same token boundary,
in order); and the separator characters of the encrypted path are exactly
those of the original. -/
theorem C3_path_encryption_roundtrip_and_separators :
    ∀ (sch : V1MasterKeyedEncryptionScheme) (p : List Nat),
      (∀ m, (sch.macF m).length = 32) →
      (∀ m, ∀ b ∈ sch.macF m, b < 256) →
      (∀ iv i, sch.ksF iv i < 256) →
      ValidStr p → (∀ c ∈ p, c ≠ 0) →
      decrypt_path (encrypt_path p sch) sch = some p ∧
      pathSplit (encrypt_path p sch) = (pathSplit p).map (encPart sch) ∧
      (encrypt_path p sch).filter (fun c => isSep c) = p.filter (fun c => isSep c) := by
  intro sch p hmacLen hmacB hks hv hz
  have hok : SplitOk (pathSplit p) := splitOk_pathSplitGo p [] (by simp)
  have hsplitEnc : pathSplit (encrypt_path p sch) = (pathSplit p).map (encPart sch) := by
    rw [encrypt_path]
    exact pathSplit_of_splitOk _ (splitOk_map_enc sch _ hok)
  have hmem : ∀ part ∈ pathSplit p, ValidStr part ∧ ∀ c ∈ part, c ≠ 0 := by
    intro part hp
    constructor
    · intro c hc
      rcases pathSplitGo_mem_chars p [] part c hp hc with h | h
      · simp at h
      · exact hv c h
    · intro c hc
      rcases pathSplitGo_mem_chars p [] part c hp hc with h | h
      · simp at h
      · exact hz c h
  refine ⟨?_, hsplitEnc, ?_⟩
  · rw [decrypt_path, hsplitEnc]
    rw [decPartsGo_map_enc sch hmacLen hmacB hks _ hok hmem]
    rw [Option.map_some']
    rw [pathSplit_join]
  · rw [encrypt_path]
    have hfe := filter_eq_of_splitOk sch _ hok
    rw [hfe, pathSplit_join]

/-- Witness for C3 on the path `"a/b"` with a concrete scheme. -/
theorem C3_path_encryption_roundtrip_and_separators_witness :
    decrypt_path (encrypt_path [97, 47, 98]
        ⟨fun _ => List.replicate 32 0, fun _ _ => 0⟩)
        ⟨fun _ => List.replicate 32 0, fun _ _ => 0⟩ = some [97, 47, 98] ∧
    (encrypt_path [97, 47, 98]
        (⟨fun _ => List.replicate 32 0, fun _ _ => 0⟩ :
          V1MasterKeyedEncryptionScheme)).filter (fun c => isSep c) =
      ([97, 47, 98] : List Nat).filter (fun c => isSep c) := by
  have h := C3_path_encryption_roundtrip_and_separators
    ⟨fun _ => List.replicate 32 0, fun _ _ => 0⟩ [97, 47, 98]
    (fun m => by simp)
    (fun m b hb => by
      have := List.eq_of_mem_replicate hb
      omega)
    (fun iv i => by
      show (0 : Nat) < 256
      decide)
    (by decide) (by decide)
  exact ⟨h.1, h.2.2⟩

end CursorSearchMcp
